import Mathlib

/-!
Verification development for the `zod-enum-forge` library (src/index.ts).

The library manipulates Zod schema trees: object schemas, enumerated
schemas, two-branch unions tagged as "flexible enums", string schemas and
optional/nullable wrappers.  We embed the schema trees and the sample-data
values as inductive types and transcribe the source functions
(`updateSchemaFromData`, `forgeEnum`, `limitEnum`, `strictEnum`,
`separateFlexibility`, `integrateFlexibility`, `isFlexEnum`, ...) as Lean
functions.  Fallible code returns `Except Err`.  The only in-place mutation
in the source is `setMetadata`; the operations that perform it on nodes of
their input (`_strictOne` and the traversals built on it) are modelled as
returning, besides their result, the input tree as it stands after the
call.
-/

namespace ZodEnumForge

/-- Metadata attached to a schema node via `setMetadata` / read via
`def.metadata`.  The source only ever stores objects of the shape
`{ enumForge: true }` or `{ enumForge: true, description }`, and only ever
reads the `enumForge` and `description` properties. -/
structure MetaInfo where
  enumForge : Bool
  description : Option String
deriving DecidableEq, Repr

mutual

/-- A Zod schema node, restricted to the node kinds the library inspects or
builds: object schemas (`z.object`), enumerated schemas (`z.enum`), string
schemas (`z.string().describe(..)` — the description is `def.description`),
two-branch unions (`a.or(b)` — every union the library builds or looks into
has exactly two branches, checked via `options.length !== 2`), and
optional/nullable wrappers.  `otherLeaf` stands for any other schema kind
(numbers, dates, arrays, ...), which every operation passes over
untouched.  `meta` is the node's `def.metadata` (absent = `none`). -/
inductive Schema where
  | obj (fields : Fields)
  | enum (labels : List String) (meta : Option MetaInfo)
  | str (description : Option String)
  | union2 (fst snd : Schema) (meta : Option MetaInfo)
  | optional (inner : Schema)
  | nullable (inner : Schema)
  | otherLeaf
deriving DecidableEq, Repr

/-- The ordered field map of an object schema (`schema.shape`). -/
inductive Fields where
  | nil
  | cons (name : String) (field : Schema) (rest : Fields)
deriving DecidableEq, Repr

end

mutual

/-- A JavaScript value fed as sample data (`dataJson`). -/
inductive JValue where
  | vstr (s : String)
  | vnum (n : Int)
  | vbool (b : Bool)
  | vnull
  | vundef
  | vobj (entries : JEntries)
deriving DecidableEq, Repr

/-- Ordered own properties of a JavaScript object value. -/
inductive JEntries where
  | nil
  | cons (key : String) (value : JValue) (rest : JEntries)
deriving DecidableEq, Repr

end

/-- Errors thrown by the library.  The source throws plain `Error`s; we
distinguish them by their message, plus the `TypeError`s JavaScript raises
on property access through `null`/`undefined`. -/
inductive Err where
  | emptyEnumError      -- "Enum must have at least one value." / "Resulting enum would be empty."
  | notAnEnumError (field : String)  -- `Field "k" is not a ZodEnum.` (and the limitEnum variant)
  | extractionError     -- "Unable to extract enum values"
  | invalidSignature    -- "Invalid ... signature." / "... expects a ..."
  | typeError           -- JavaScript TypeError (property read on null/undefined)
deriving DecidableEq, Repr

/-- Lookup in an object schema's shape (`shape[key]`), first binding wins as
for JavaScript object keys (shapes have unique keys). -/
def lookupField : Fields → String → Option Schema
  | .nil, _ => none
  | .cons n f r, k => if n = k then some f else lookupField r k

/-- Lookup of an own property of a JavaScript object. -/
def lookupEntry : JEntries → String → Option JValue
  | .nil, _ => none
  | .cons n v r, k => if n = k then some v else lookupEntry r k

/-- Transcription of `data?.[key]`: optional chaining yields `undefined` on
`null`/`undefined` receivers, object property lookup otherwise, and
`undefined` for property access on primitive values. -/
def jGet (data : JValue) (key : String) : JValue :=
  match data with
  | .vobj es => (lookupEntry es key).getD JValue.vundef
  | _ => JValue.vundef

/-- JavaScript truthiness of a sample value. -/
def truthy : JValue → Bool
  | .vstr s => s ≠ ""
  | .vnum n => n ≠ 0
  | .vbool b => b
  | .vnull => false
  | .vundef => false
  | .vobj _ => true

/-- Transcription of the JavaScript `a || b` fallback idiom on an optional
string (`undefined` and `""` are falsy). -/
def jsOr (a : Option String) (b : String) : String :=
  match a with
  | some s => if s = "" then b else s
  | none => b

/-- Variant of `jsOr` where the fallback is itself optional
(`x || y` with both sides possibly `undefined`). -/
def jsOrOpt (a b : Option String) : Option String :=
  match a with
  | some s => if s = "" then b else some s
  | none => b

/-- Type guard `isZodObject` (`createZodTypeGuard('ZodObject')`). -/
def isZodObject : Schema → Bool
  | .obj _ => true
  | _ => false

/-- Type guard `isZodEnum`. -/
def isZodEnum : Schema → Bool
  | .enum _ _ => true
  | _ => false

/-- Type guard `isZodUnion`. -/
def isZodUnion : Schema → Bool
  | .union2 _ _ _ => true
  | _ => false

/-- Type guard `isZodString`. -/
def isZodString : Schema → Bool
  | .str _ => true
  | _ => false

/-- Type guard `isZodOptional`. -/
def isZodOptional : Schema → Bool
  | .optional _ => true
  | _ => false

/-- Type guard `isZodNullable`. -/
def isZodNullable : Schema → Bool
  | .nullable _ => true
  | _ => false

/-- The node's `def.description` (set by `.describe(...)`; the library only
ever reads it off string branches). -/
def descrOf : Schema → Option String
  | .str d => d
  | _ => none

/-- The node's `def.metadata`. -/
def metaOf : Schema → Option MetaInfo
  | .enum _ m => m
  | .union2 _ _ m => m
  | _ => none

/-- Result record of `unwrapOptionalAndNullable`. -/
structure Unwrapped where
  schema : Schema
  isOptional : Bool
  isNullable : Bool
deriving DecidableEq, Repr

/-- One step of `unwrapOptionalAndNullable`:
`if (isZodOptional(schema)) { isOptional = true; schema = unwrapOptional(schema); }`. -/
def stepOptional : Schema → Schema × Bool
  | .optional i => (i, true)
  | s => (s, false)

/-- One step of `unwrapOptionalAndNullable`:
`if (isZodNullable(schema)) { isNullable = true; schema = unwrapNullable(schema); }`. -/
def stepNullable : Schema → Schema × Bool
  | .nullable i => (i, true)
  | s => (s, false)

/-- Transcription of `unwrapOptionalAndNullable`: strip an optional layer,
then a nullable layer, then a possibly remaining optional layer, recording
which wrappers were seen. -/
def unwrapOptionalAndNullable (x : Schema) : Unwrapped :=
  let p1 := stepOptional x
  let p2 := stepNullable p1.1
  let p3 := stepOptional p2.1
  ⟨p3.1, p1.2 || p3.2, p2.2⟩

/-- Rewrapping pattern appearing after every inner rewrite in the source:
`if (isNullable) f = f.nullable(); if (isOptional) f = f.optional();`. -/
def rewrap (s : Schema) (isOpt isNul : Bool) : Schema :=
  let s1 := if isNul then Schema.nullable s else s
  if isOpt then Schema.optional s1 else s1

/-- Transcription of `isFlexEnum` restricted to genuine schema nodes (the
exported function is modelled over arbitrary inputs further below): a
two-branch union whose first branch is an enum and second branch a string,
tagged with `enumForge: true` metadata, or a plain enum carrying the tag. -/
def isFlexEnum : Schema → Bool
  | .union2 a b m =>
      isZodEnum a && isZodString b &&
        (match m with | some mi => mi.enumForge | none => false)
  | .enum _ m => (match m with | some mi => mi.enumForge | none => false)
  | _ => false

/-- Transcription of `getEnumValues`: extract the ordered label list of an
enumerated node; throws "Unable to extract enum values" when no strategy
yields a non-empty list (in particular for non-enum nodes and for an
enum whose label list is empty). -/
def getEnumValues : Schema → Except Err (List String)
  | .enum labels _ => if labels.isEmpty then .error .extractionError else .ok labels
  | _ => .error .extractionError

/-- First-occurrence deduplication, the semantics of `[...new Set(values)]`:
keep each element's first occurrence, in order. -/
def setDedup : List String → List String
  | [] => []
  | x :: xs => x :: (setDedup xs).filter (fun y => y ≠ x)

/-- Transcription of `toTuple`: deduplicate, then fail with
"Enum must have at least one value." on an empty result. -/
def toTuple (values : List String) : Except Err (List String) :=
  let u := setDedup values
  if u.isEmpty then .error .emptyEnumError else .ok u

/-- The `DEFAULT_DESC` guidance string. -/
def DEFAULT_DESC : String :=
  "If none of the existing enum values match, provide a new appropriate value for this field. Don't copy this description to the new value."

/-- JavaScript `value.includes(sub)`: contiguous substring containment. -/
def strIncludes (value sub : String) : Bool :=
  decide (sub.data <:+: value.data)

/-- Transcription of `sanitizeEnumValue`. -/
def sanitizeEnumValue (value : String) : String :=
  if value = DEFAULT_DESC || strIncludes value DEFAULT_DESC then "unknown" else value

theorem sizeOf_stepOptional_le (s : Schema) : sizeOf (stepOptional s).1 ≤ sizeOf s := by
  cases s <;> simp [stepOptional]

theorem sizeOf_stepNullable_le (s : Schema) : sizeOf (stepNullable s).1 ≤ sizeOf s := by
  cases s <;> simp [stepNullable]

theorem sizeOf_unwrap_le (x : Schema) :
    sizeOf (unwrapOptionalAndNullable x).schema ≤ sizeOf x := by
  unfold unwrapOptionalAndNullable
  calc sizeOf (stepOptional (stepNullable (stepOptional x).1).1).1
      ≤ sizeOf (stepNullable (stepOptional x).1).1 := sizeOf_stepOptional_le _
    _ ≤ sizeOf (stepOptional x).1 := sizeOf_stepNullable_le _
    _ ≤ sizeOf x := sizeOf_stepOptional_le _

/-- Per-field dispatch of `updateSchemaFromData` (lines 306-377).  `uf` is
the unwrapped field, `recResult` the value of the recursive call
`updateSchemaFromData(uf, value)` — it is only consulted in the nested
object branch, exactly as the source only performs the call there. -/
def dispatchField (uf : Schema) (isOpt isNul : Bool) (value : JValue)
    (recResult : Except Err (Bool × Schema)) : Except Err (Option Schema) :=
  if isZodObject uf && truthy value then
    match recResult with
    | .error e => .error e
    | .ok (changed, nf) =>
        .ok (if changed then some (rewrap nf isOpt isNul) else none)
  else if isFlexEnum uf then
    match uf with
    | .union2 enumPart stringPart _ =>
        (match getEnumValues enumPart with
         | .error e => .error e
         | .ok currentValues =>
            match value with
            | .vstr v =>
              if currentValues.contains v then .ok none
              else
                (match toTuple (currentValues ++ [sanitizeEnumValue v]) with
                 | .error e => .error e
                 | .ok t =>
                    let description := jsOr (descrOf stringPart) DEFAULT_DESC
                    let newUnion := Schema.union2 (.enum t none)
                      (.str (some description)) (some ⟨true, none⟩)
                    .ok (some (rewrap newUnion isOpt isNul)))
            | _ => .ok none)
    | .enum _ meta =>
        -- plain enum carrying the enumForge tag: widen and promote to union
        (match getEnumValues uf with
         | .error e => .error e
         | .ok currentValues =>
            match value with
            | .vstr v =>
              if currentValues.contains v then .ok none
              else
                (match toTuple (currentValues ++ [sanitizeEnumValue v]) with
                 | .error e => .error e
                 | .ok t =>
                    let description := jsOr (meta.bind (fun m => m.description)) DEFAULT_DESC
                    let newUnion := Schema.union2 (.enum t none)
                      (.str (some description)) (some ⟨true, none⟩)
                    .ok (some (rewrap newUnion isOpt isNul)))
            | _ => .ok none)
    | _ => .ok none   -- unreachable: isFlexEnum only holds for the two shapes above
  else if isZodEnum uf then
    -- plain untagged enum: widen and promote to a flexible union with DEFAULT_DESC
    (match getEnumValues uf with
     | .error e => .error e
     | .ok currentValues =>
        match value with
        | .vstr v =>
          if currentValues.contains v then .ok none
          else
            (match toTuple (currentValues ++ [sanitizeEnumValue v]) with
             | .error e => .error e
             | .ok t =>
                let newUnion := Schema.union2 (.enum t none)
                  (.str (some DEFAULT_DESC)) (some ⟨true, none⟩)
                .ok (some (rewrap newUnion isOpt isNul)))
        | _ => .ok none)
  else .ok none

/-- Semantics of `schema.extend(modifiedFields)`: every key of the shape is
kept in order, its schema replaced when the key occurs in the
modifications (all modification keys stem from the shape itself). -/
def applyMods : Fields → List (String × Schema) → Fields
  | .nil, _ => .nil
  | .cons k f r, mods => .cons k ((List.lookup k mods).getD f) (applyMods r mods)

mutual

/-- Transcription of `updateSchemaFromData` (the diff-and-extend engine).
The boolean records whether `schema.extend` was called: `false` means the
function returned its argument itself (reference identity in the source).
A non-object argument has no `shape`, so the `for..in` loop body never
runs and the argument is returned unchanged. -/
def updateSchemaFromData : Schema → JValue → Except Err (Bool × Schema)
  | .obj fields, data =>
    (match collectMods fields data with
     | .error e => .error e
     | .ok mods =>
        if mods.isEmpty then .ok (false, .obj fields)
        else .ok (true, .obj (applyMods fields mods)))
  | s, _ => .ok (false, s)
termination_by s _ => sizeOf s

/-- The loop body of `updateSchemaFromData`: walk the shape in order and
collect the modified fields (`modifiedFields`), looking each field's value
up in the sample by the same key. -/
def collectMods : Fields → JValue → Except Err (List (String × Schema))
  | .nil, _ => .ok []
  | .cons key field rest, data =>
    (match dispatchField (unwrapOptionalAndNullable field).schema
        (unwrapOptionalAndNullable field).isOptional
        (unwrapOptionalAndNullable field).isNullable
        (jGet data key)
        (updateSchemaFromData (unwrapOptionalAndNullable field).schema (jGet data key)) with
     | .error e => .error e
     | .ok none => collectMods rest data
     | .ok (some nf) =>
        (match collectMods rest data with
         | .error e => .error e
         | .ok ms => .ok ((key, nf) :: ms)))
termination_by fs _ => sizeOf fs
decreasing_by
  all_goals simp_wf
  all_goals first
    | omega
    | (refine lt_of_le_of_lt (sizeOf_unwrap_le _) ?_; omega)

end

/-- Handling of one field of the shape, as a standalone function (equal to
what `collectMods` does for each binding, see `collectMods_cons`). -/
def processField (field : Schema) (value : JValue) : Except Err (Option Schema) :=
  dispatchField (unwrapOptionalAndNullable field).schema
    (unwrapOptionalAndNullable field).isOptional
    (unwrapOptionalAndNullable field).isNullable
    value
    (updateSchemaFromData (unwrapOptionalAndNullable field).schema value)

/-- Transcription of the `flexEnum(values, description?)` overload. -/
def flexEnumOfValues (values : List String) (description : Option String) :
    Except Err Schema :=
  match toTuple values with
  | .error e => .error e
  | .ok t =>
    let d := jsOr description DEFAULT_DESC
    .ok (.union2 (.enum t none) (.str (some d)) (some ⟨true, some d⟩))

/-- Transcription of the `flexEnum(enumDef, description?)` overload. -/
def flexEnumOfEnum (enumDef : Schema) (description : Option String) : Schema :=
  let d := jsOr description DEFAULT_DESC
  .union2 enumDef (.str (some d)) (some ⟨true, some d⟩)

/-- Transcription of the `flexEnum(schema, dataJson)` overload (`extend`):
dispatches to `updateSchemaFromData` when the first argument is an object
schema and the data is truthy, and otherwise falls through to the
invalid-signature error. -/
def flexEnumData (schema : Schema) (dataJson : JValue) :
    Except Err (Bool × Schema) :=
  if isZodObject schema && truthy dataJson then
    updateSchemaFromData schema dataJson
  else .error .invalidSignature

/-- The `getNewValues` helper inside `forgeEnum`: append the sanitized
additions and deduplicate via `toTuple`. -/
def getNewValues (base : List String) (add : List String) : Except Err (List String) :=
  toTuple (base ++ add.map sanitizeEnumValue)

/-- The `forgeEnum(values, add)` overload. -/
def forgeEnumValues (values : List String) (add : List String) : Except Err Schema :=
  match getNewValues values add with
  | .error e => .error e
  | .ok nv => .ok (.enum nv none)

/-- The `forgeEnum(enumDef, add)` overload dispatch: a Zod enum node
(tagged or not) takes the enum path; any other node — in particular a
flexible-enum union — matches no overload (the third overload needs a
string second argument) and raises "Invalid forgeEnum signature.". -/
def forgeEnumNode (target : Schema) (add : List String) : Except Err Schema :=
  if isZodEnum target then
    match getEnumValues target with
    | .error e => .error e
    | .ok base =>
      (match getNewValues base add with
       | .error e => .error e
       | .ok nv => .ok (.enum nv none))
  else .error .invalidSignature

/-- The `forgeEnum(schema, key, add)` overload.  A missing key leaves
`shape[key]` undefined, which the unwrap helper passes through and the
`isZodEnum` test rejects, so the `Field "key" is not a ZodEnum.` error is
raised; the same happens for any field whose unwrapped node is not a plain
enum (flexible-enum unions included). -/
def forgeEnumField (schema : Schema) (key : String) (add : List String) :
    Except Err Schema :=
  match schema with
  | .obj fields =>
    (match lookupField fields key with
     | none => .error (.notAnEnumError key)
     | some field =>
        let u := unwrapOptionalAndNullable field
        if isZodEnum u.schema then
          match getEnumValues u.schema with
          | .error e => .error e
          | .ok base =>
            (match getNewValues base add with
             | .error e => .error e
             | .ok nv =>
                .ok (.obj (applyMods fields
                  [(key, rewrap (.enum nv none) u.isOptional u.isNullable)])))
        else .error (.notAnEnumError key))
  | _ => .error .invalidSignature

/-- The filter step of `limitEnum`: drop the named labels. -/
def filterValues (vals remove : List String) : List String :=
  vals.filter (fun v => !remove.contains v)

/-- Transcription of `processFlexOrEnum` inside `limitEnum`.  Note the
plain-enum test comes first, so a tagged plain enum takes the enum path;
the final arm (flexible but neither union nor enum) is unreachable but
transcribed: there `getEnumValues` necessarily fails. -/
def processFlexOrEnum (target : Schema) (remove : List String) : Except Err Schema :=
  if isZodEnum target then
    match getEnumValues target with
    | .error e => .error e
    | .ok current =>
      let next := filterValues current remove
      if next.isEmpty then .error .emptyEnumError
      else
        (match toTuple next with
         | .error e => .error e
         | .ok t => .ok (.enum t none))
  else if isFlexEnum target then
    match target with
    | .union2 enumPart stringPart _ =>
      (match getEnumValues enumPart with
       | .error e => .error e
       | .ok current =>
          let next := filterValues current remove
          if next.isEmpty then .error .emptyEnumError
          else
            (match toTuple next with
             | .error e => .error e
             | .ok t =>
                let description := jsOr (descrOf stringPart) DEFAULT_DESC
                .ok (.union2 (.enum t none) (.str (some description))
                      (some ⟨true, some description⟩))))
    | _ =>
      (match getEnumValues target with
       | .error e => .error e
       | .ok current =>
          let next := filterValues current remove
          if next.isEmpty then .error .emptyEnumError
          else
            (match toTuple next with
             | .error e => .error e
             | .ok t =>
                .ok (.enum t (some ⟨true, (metaOf target).bind (fun m => m.description)⟩))))
  else .error .invalidSignature

/-- The `limitEnum(values, remove)` overload. -/
def limitEnumValues (values : List String) (remove : List String) : Except Err Schema :=
  let next := filterValues values remove
  if next.isEmpty then .error .emptyEnumError
  else
    (match toTuple next with
     | .error e => .error e
     | .ok t => .ok (.enum t none))

/-- The `limitEnum(enumOrFlex, remove)` overload. -/
def limitEnumNode (target : Schema) (remove : List String) : Except Err Schema :=
  if isZodEnum target || isFlexEnum target then processFlexOrEnum target remove
  else .error .invalidSignature

/-- The `limitEnum(schema, key, remove)` overload.  A missing key makes
`isFlexEnum(undefined)` dereference the absent definition — a TypeError,
transcribed as `Err.typeError`. -/
def limitEnumField (schema : Schema) (key : String) (remove : List String) :
    Except Err Schema :=
  match schema with
  | .obj fields =>
    (match lookupField fields key with
     | none => .error .typeError
     | some field =>
        let u := unwrapOptionalAndNullable field
        if isZodEnum u.schema || isFlexEnum u.schema then
          match processFlexOrEnum u.schema remove with
          | .error e => .error e
          | .ok updated =>
            .ok (.obj (applyMods fields
              [(key, rewrap updated u.isOptional u.isNullable)]))
        else .error (.notAnEnumError key))
  | _ => .error .invalidSignature

/-- Effect of `setMetadata(x, undefined)` on a node: the metadata is
dropped.  On nodes that never carry metadata the write is unobservable. -/
def setMetaNone : Schema → Schema
  | .enum ls _ => .enum ls none
  | .union2 a b _ => .union2 a b none
  | s => s

/-- Rebuild the wrapper prefix of `x` (the exact three-layer pattern
`unwrapOptionalAndNullable` dismantles) around a replaced inner node;
used to state what the input tree looks like after an in-place mutation
of its unwrapped node. -/
def replaceAfterNul (s2 new : Schema) : Schema :=
  match s2 with
  | .optional _ => .optional new
  | _ => new

def replaceAfterOpt (s1 new : Schema) : Schema :=
  match s1 with
  | .nullable s2 => .nullable (replaceAfterNul s2 new)
  | s2 => replaceAfterNul s2 new

def replaceInner (x new : Schema) : Schema :=
  match x with
  | .optional s1 => .optional (replaceAfterOpt s1 new)
  | s1 => replaceAfterOpt s1 new

/-- Result of an operation that may mutate its input in place via
`setMetadata`: the returned value, the input tree as it stands after the
call, and whether the returned value is the very input object (reference
identity, relevant for the `!==` checks in the traversals). -/
structure StrictOut where
  result : Schema
  after : Schema
  sameRef : Bool
deriving DecidableEq, Repr

/-- Transcription of `_strictOne`: unwrap, then clear the metadata of the
enum part *in place* (`setMetadata(…, undefined)` on a node of the input)
and return that very node rewrapped.  For a two-branch flexible union the
returned node is the union's first branch (never the input object itself);
in every other case the returned node is the unwrapped input node, so when
no wrapper was rebuilt the result is reference-identical to the input. -/
def _strictOne (x : Schema) : StrictOut :=
  let u := unwrapOptionalAndNullable x
  if isFlexEnum u.schema then
    match u.schema with
    | .union2 a b m =>
        let a2 := setMetaNone a
        ⟨rewrap a2 u.isOptional u.isNullable,
         replaceInner x (.union2 a2 b m),
         false⟩
    | uf =>
        let cleared := setMetaNone uf
        ⟨rewrap cleared u.isOptional u.isNullable,
         replaceInner x cleared,
         !u.isOptional && !u.isNullable⟩
  else
    let cleared := setMetaNone u.schema
    ⟨rewrap cleared u.isOptional u.isNullable,
     replaceInner x cleared,
     !u.isOptional && !u.isNullable⟩

mutual

/-- Transcription of `_strictTraverse`: strip the flexible tagging from
every flexible-enum field of an object schema.  Besides the result it
returns whether `extend` was called (`modified` non-empty) and the input
tree after the call (the in-place metadata clears of `_strictOne`
propagate into it). -/
def _strictTraverse : Schema → Schema × Bool × Schema
  | .obj fields =>
      let r := strictFields fields
      -- the returned object aliases the (mutated) input: `schema.extend`
      -- reads the shape after the in-place metadata clears, and the
      -- unchanged-reference return is the mutated object itself
      (if r.1.isEmpty then .obj r.2.2 else .obj (applyMods r.2.2 r.1),
       !r.1.isEmpty, .obj r.2.2)
  | s => (s, false, s)
termination_by s => sizeOf s

/-- Loop body of `_strictTraverse` over the shape: returns the collected
modifications, a dummy unit (layout), and the fields after mutation. -/
def strictFields : Fields → List (String × Schema) × Unit × Fields
  | .nil => ([], (), .nil)
  | .cons key field rest =>
      let u := unwrapOptionalAndNullable field
      if isFlexEnum u.schema then
        let so := _strictOne u.schema
        let finalField := rewrap so.result u.isOptional u.isNullable
        -- `finalField !== field` : the only way to get the same object back
        -- is no wrapper rebuilt and `_strictOne` returning its argument
        let same := !u.isOptional && !u.isNullable && so.sameRef
        let r := strictFields rest
        ((if same then [] else [(key, finalField)]) ++ r.1, (),
         .cons key (replaceInner field so.after) r.2.2)
      else if isZodObject u.schema then
        let t := _strictTraverse u.schema
        let r := strictFields rest
        ((if t.2.1 then [(key, rewrap t.1 u.isOptional u.isNullable)] else []) ++ r.1, (),
         .cons key (replaceInner field t.2.2) r.2.2)
      else
        let r := strictFields rest
        (r.1, (), .cons key field r.2.2)
termination_by fs => sizeOf fs
decreasing_by
  all_goals simp_wf
  all_goals first
    | omega
    | (refine lt_of_le_of_lt (sizeOf_unwrap_le _) ?_; omega)

end

/-- Transcription of `strictEnum`: a flexible or plain enum node goes to
`_strictOne` (no mutation-free path: the metadata clear happens on the
input), an object schema is traversed, anything else raises the
invalid-signature error. -/
def strictEnum (x : Schema) : Except Err StrictOut :=
  if isFlexEnum x || isZodEnum x then .ok (_strictOne x)
  else if isZodObject x then
    let t := _strictTraverse x
    .ok ⟨t.1, t.2.2, !t.2.1⟩
  else .error .invalidSignature

/-- Transcription of `deflexStructure` (an alias of `strictEnum`). -/
def deflexStructure (schema : Schema) : Except Err StrictOut := strictEnum schema

/-- One flexibility-layer entry: the recorded labels and description. -/
structure FlexityInfo where
  values : List String
  description : Option String
deriving DecidableEq, Repr

/-- A flexibility layer: a record from dotted path to entry, insertion
ordered.  `recordSet` models JavaScript record assignment (overwrite in
place when the key exists, append otherwise). -/
abbrev FlexityLayer := List (String × FlexityInfo)

def recordSet (layer : FlexityLayer) (key : String) (info : FlexityInfo) :
    FlexityLayer :=
  if (List.lookup key layer).isSome then
    layer.map (fun kv => if kv.1 = key then (key, info) else kv)
  else layer ++ [(key, info)]

/-- Dotted path string, `newPath.join('.')`. -/
def pathStr (path : List String) : String := String.intercalate "." path

mutual

/-- Transcription of `_separateTraverse`: record every flexible-enum
field's labels and description into the layer and replace the field by its
plain enum part.  Returns the rebuilt schema, whether `extend` was called,
the layer, and the input tree after the call (`strictEnum` clears metadata
on nodes of the input). -/
def _separateTraverse : Schema → FlexityLayer → List String →
    Except Err (Schema × Bool × FlexityLayer × Schema)
  | .obj fields, layer, path =>
    (match sepFields fields layer path with
     | .error e => .error e
     | .ok (mods, layerOut, fieldsAfter) =>
        -- as in `_strictTraverse`, the result is built over the shape as it
        -- stands after the in-place metadata clears
        .ok (if mods.isEmpty then .obj fieldsAfter else .obj (applyMods fieldsAfter mods),
             !mods.isEmpty, layerOut, .obj fieldsAfter))
  | s, layer, _ => .ok (s, false, layer, s)
termination_by s _ _ => sizeOf s

/-- Loop body of `_separateTraverse` over the shape. -/
def sepFields : Fields → FlexityLayer → List String →
    Except Err (List (String × Schema) × FlexityLayer × Fields)
  | .nil, layer, _ => .ok ([], layer, .nil)
  | .cons key field rest, layer, path =>
     let u := unwrapOptionalAndNullable field
     if isFlexEnum u.schema then
       let description :=
         match u.schema with
         | .union2 _ b _ => jsOrOpt (descrOf b) ((metaOf u.schema).bind (fun m => m.description))
         | uf => (metaOf uf).bind (fun m => m.description)
       let enumPart :=
         match u.schema with
         | .union2 a _ _ => a
         | uf => uf
       (match getEnumValues enumPart with
        | .error e => .error e
        | .ok values =>
          let layer1 := recordSet layer (pathStr (path ++ [key])) ⟨values, description⟩
          -- strictEnum(unwrapped): the flexible guard holds, so `_strictOne` runs
          let so := _strictOne u.schema
          let finalField := rewrap so.result u.isOptional u.isNullable
          (match sepFields rest layer1 path with
           | .error e => .error e
           | .ok (mods, layerOut, fAfter) =>
              .ok ((key, finalField) :: mods, layerOut,
                   .cons key (replaceInner field so.after) fAfter)))
     else if isZodObject u.schema then
       (match _separateTraverse u.schema layer (path ++ [key]) with
        | .error e => .error e
        | .ok (nested, changed, layer1, afterN) =>
           (match sepFields rest layer1 path with
            | .error e => .error e
            | .ok (mods, layerOut, fAfter) =>
               .ok ((if changed then [(key, rewrap nested u.isOptional u.isNullable)] else []) ++ mods,
                    layerOut,
                    .cons key (replaceInner field afterN) fAfter)))
     else
       (match sepFields rest layer path with
        | .error e => .error e
        | .ok (mods, layerOut, fAfter) => .ok (mods, layerOut, .cons key field fAfter))
termination_by fs _ _ => sizeOf fs
decreasing_by
  all_goals simp_wf
  all_goals first
    | omega
    | (refine lt_of_le_of_lt (sizeOf_unwrap_le _) ?_; omega)

end

/-- Transcription of `separateFlexibility`: returns the cleaned schema,
the layer, and the input tree after the call. -/
def separateFlexibility (schema : Schema) :
    Except Err (Schema × FlexityLayer × Schema) :=
  if isZodObject schema then
    match _separateTraverse schema [] [] with
    | .error e => .error e
    | .ok (cleaned, _, layer, after) => .ok (cleaned, layer, after)
  else .error .invalidSignature

mutual

/-- Transcription of `_integrateTraverse`: for every path present in the
layer that resolves to a plain enum field, rebuild the flexible union from
the union of current and recorded labels and the recorded description. -/
def _integrateTraverse : Schema → FlexityLayer → List String →
    Except Err (Schema × Bool)
  | .obj fields, layer, path =>
    (match intFields fields layer path with
     | .error e => .error e
     | .ok mods =>
        .ok (if mods.isEmpty then .obj fields else .obj (applyMods fields mods),
             !mods.isEmpty))
  | s, _, _ => .ok (s, false)
termination_by s _ _ => sizeOf s

/-- Loop body of `_integrateTraverse` over the shape. -/
def intFields : Fields → FlexityLayer → List String →
    Except Err (List (String × Schema))
  | .nil, _, _ => .ok []
  | .cons key field rest, layer, path =>
    let u := unwrapOptionalAndNullable field
    (match List.lookup (pathStr (path ++ [key])) layer with
     | some info =>
       if isZodEnum u.schema then
         match getEnumValues u.schema with
         | .error e => .error e
         | .ok existingValues =>
           (match toTuple (setDedup (existingValues ++ info.values)) with
            | .error e => .error e
            | .ok t =>
              let d := jsOr info.description DEFAULT_DESC
              let flex := Schema.union2 (.enum t none) (.str (some d))
                (some ⟨true, some d⟩)
              (match intFields rest layer path with
               | .error e => .error e
               | .ok mods => .ok ((key, rewrap flex u.isOptional u.isNullable) :: mods)))
       else intFields rest layer path
     | none =>
       if isZodObject u.schema then
         match _integrateTraverse u.schema layer (path ++ [key]) with
         | .error e => .error e
         | .ok (nested, changed) =>
           (match intFields rest layer path with
            | .error e => .error e
            | .ok mods =>
               .ok ((if changed then [(key, rewrap nested u.isOptional u.isNullable)] else []) ++ mods))
       else intFields rest layer path)
termination_by fs _ _ => sizeOf fs
decreasing_by
  all_goals simp_wf
  all_goals first
    | omega
    | (refine lt_of_le_of_lt (sizeOf_unwrap_le _) ?_; omega)

end

/-- Transcription of `integrateFlexibility`. -/
def integrateFlexibility (schema : Schema) (layer : FlexityLayer) :
    Except Err Schema :=
  if isZodObject schema then
    match _integrateTraverse schema layer [] with
    | .error e => .error e
    | .ok (res, _) => .ok res
  else .error .invalidSignature

/-- An arbitrary JavaScript value handed to the exported `isFlexEnum`:
either a genuine schema node (which exposes an internal definition via
`_zod.def` / `_def` / `def`), or `null` / `undefined` / a plain object
exposing none. -/
inductive JSInput where
  | schemaVal (s : Schema)
  | jsNull
  | jsUndefined
  | plainObject
deriving DecidableEq, Repr

/-- Transcription of the exported `isFlexEnum` over arbitrary inputs.
`getDef(null)` and `getDef(undefined)` dereference `._zod` on a nullish
receiver and throw a TypeError inside `getDef`; for a plain object with no
recognized definition `getDef` returns `undefined` and the unconditional
`def.metadata` read throws.  Only inputs exposing a definition reach the
boolean logic. -/
def isFlexEnumExported : JSInput → Except Err Bool
  | .schemaVal s => .ok (isFlexEnum s)
  | .jsNull => .error .typeError
  | .jsUndefined => .error .typeError
  | .plainObject => .error .typeError

/-- Names of a shape, in order. -/
def fieldNames : Fields → List String
  | .nil => []
  | .cons n _ r => n :: fieldNames r

/-- Boolean distinctness of a list of strings. -/
def distinctB : List String → Bool
  | [] => true
  | x :: xs => !(xs.contains x) && distinctB xs

mutual

/-- Well-formedness of a schema as the underlying library maintains it:
every enumerated node has a non-empty, duplicate-free label list
(`z.enum` / `toTuple` guarantee both) and every object shape has distinct
keys (JavaScript object keys are unique). -/
def wfSchema : Schema → Bool
  | .obj fields => distinctB (fieldNames fields) && wfFields fields
  | .enum labels _ => !labels.isEmpty && distinctB labels
  | .union2 a b _ => wfSchema a && wfSchema b
  | .optional i => wfSchema i
  | .nullable i => wfSchema i
  | _ => true

/-- Well-formedness of every field of a shape. -/
def wfFields : Fields → Bool
  | .nil => true
  | .cons _ f r => wfSchema f && wfFields r

end

/-- String sample values for a flexible-enum leaf (standard union or the
transitional tagged enum) must name one of the existing labels. -/
def knownFlexLeaf : Schema → JValue → Bool
  | .union2 (.enum ls _) _ _, .vstr v => ls.contains v
  | .enum ls _, .vstr v => ls.contains v
  | _, _ => true

/-- String sample values for a plain enumerated leaf must name one of the
existing labels. -/
def knownEnumLeaf : Schema → JValue → Bool
  | .enum ls _, .vstr v => ls.contains v
  | _, _ => true

mutual

/-- The hypothesis of the idempotence contract: every leaf value the
sample supplies for an enumerated or flexible-enum field is already a
member of that field's current label list (and nested objects satisfy the
same recursively wherever the engine would recurse). -/
def knownData : Schema → JValue → Bool
  | .obj fields, data => knownFields fields data
  | _, _ => true
termination_by s _ => sizeOf s

/-- Per-shape version of `knownData`. -/
def knownFields : Fields → JValue → Bool
  | .nil, _ => true
  | .cons key field rest, data =>
    ((if isZodObject (unwrapOptionalAndNullable field).schema && truthy (jGet data key) then
        knownData (unwrapOptionalAndNullable field).schema (jGet data key)
      else if isFlexEnum (unwrapOptionalAndNullable field).schema then
        knownFlexLeaf (unwrapOptionalAndNullable field).schema (jGet data key)
      else
        knownEnumLeaf (unwrapOptionalAndNullable field).schema (jGet data key))
     && knownFields rest data)
termination_by fs _ => sizeOf fs
decreasing_by
  all_goals simp_wf
  all_goals first
    | omega
    | (refine lt_of_le_of_lt (sizeOf_unwrap_le _) ?_; omega)

end

/-- Per-field version of `knownData` (see `knownFields_cons`). -/
def knownField (field : Schema) (value : JValue) : Bool :=
  if isZodObject (unwrapOptionalAndNullable field).schema && truthy value then
    knownData (unwrapOptionalAndNullable field).schema value
  else if isFlexEnum (unwrapOptionalAndNullable field).schema then
    knownFlexLeaf (unwrapOptionalAndNullable field).schema value
  else
    knownEnumLeaf (unwrapOptionalAndNullable field).schema value

mutual

/-- All flexible-enum leaves of a schema are in the standard form built by
`flexEnum`: a two-branch union whose enumerated branch carries no
metadata.  (The transitional tagged-plain-enum form, and unions with a
tagged enumerated branch, are the nodes `setMetadata` observably mutates
when the flexibility is stripped.) -/
def standardFlex : Schema → Bool
  | .obj fields => standardFlexFields fields
  | _ => true
termination_by s => sizeOf s

/-- Per-shape version of `standardFlex`. -/
def standardFlexFields : Fields → Bool
  | .nil => true
  | .cons _ field rest =>
    ((if isFlexEnum (unwrapOptionalAndNullable field).schema then
        (match (unwrapOptionalAndNullable field).schema with
         | .union2 a _ _ => (metaOf a).isNone
         | _ => false)
      else if isZodObject (unwrapOptionalAndNullable field).schema then
        standardFlex (unwrapOptionalAndNullable field).schema
      else true)
     && standardFlexFields rest)
termination_by fs => sizeOf fs
decreasing_by
  all_goals simp_wf
  all_goals first
    | omega
    | (refine lt_of_le_of_lt (sizeOf_unwrap_le _) ?_; omega)

end

/-- The field stored at a dotted path: walk object shapes (through
wrappers) and return the (still wrapped) field bound at the last key. -/
def pathField : Schema → List String → Option Schema
  | _, [] => none
  | s, k :: ks =>
    match (unwrapOptionalAndNullable s).schema with
    | .obj fields =>
      (match lookupField fields k with
       | some f => if ks.isEmpty then some f else pathField f ks
       | none => none)
    | _ => none

/-- The label list of the enumerated or flexible-enum field at a path
(the enum's labels, or the labels of the enumerated branch of a union). -/
def labelsAtPath (s : Schema) (p : List String) : Option (List String) :=
  match pathField s p with
  | some f =>
    (match (unwrapOptionalAndNullable f).schema with
     | .enum ls _ => some ls
     | .union2 (.enum ls _) _ _ => some ls
     | _ => none)
  | none => none

/-- A finite sequence of `extend` calls (`flexEnum(schema, data)` chained). -/
def extendSeq (schema : Schema) : List JValue → Except Err Schema
  | [] => .ok schema
  | d :: ds =>
    match flexEnumData schema d with
    | .error e => .error e
    | .ok (_, s2) => extendSeq s2 ds

/-- A wrapper kind, for observing the wrapper stack of a field. -/
inductive Wrap where
  | wopt
  | wnul
deriving DecidableEq, Repr

/-- The stack of optional/nullable wrappers around a node, outermost
first. -/
def wrapperStack : Schema → List Wrap
  | .optional i => .wopt :: wrapperStack i
  | .nullable i => .wnul :: wrapperStack i
  | _ => []

/-- The label list of an enumerated node or of the enumerated branch of a
two-branch union; `none` for any other node. -/
def enumLabelsOf : Schema → Option (List String)
  | .enum ls _ => some ls
  | .union2 (.enum ls _) _ _ => some ls
  | _ => none

/-- Label monotonicity between two schemas: the unwrapped node's own label
list, and the label list at every dotted path, are extended by a (possibly
empty) suffix — existing labels are never removed or reordered. -/
def labelExtends (f f2 : Schema) : Prop :=
  (∀ ls, enumLabelsOf (unwrapOptionalAndNullable f).schema = some ls →
     ∃ t, enumLabelsOf (unwrapOptionalAndNullable f2).schema = some (ls ++ t)) ∧
  (∀ p ls, labelsAtPath f p = some ls →
     ∃ t, labelsAtPath f2 p = some (ls ++ t))

mutual

/-- The schema `separateFlexibility` returns (on inputs it leaves
unchanged): every flexible-enum field replaced by `strictEnum`'s result
rewrapped, nested objects handled recursively. -/
def stripFlex : Schema → Schema
  | .obj fields => .obj (stripFlexF fields)
  | s => s
termination_by s => sizeOf s

/-- Per-shape version of `stripFlex`. -/
def stripFlexF : Fields → Fields
  | .nil => .nil
  | .cons key field rest =>
    .cons key
      (if isFlexEnum (unwrapOptionalAndNullable field).schema then
         rewrap (_strictOne (unwrapOptionalAndNullable field).schema).result
           (unwrapOptionalAndNullable field).isOptional
           (unwrapOptionalAndNullable field).isNullable
       else if isZodObject (unwrapOptionalAndNullable field).schema then
         rewrap (stripFlex (unwrapOptionalAndNullable field).schema)
           (unwrapOptionalAndNullable field).isOptional
           (unwrapOptionalAndNullable field).isNullable
       else field)
      (stripFlexF rest)
termination_by fs => sizeOf fs
decreasing_by
  all_goals simp_wf
  all_goals first
    | omega
    | (refine lt_of_le_of_lt (sizeOf_unwrap_le _) ?_; omega)

end

/-- The exact flexible-enum form `flexEnum(values, description)` builds:
a two-branch union of an untagged enum (non-empty, duplicate-free labels)
and a described string (non-empty description), tagged with metadata
carrying the same description. -/
def canonicalFlexLeaf : Schema → Bool
  | .union2 (.enum ls none) (.str (some d)) (some ⟨true, some d2⟩) =>
      decide (d2 = d) && !ls.isEmpty && distinctB ls && decide (d ≠ "")
  | _ => false

mutual

/-- Round-trip readiness: object shapes have distinct keys, every field is
its unwrapped node under the canonical wrapper rebuild (`.nullable()` then
`.optional()`), flexible leaves are canonical `flexEnum` unions, and
nested objects recurse. -/
def rtReady : Schema → Bool
  | .obj fields => distinctB (fieldNames fields) && rtReadyF fields
  | _ => true
termination_by s => sizeOf s

/-- Per-shape version of `rtReady`. -/
def rtReadyF : Fields → Bool
  | .nil => true
  | .cons _ field rest =>
    (decide (field = rewrap (unwrapOptionalAndNullable field).schema
        (unwrapOptionalAndNullable field).isOptional
        (unwrapOptionalAndNullable field).isNullable) &&
     (if isFlexEnum (unwrapOptionalAndNullable field).schema then
        canonicalFlexLeaf (unwrapOptionalAndNullable field).schema
      else if isZodObject (unwrapOptionalAndNullable field).schema then
        rtReady (unwrapOptionalAndNullable field).schema
      else true))
    && rtReadyF rest
termination_by fs => sizeOf fs
decreasing_by
  all_goals simp_wf
  all_goals first
    | omega
    | (refine lt_of_le_of_lt (sizeOf_unwrap_le _) ?_; omega)

end

mutual

/-- The flexibility layer `L` answers every path of the tree exactly as
`_separateTraverse` records it: each flexible field's dotted path maps to
its labels and resolved description, and every other field's dotted path —
nested object or leaf — is absent from `L` (no path-string collisions). -/
def layerFaithful (s : Schema) (L : FlexityLayer) (path : List String) : Bool :=
  match s with
  | .obj fields => layerFaithfulF fields L path
  | _ => true
termination_by sizeOf s

/-- Per-shape version of `layerFaithful`. -/
def layerFaithfulF : Fields → FlexityLayer → List String → Bool
  | .nil, _, _ => true
  | .cons key field rest, L, path =>
    ((if isFlexEnum (unwrapOptionalAndNullable field).schema then
        decide (List.lookup (pathStr (path ++ [key])) L =
          some ⟨(match (unwrapOptionalAndNullable field).schema with
                 | .union2 (.enum ls _) _ _ => ls
                 | .enum ls _ => ls
                 | _ => []),
                (match (unwrapOptionalAndNullable field).schema with
                 | .union2 _ b _ =>
                    jsOrOpt (descrOf b)
                      ((metaOf (unwrapOptionalAndNullable field).schema).bind
                        (fun m => m.description))
                 | uf => (metaOf uf).bind (fun m => m.description))⟩)
      else if isZodObject (unwrapOptionalAndNullable field).schema then
        decide (List.lookup (pathStr (path ++ [key])) L = none) &&
          layerFaithful (unwrapOptionalAndNullable field).schema L (path ++ [key])
      else decide (List.lookup (pathStr (path ++ [key])) L = none))
     && layerFaithfulF rest L path)
termination_by fs _ _ => sizeOf fs
decreasing_by
  all_goals simp_wf
  all_goals first
    | omega
    | (refine lt_of_le_of_lt (sizeOf_unwrap_le _) ?_; omega)

end

theorem collectMods_cons (k : String) (f : Schema) (r : Fields) (d : JValue) :
    collectMods (.cons k f r) d =
      (match processField f (jGet d k) with
       | .error e => .error e
       | .ok none => collectMods r d
       | .ok (some nf) =>
          (match collectMods r d with
           | .error e => .error e
           | .ok ms => .ok ((k, nf) :: ms))) := by
  simp only [collectMods, processField]

theorem knownFields_cons (k : String) (f : Schema) (r : Fields) (d : JValue) :
    knownFields (.cons k f r) d = (knownField f (jGet d k) && knownFields r d) := by
  rw [knownFields]
  rfl

theorem contains_iff (xs : List String) (x : String) : xs.contains x = true ↔ x ∈ xs :=
  List.elem_iff

theorem filter_true_of_all (p : String → Bool) (xs : List String)
    (h : ∀ a ∈ xs, p a = true) : xs.filter p = xs :=
  List.filter_eq_self.mpr h

theorem mem_setDedup (a : String) (l : List String) : a ∈ setDedup l ↔ a ∈ l := by
  induction l with
  | nil => simp [setDedup]
  | cons x xs ih =>
    rw [setDedup]
    simp only [List.mem_cons, List.mem_filter, ih, decide_eq_true_eq]
    by_cases hax : a = x <;> simp [hax]

theorem setDedup_nodup (l : List String) : (setDedup l).Nodup := by
  induction l with
  | nil => simp [setDedup]
  | cons x xs ih =>
    rw [setDedup]
    refine List.nodup_cons.mpr ⟨fun hx => ?_, ih.filter _⟩
    rcases List.mem_filter.mp hx with ⟨_, hne⟩
    simp at hne

theorem setDedup_of_nodup (l : List String) (h : l.Nodup) : setDedup l = l := by
  induction l with
  | nil => rfl
  | cons x xs ih =>
    rcases List.nodup_cons.mp h with ⟨hx, hxs⟩
    rw [setDedup, ih hxs]
    congr 1
    apply filter_true_of_all
    intro a ha
    simp only [decide_eq_true_eq]
    exact fun hax => hx (hax ▸ ha)

theorem setDedup_append_single (l : List String) (v : String) (h : l.Nodup) :
    setDedup (l ++ [v]) = if v ∈ l then l else l ++ [v] := by
  induction l with
  | nil => simp [setDedup]
  | cons x xs ih =>
    rcases List.nodup_cons.mp h with ⟨hx, hxs⟩
    have hfxs : ∀ (w : String), w ∉ xs →
        List.filter (fun y => decide ¬(y = w)) xs = xs := by
      intro w hw
      apply filter_true_of_all
      intro a ha
      simp only [decide_eq_true_eq]
      exact fun haw => hw (haw ▸ ha)
    rw [List.cons_append, setDedup, ih hxs]
    by_cases hvx : v = x
    · subst hvx
      rw [if_neg hx, if_pos (List.mem_cons_self v xs)]
      rw [List.filter_append, hfxs v hx]
      have h2 : List.filter (fun y => decide ¬(y = v)) [v] = [] := by simp
      rw [h2, List.append_nil]
    · by_cases hvxs : v ∈ xs
      · rw [if_pos hvxs, if_pos (List.mem_cons_of_mem _ hvxs), hfxs x hx]
      · rw [if_neg hvxs, if_neg (by simp [hvx, hvxs]), List.filter_append, hfxs x hx]
        have h2 : List.filter (fun y => decide ¬(y = x)) [v] = [v] := by simp [hvx]
        rw [h2]

theorem distinctB_iff (l : List String) : distinctB l = true ↔ l.Nodup := by
  induction l with
  | nil => simp [distinctB]
  | cons x xs ih =>
    rw [distinctB]
    simp only [Bool.and_eq_true, Bool.not_eq_true', ih, List.nodup_cons]
    constructor
    · rintro ⟨h1, h2⟩
      refine ⟨fun hm => ?_, h2⟩
      rw [Bool.eq_false_iff] at h1
      exact h1 ((contains_iff xs x).mpr hm)
    · rintro ⟨h1, h2⟩
      refine ⟨?_, h2⟩
      rw [Bool.eq_false_iff]
      intro hc
      exact h1 ((contains_iff xs x).mp hc)

theorem setDedup_eq_nil_iff (l : List String) : setDedup l = [] ↔ l = [] := by
  cases l with
  | nil => simp [setDedup]
  | cons x xs => rw [setDedup]; simp

theorem toTuple_of_ne_nil (l : List String) (h : l ≠ []) :
    toTuple l = .ok (setDedup l) := by
  rw [toTuple]
  have : setDedup l ≠ [] := fun hc => h ((setDedup_eq_nil_iff l).mp hc)
  simp [List.isEmpty_iff, this]

theorem toTuple_append_ne_nil (l : List String) (v : String) :
    toTuple (l ++ [v]) = .ok (setDedup (l ++ [v])) :=
  toTuple_of_ne_nil _ (by simp)

theorem stepOptional_nullable (i : Schema) :
    stepOptional (.nullable i) = (.nullable i, false) := rfl

theorem stepOptional_optional (i : Schema) :
    stepOptional (.optional i) = (i, true) := rfl

theorem stepNullable_nullable (i : Schema) :
    stepNullable (.nullable i) = (i, true) := rfl

theorem stepNullable_optional (i : Schema) :
    stepNullable (.optional i) = (.optional i, false) := rfl

theorem unwrap_rewrap (s : Schema) (o n : Bool)
    (h1 : stepOptional s = (s, false)) (h2 : stepNullable s = (s, false)) :
    unwrapOptionalAndNullable (rewrap s o n) = ⟨s, o, n⟩ := by
  cases o <;> cases n <;>
    simp [rewrap, unwrapOptionalAndNullable, stepOptional_nullable, stepOptional_optional,
      stepNullable_nullable, stepNullable_optional, h1, h2]

theorem stepOptional_of_union2 (a b : Schema) (m : Option MetaInfo) :
    stepOptional (.union2 a b m) = (.union2 a b m, false) := rfl

theorem stepNullable_of_union2 (a b : Schema) (m : Option MetaInfo) :
    stepNullable (.union2 a b m) = (.union2 a b m, false) := rfl

theorem unwrap_rewrap_union2 (a b : Schema) (m : Option MetaInfo) (o n : Bool) :
    unwrapOptionalAndNullable (rewrap (.union2 a b m) o n) = ⟨.union2 a b m, o, n⟩ :=
  unwrap_rewrap _ o n rfl rfl

theorem unwrap_rewrap_obj (g : Fields) (o n : Bool) :
    unwrapOptionalAndNullable (rewrap (.obj g) o n) = ⟨.obj g, o, n⟩ :=
  unwrap_rewrap _ o n rfl rfl

theorem unwrap_rewrap_enum (ls : List String) (m : Option MetaInfo) (o n : Bool) :
    unwrapOptionalAndNullable (rewrap (.enum ls m) o n) = ⟨.enum ls m, o, n⟩ :=
  unwrap_rewrap _ o n rfl rfl

theorem wfSchema_stepOptional (s : Schema) (h : wfSchema s = true) :
    wfSchema (stepOptional s).1 = true := by
  cases s <;> simp_all [stepOptional, wfSchema]

theorem wfSchema_stepNullable (s : Schema) (h : wfSchema s = true) :
    wfSchema (stepNullable s).1 = true := by
  cases s <;> simp_all [stepNullable, wfSchema]

theorem wfSchema_unwrap (s : Schema) (h : wfSchema s = true) :
    wfSchema (unwrapOptionalAndNullable s).schema = true := by
  unfold unwrapOptionalAndNullable
  exact wfSchema_stepOptional _ (wfSchema_stepNullable _ (wfSchema_stepOptional _ h))

/-- Structural induction principle for shapes (the mutual recursor is not
directly usable by the `induction` tactic). -/
theorem fieldsInduction (P : Fields → Prop) (hnil : P .nil)
    (hcons : ∀ n f r, P r → P (.cons n f r)) : ∀ fs, P fs
  | .nil => hnil
  | .cons n f r => hcons n f r (fieldsInduction P hnil hcons r)

theorem wfFields_lookup (fs : Fields) (k : String) (f : Schema)
    (h : wfFields fs = true) (hl : lookupField fs k = some f) :
    wfSchema f = true := by
  induction fs using fieldsInduction with
  | hnil => simp [lookupField] at hl
  | hcons n g r ih =>
    rw [wfFields] at h
    rcases (Bool.and_eq_true _ _).mp h with ⟨h1, h2⟩
    rw [lookupField] at hl
    by_cases hn : n = k
    · rw [if_pos hn] at hl
      cases hl
      exact h1
    · rw [if_neg hn] at hl
      exact ih h2 hl

theorem lookupField_applyMods (fs : Fields) (mods : List (String × Schema)) (k : String) :
    lookupField (applyMods fs mods) k =
      (lookupField fs k).map (fun f => (List.lookup k mods).getD f) := by
  induction fs using fieldsInduction with
  | hnil => simp [applyMods, lookupField]
  | hcons n g r ih =>
    rw [applyMods, lookupField, lookupField]
    by_cases hn : n = k
    · subst hn
      simp
    · rw [if_neg hn, if_neg hn, ih]

theorem lookupField_none_mem (fs : Fields) (k : String)
    (h : lookupField fs k = none) : k ∉ fieldNames fs := by
  induction fs using fieldsInduction with
  | hnil => simp [fieldNames]
  | hcons n g r ih =>
    rw [lookupField] at h
    rw [fieldNames]
    by_cases hn : n = k
    · rw [if_pos hn] at h
      cases h
    · rw [if_neg hn] at h
      simp only [List.mem_cons]
      rintro (rfl | hm)
      · exact hn rfl
      · exact ih h hm

theorem lookupField_eq_none_of_not_mem (fs : Fields) (k : String)
    (h : k ∉ fieldNames fs) : lookupField fs k = none := by
  induction fs using fieldsInduction with
  | hnil => rfl
  | hcons n g r ih =>
    rw [fieldNames] at h
    simp only [List.mem_cons] at h
    push_neg at h
    rw [lookupField, if_neg (fun hc => h.1 hc.symm)]
    exact ih h.2

theorem collectMods_keys (fs : Fields) (d : JValue) :
    ∀ (mods : List (String × Schema)), collectMods fs d = .ok mods →
      ∀ k, lookupField fs k = none → List.lookup k mods = none := by
  induction fs using fieldsInduction with
  | hnil =>
    intro mods h k _
    rw [collectMods] at h
    cases h
    rfl
  | hcons n g r ih =>
    intro mods h k hk
    rw [collectMods_cons] at h
    rw [lookupField] at hk
    by_cases hn : n = k
    · rw [if_pos hn] at hk
      cases hk
    · rw [if_neg hn] at hk
      rcases hpf : processField g (jGet d n) with e | ro
      · rw [hpf] at h
        cases h
      · rw [hpf] at h
        cases ro with
        | none => exact ih mods h k hk
        | some nf =>
          rcases hr : collectMods r d with e | ms
          · rw [hr] at h
            cases h
          · rw [hr] at h
            cases h
            have hms := ih ms hr k hk
            have hkn : (k == n) = false := by simp [Ne.symm hn]
            simp only [List.lookup, hkn, hms]

theorem collectMods_lookup (fs : Fields) (d : JValue) :
    ∀ (mods : List (String × Schema)),
      distinctB (fieldNames fs) = true →
      collectMods fs d = .ok mods →
      ∀ k f, lookupField fs k = some f →
        processField f (jGet d k) = .ok (List.lookup k mods) := by
  induction fs using fieldsInduction with
  | hnil =>
    intro mods _ _ k f hk
    simp [lookupField] at hk
  | hcons n g r ih =>
    intro mods hdis h k f hk
    rw [fieldNames, distinctB] at hdis
    rcases (Bool.and_eq_true _ _).mp hdis with ⟨hnotin, hdis2⟩
    rw [Bool.not_eq_true'] at hnotin
    have hnmem : n ∉ fieldNames r := by
      intro hm
      rw [(contains_iff _ _).mpr hm] at hnotin
      cases hnotin
    rw [collectMods_cons] at h
    rw [lookupField] at hk
    rcases hpf : processField g (jGet d n) with e | ro
    · rw [hpf] at h
      cases h
    · rw [hpf] at h
      by_cases hn : n = k
      · rw [if_pos hn] at hk
        cases hk
        subst hn
        cases ro with
        | none =>
          have hlk : List.lookup n mods = none :=
            collectMods_keys r d mods h n (lookupField_eq_none_of_not_mem r n hnmem)
          rw [hlk, ← hpf]
        | some nf =>
          rcases hr : collectMods r d with e | ms
          · rw [hr] at h
            cases h
          · rw [hr] at h
            cases h
            simp [List.lookup, hpf]
      · rw [if_neg hn] at hk
        cases ro with
        | none => exact ih mods hdis2 h k f hk
        | some nf =>
          rcases hr : collectMods r d with e | ms
          · rw [hr] at h
            cases h
          · rw [hr] at h
            cases h
            have hrec := ih ms hdis2 hr k f hk
            have hkn : (k == n) = false := by simp [Ne.symm hn]
            simp only [List.lookup, hkn, hrec]

theorem update_obj_eq (fs : Fields) (d : JValue) :
    updateSchemaFromData (.obj fs) d =
      (match collectMods fs d with
       | .error e => .error e
       | .ok mods =>
          if mods.isEmpty then .ok (false, .obj fs)
          else .ok (true, .obj (applyMods fs mods))) := by
  simp only [updateSchemaFromData]

theorem update_obj_err (fs : Fields) (d : JValue) (e : Err)
    (h : collectMods fs d = .error e) :
    updateSchemaFromData (.obj fs) d = .error e := by
  rw [update_obj_eq, h]

theorem update_obj_ok (fs : Fields) (d : JValue) (mods : List (String × Schema))
    (h : collectMods fs d = .ok mods) :
    updateSchemaFromData (.obj fs) d =
      (if mods.isEmpty then .ok (false, .obj fs)
       else .ok (true, .obj (applyMods fs mods))) := by
  rw [update_obj_eq, h]

theorem update_not_obj (s : Schema) (d : JValue) (h : isZodObject s = false) :
    updateSchemaFromData s d = .ok (false, s) := by
  cases s <;> simp_all [updateSchemaFromData, isZodObject]

theorem isEmpty_false_of_ne_nil (ls : List String) (h : ls ≠ []) :
    ls.isEmpty = false := by
  cases ls with
  | nil => exact absurd rfl h
  | cons x xs => rfl

theorem processField_flexUnion (f sp : Schema) (ls : List String)
    (em m : Option MetaInfo) (o n : Bool) (v : JValue)
    (hu : unwrapOptionalAndNullable f = ⟨.union2 (.enum ls em) sp m, o, n⟩)
    (hflex : isFlexEnum (.union2 (.enum ls em) sp m) = true)
    (hne : ls ≠ []) :
    processField f v =
      .ok (match v with
        | .vstr s =>
            if ls.contains s then none
            else some (rewrap (.union2 (.enum (setDedup (ls ++ [sanitizeEnumValue s])) none)
              (.str (some (jsOr (descrOf sp) DEFAULT_DESC))) (some ⟨true, none⟩)) o n)
        | _ => none) := by
  have hne2 := isEmpty_false_of_ne_nil ls hne
  cases v <;>
    simp [processField, hu, dispatchField, isZodObject, hflex, getEnumValues, hne2,
      toTuple_append_ne_nil]
  split <;> rfl

theorem processField_taggedEnum (f : Schema) (ls : List String)
    (mdesc : Option String) (o n : Bool) (v : JValue)
    (hu : unwrapOptionalAndNullable f = ⟨.enum ls (some ⟨true, mdesc⟩), o, n⟩)
    (hne : ls ≠ []) :
    processField f v =
      .ok (match v with
        | .vstr s =>
            if ls.contains s then none
            else some (rewrap (.union2 (.enum (setDedup (ls ++ [sanitizeEnumValue s])) none)
              (.str (some (jsOr mdesc DEFAULT_DESC))) (some ⟨true, none⟩)) o n)
        | _ => none) := by
  have hne2 := isEmpty_false_of_ne_nil ls hne
  cases v <;>
    simp [processField, hu, dispatchField, isZodObject, isFlexEnum, getEnumValues, hne2,
      toTuple_append_ne_nil]
  split <;> rfl

theorem processField_plainEnum (f : Schema) (ls : List String)
    (m : Option MetaInfo) (o n : Bool) (v : JValue)
    (hu : unwrapOptionalAndNullable f = ⟨.enum ls m, o, n⟩)
    (hflex : isFlexEnum (.enum ls m) = false)
    (hne : ls ≠ []) :
    processField f v =
      .ok (match v with
        | .vstr s =>
            if ls.contains s then none
            else some (rewrap (.union2 (.enum (setDedup (ls ++ [sanitizeEnumValue s])) none)
              (.str (some DEFAULT_DESC)) (some ⟨true, none⟩)) o n)
        | _ => none) := by
  have hne2 := isEmpty_false_of_ne_nil ls hne
  cases v <;>
    simp [processField, hu, dispatchField, isZodObject, isZodEnum, hflex, getEnumValues,
      hne2, toTuple_append_ne_nil]
  split <;> rfl

theorem processField_obj_truthy (f : Schema) (g : Fields) (o n : Bool) (v : JValue)
    (hu : unwrapOptionalAndNullable f = ⟨.obj g, o, n⟩)
    (ht : truthy v = true) :
    processField f v =
      (match updateSchemaFromData (.obj g) v with
       | .error e => .error e
       | .ok (c, nf) => .ok (if c then some (rewrap nf o n) else none)) := by
  simp [processField, hu, dispatchField, isZodObject, ht]

theorem processField_obj_falsy (f : Schema) (g : Fields) (o n : Bool) (v : JValue)
    (hu : unwrapOptionalAndNullable f = ⟨.obj g, o, n⟩)
    (ht : truthy v = false) :
    processField f v = .ok none := by
  simp [processField, hu, dispatchField, isZodObject, ht, isFlexEnum, isZodEnum]

theorem processField_other (f uf : Schema) (o n : Bool) (v : JValue)
    (hu : unwrapOptionalAndNullable f = ⟨uf, o, n⟩)
    (hobj : isZodObject uf = false)
    (hflex : isFlexEnum uf = false)
    (henum : isZodEnum uf = false) :
    processField f v = .ok none := by
  simp [processField, hu, dispatchField, hobj, hflex, henum]

/-- C10: totality of the exported `isFlexEnum` at the public interface.
For `null`, `undefined` and a plain object exposing no recognized internal
definition, `isFlexEnum` throws (reading the metadata of the absent
definition) instead of returning `false`; it returns a boolean exactly for
inputs that expose a definition. -/
theorem isFlexEnum_throws_on_undefined_def :
    (isFlexEnumExported .jsNull = .error .typeError ∧
     isFlexEnumExported .jsUndefined = .error .typeError ∧
     isFlexEnumExported .plainObject = .error .typeError) ∧
    ∀ s : Schema, ∃ b : Bool, isFlexEnumExported (.schemaVal s) = .ok b :=
  ⟨⟨rfl, rfl, rfl⟩, fun s => ⟨isFlexEnum s, rfl⟩⟩

/-- C9 counterexample: `forgeEnum` does not accept flexible-enum targets.
On a standalone tagged `{enum, string}` union it matches no overload and
throws the invalid-signature error; addressed by field path, the
`isZodEnum` test rejects the union and `Field "f" is not a ZodEnum.` is
thrown.  The target really is a flexible enum (`isFlexEnum` holds). -/
theorem forgeEnum_flex_target_cx :
    isFlexEnum (.union2 (.enum ["a"] none) (.str (some "d"))
      (some ⟨true, some "d"⟩)) = true ∧
    forgeEnumNode (.union2 (.enum ["a"] none) (.str (some "d"))
      (some ⟨true, some "d"⟩)) ["b"] = .error .invalidSignature ∧
    forgeEnumField (.obj (.cons "f" (.union2 (.enum ["a"] none) (.str (some "d"))
      (some ⟨true, some "d"⟩)) .nil)) "f" ["b"] = .error (.notAnEnumError "f") :=
  ⟨rfl, rfl, rfl⟩

/-- C9 amended: `forgeEnum` accepts only plain enumerated targets.  Every
flexible-enum union target is rejected (invalid-signature standalone,
`NotAnEnumError` naming the field by path); on an enumerated node (tagged
or not) it succeeds and returns a plain enumerated node — merged,
first-occurrence-deduplicated, sanitized labels, and no flexible tag. -/
theorem forgeEnum_flex_target_amended :
    (∀ (a b : Schema) (m : Option MetaInfo) (add : List String),
        forgeEnumNode (.union2 a b m) add = .error .invalidSignature) ∧
    (∀ (ls : List String) (m : Option MetaInfo) (add : List String),
        ls ≠ [] →
        forgeEnumNode (.enum ls m) add =
          .ok (.enum (setDedup (ls ++ add.map sanitizeEnumValue)) none) ∧
        isFlexEnum (.enum (setDedup (ls ++ add.map sanitizeEnumValue)) none) = false) ∧
    (∀ (fields : Fields) (k : String) (f : Schema) (add : List String)
        (a b : Schema) (m : Option MetaInfo),
        lookupField fields k = some f →
        (unwrapOptionalAndNullable f).schema = .union2 a b m →
        forgeEnumField (.obj fields) k add = .error (.notAnEnumError k)) := by
  refine ⟨fun a b m add => rfl, fun ls m add hne => ?_, fun fields k f add a b m hk hu => ?_⟩
  · have hne2 := isEmpty_false_of_ne_nil ls hne
    have ht : toTuple (ls ++ add.map sanitizeEnumValue) =
        .ok (setDedup (ls ++ add.map sanitizeEnumValue)) :=
      toTuple_of_ne_nil _ (by simp [hne])
    constructor
    · simp [forgeEnumNode, isZodEnum, getEnumValues, hne2, getNewValues, ht]
    · simp [isFlexEnum]
  · simp [forgeEnumField, hk, hu, isZodEnum]

/-- C9 amended, witness: labels `["a"]` with addition `["b"]` give the
plain enum `["a","b"]`, and a flexible union field named `"f"` is rejected
with the field's name. -/
theorem forgeEnum_flex_target_amended_witness :
    forgeEnumNode (.enum ["a"] none) ["b"] = .ok (.enum ["a", "b"] none) ∧
    forgeEnumField (.obj (.cons "f" (.union2 (.enum ["a"] none) (.str (some "d"))
      (some ⟨true, some "d"⟩)) .nil)) "f" ["b"] = .error (.notAnEnumError "f") := by
  constructor
  · exact ((forgeEnum_flex_target_amended.2.1 ["a"] none ["b"] (by decide)).1).trans rfl
  · exact forgeEnum_flex_target_amended.2.2
      (.cons "f" (.union2 (.enum ["a"] none) (.str (some "d"))
        (some ⟨true, some "d"⟩)) .nil) "f" _ ["b"]
      (.enum ["a"] none) (.str (some "d")) (some ⟨true, some "d"⟩) rfl rfl

theorem processFlexOrEnum_char (target : Schema) (remove ls : List String)
    (hwf : wfSchema target = true)
    (hg : (isZodEnum target || isFlexEnum target) = true)
    (hls : enumLabelsOf target = some ls) :
    (processFlexOrEnum target remove = .error .emptyEnumError ↔
      filterValues ls remove = []) := by
  cases target with
  | enum ls0 m =>
    rw [enumLabelsOf] at hls
    cases hls
    rw [wfSchema] at hwf
    rcases (Bool.and_eq_true _ _).mp hwf with ⟨hne, _⟩
    rw [Bool.not_eq_true'] at hne
    by_cases hf : filterValues ls remove = []
    · simp [processFlexOrEnum, isZodEnum, getEnumValues, hne, hf]
    · have ht := toTuple_of_ne_nil _ hf
      simp [processFlexOrEnum, isZodEnum, getEnumValues, hne,
        isEmpty_false_of_ne_nil _ hf, ht, hf]
  | union2 a b m =>
    have hflex : isFlexEnum (.union2 a b m) = true := by
      cases hz : isZodEnum (.union2 a b m) with
      | true => simp [isZodEnum] at hz
      | false =>
        rw [hz] at hg
        simpa using hg
    cases a with
    | enum ls0 em =>
      rw [enumLabelsOf] at hls
      cases hls
      rw [wfSchema] at hwf
      rcases (Bool.and_eq_true _ _).mp hwf with ⟨hwa, _⟩
      rw [wfSchema] at hwa
      rcases (Bool.and_eq_true _ _).mp hwa with ⟨hne, _⟩
      rw [Bool.not_eq_true'] at hne
      by_cases hf : filterValues ls remove = []
      · simp [processFlexOrEnum, isZodEnum, hflex, getEnumValues, hne, hf]
      · have ht := toTuple_of_ne_nil _ hf
        simp [processFlexOrEnum, isZodEnum, hflex, getEnumValues, hne,
          isEmpty_false_of_ne_nil _ hf, ht, hf]
    | obj g => simp [enumLabelsOf] at hls
    | str d0 => simp [enumLabelsOf] at hls
    | union2 x y mm => simp [enumLabelsOf] at hls
    | optional i => simp [enumLabelsOf] at hls
    | nullable i => simp [enumLabelsOf] at hls
    | otherLeaf => simp [enumLabelsOf] at hls
  | obj g => simp [enumLabelsOf] at hls
  | str d0 => simp [enumLabelsOf] at hls
  | optional i => simp [isZodEnum, isFlexEnum] at hg
  | nullable i => simp [isZodEnum, isFlexEnum] at hg
  | otherLeaf => simp [isZodEnum, isFlexEnum] at hg

/-- C8: the empty-result guard of `limitEnum`/`deleteFromEnum`.  For all
three target shapes — raw label list, standalone enumerated or
flexible-enum node, field addressed by key — the call fails with the
`EmptyEnumError` exactly when removing the named labels leaves zero
labels; in particular `limitEnum(["a"], "a")` fails.  The operation builds
only fresh nodes and performs no `setMetadata` on its input, so on failure
the input is untouched (the model is a pure function of the input tree). -/
theorem limitEnum_empty_guard :
    (∀ (values remove : List String),
       limitEnumValues values remove = .error .emptyEnumError ↔
         filterValues values remove = []) ∧
    (∀ (target : Schema) (remove ls : List String),
       wfSchema target = true →
       (isZodEnum target || isFlexEnum target) = true →
       enumLabelsOf target = some ls →
       (limitEnumNode target remove = .error .emptyEnumError ↔
         filterValues ls remove = [])) ∧
    (∀ (fields : Fields) (k : String) (f : Schema) (remove ls : List String),
       wfSchema (.obj fields) = true →
       lookupField fields k = some f →
       (isZodEnum (unwrapOptionalAndNullable f).schema ||
         isFlexEnum (unwrapOptionalAndNullable f).schema) = true →
       enumLabelsOf (unwrapOptionalAndNullable f).schema = some ls →
       (limitEnumField (.obj fields) k remove = .error .emptyEnumError ↔
         filterValues ls remove = [])) ∧
    limitEnumValues ["a"] ["a"] = .error .emptyEnumError := by
  have hval : ∀ (values remove : List String),
      limitEnumValues values remove = .error .emptyEnumError ↔
        filterValues values remove = [] := by
    intro values remove
    by_cases hf : filterValues values remove = []
    · simp [limitEnumValues, hf]
    · have ht := toTuple_of_ne_nil _ hf
      simp [limitEnumValues, isEmpty_false_of_ne_nil _ hf, ht, hf]
  refine ⟨hval, fun target remove ls hwf hg hls => ?_, ?_, ?_⟩
  · rw [limitEnumNode, if_pos hg]
    exact processFlexOrEnum_char target remove ls hwf hg hls
  · intro fields k f remove ls hwf hk hg hls
    rw [wfSchema] at hwf
    rcases (Bool.and_eq_true _ _).mp hwf with ⟨_, hwfF⟩
    have hwff := wfSchema_unwrap f (wfFields_lookup fields k f hwfF hk)
    have hchar := processFlexOrEnum_char _ remove ls hwff hg hls
    rw [limitEnumField]
    simp only [hk]
    rw [if_pos hg]
    rcases hp : processFlexOrEnum (unwrapOptionalAndNullable f).schema remove with e | upd
    · rw [hp] at hchar
      simp only []
      constructor
      · intro he
        cases he
        exact hchar.mp rfl
      · intro hf
        rw [hchar.mpr hf]
    · rw [hp] at hchar
      simp only []
      constructor
      · intro he
        cases he
      · intro hf
        cases (by simp : ¬(Except.ok upd = Except.error Err.emptyEnumError)) (hchar.mpr hf)
  · exact (hval ["a"] ["a"]).mpr rfl

/-- C8 witness: removing both labels of the flexible union
`{enum ["a","b"], string}` fails with the empty-enum error, and removing
only `"a"` from the field `"s"` of an object schema succeeds (no
empty-enum error), as the characterization at concrete inputs states. -/
theorem limitEnum_empty_guard_witness :
    (limitEnumNode (.union2 (.enum ["a", "b"] none) (.str (some "d"))
        (some ⟨true, some "d"⟩)) ["a", "b"] = .error .emptyEnumError ↔
      filterValues ["a", "b"] ["a", "b"] = []) ∧
    (limitEnumField (.obj (.cons "s" (.enum ["a", "b"] none) .nil)) "s" ["a"]
        = .error .emptyEnumError ↔
      filterValues ["a", "b"] ["a"] = []) := by
  constructor
  · exact limitEnum_empty_guard.2.1
      (.union2 (.enum ["a", "b"] none) (.str (some "d")) (some ⟨true, some "d"⟩))
      ["a", "b"] ["a", "b"] (by decide) (by decide) (by decide)
  · exact limitEnum_empty_guard.2.2.1
      (.cons "s" (.enum ["a", "b"] none) .nil) "s" (.enum ["a", "b"] none)
      ["a"] ["a", "b"] (by decide) (by decide) (by decide) (by decide)

theorem strIncludes_length (v sub : String) (h : strIncludes v sub = true) :
    sub.length ≤ v.length := by
  rw [strIncludes, decide_eq_true_eq] at h
  exact h.length_le

theorem sanitize_unknown_of_includes (v : String)
    (h : v = DEFAULT_DESC ∨ strIncludes v DEFAULT_DESC = true) :
    sanitizeEnumValue v = "unknown" := by
  rw [sanitizeEnumValue]
  rcases h with rfl | h
  · simp
  · rw [h]
    simp

set_option maxRecDepth 4000 in
theorem includes_ne_unknown (v : String)
    (h : v = DEFAULT_DESC ∨ strIncludes v DEFAULT_DESC = true) : v ≠ "unknown" := by
  rcases h with rfl | h
  · decide
  · intro hv
    subst hv
    have hlen := strIncludes_length "unknown" DEFAULT_DESC h
    revert hlen
    decide

theorem sanitized_labels (ls : List String) (v : String) (hnodup : ls.Nodup)
    (hinc : v = DEFAULT_DESC ∨ strIncludes v DEFAULT_DESC = true) (hvls : v ∉ ls) :
    v ∉ setDedup (ls ++ [sanitizeEnumValue v]) ∧
    "unknown" ∈ setDedup (ls ++ [sanitizeEnumValue v]) := by
  rw [sanitize_unknown_of_includes v hinc, setDedup_append_single ls "unknown" hnodup]
  by_cases hu : "unknown" ∈ ls
  · rw [if_pos hu]
    exact ⟨hvls, hu⟩
  · rw [if_neg hu]
    refine ⟨fun hvm => ?_, by simp⟩
    rcases List.mem_append.mp hvm with h1 | h1
    · exact hvls h1
    · exact includes_ne_unknown v hinc (List.mem_singleton.mp h1)

theorem unwrap_obj (fs : Fields) :
    unwrapOptionalAndNullable (.obj fs) = ⟨.obj fs, false, false⟩ := rfl

theorem wf_enumish_labels (uf : Schema) (ls : List String)
    (hls : enumLabelsOf uf = some ls) (hwf : wfSchema uf = true) :
    ls ≠ [] ∧ ls.Nodup := by
  cases uf with
  | enum ls0 m =>
    simp only [enumLabelsOf, Option.some.injEq] at hls
    subst hls
    rw [wfSchema] at hwf
    rcases (Bool.and_eq_true _ _).mp hwf with ⟨h1, h2⟩
    rw [Bool.not_eq_true'] at h1
    exact ⟨fun hc => by simp [hc] at h1, (distinctB_iff _).mp h2⟩
  | union2 a b m =>
    cases a with
    | enum ls0 em =>
      simp only [enumLabelsOf, Option.some.injEq] at hls
      subst hls
      rw [wfSchema] at hwf
      rcases (Bool.and_eq_true _ _).mp hwf with ⟨hwa, _⟩
      rw [wfSchema] at hwa
      rcases (Bool.and_eq_true _ _).mp hwa with ⟨h1, h2⟩
      rw [Bool.not_eq_true'] at h1
      exact ⟨fun hc => by simp [hc] at h1, (distinctB_iff _).mp h2⟩
    | obj g => simp [enumLabelsOf] at hls
    | str d0 => simp [enumLabelsOf] at hls
    | union2 x y mm => simp [enumLabelsOf] at hls
    | optional i => simp [enumLabelsOf] at hls
    | nullable i => simp [enumLabelsOf] at hls
    | otherLeaf => simp [enumLabelsOf] at hls
  | obj g => simp [enumLabelsOf] at hls
  | str d0 => simp [enumLabelsOf] at hls
  | optional i => simp [enumLabelsOf] at hls
  | nullable i => simp [enumLabelsOf] at hls
  | otherLeaf => simp [enumLabelsOf] at hls

theorem processField_enumish (f : Schema) (ls : List String) (s : String)
    (hg : (isZodEnum (unwrapOptionalAndNullable f).schema ||
           isFlexEnum (unwrapOptionalAndNullable f).schema) = true)
    (hls : enumLabelsOf (unwrapOptionalAndNullable f).schema = some ls)
    (hne : ls ≠ []) :
    ∃ D2, processField f (.vstr s) =
      .ok (if ls.contains s then none
        else some (rewrap (.union2 (.enum (setDedup (ls ++ [sanitizeEnumValue s])) none)
          (.str (some D2)) (some ⟨true, none⟩))
          (unwrapOptionalAndNullable f).isOptional
          (unwrapOptionalAndNullable f).isNullable)) := by
  cases hshape : (unwrapOptionalAndNullable f).schema with
  | obj g =>
    rw [hshape] at hg
    simp [isZodEnum, isFlexEnum] at hg
  | enum ls0 m =>
    have hu : unwrapOptionalAndNullable f =
        ⟨.enum ls0 m, (unwrapOptionalAndNullable f).isOptional,
         (unwrapOptionalAndNullable f).isNullable⟩ := by
      rw [← hshape]
    rw [hshape] at hls
    simp only [enumLabelsOf, Option.some.injEq] at hls
    subst hls
    by_cases hflex : isFlexEnum (.enum ls0 m) = true
    · have hm : ∃ mdesc, m = some ⟨true, mdesc⟩ := by
        cases m with
        | none => simp [isFlexEnum] at hflex
        | some mi =>
          cases mi with
          | mk ef dsc =>
            simp only [isFlexEnum] at hflex
            exact ⟨dsc, by rw [hflex]⟩
      rcases hm with ⟨mdesc, rfl⟩
      refine ⟨jsOr mdesc DEFAULT_DESC, ?_⟩
      rw [processField_taggedEnum f ls0 mdesc _ _ (.vstr s) hu hne]
    · have hflex2 : isFlexEnum (.enum ls0 m) = false := by
        rw [← Bool.not_eq_true]
        exact hflex
      refine ⟨DEFAULT_DESC, ?_⟩
      rw [processField_plainEnum f ls0 m _ _ (.vstr s) hu hflex2 hne]
  | str d0 =>
    rw [hshape] at hls
    simp [enumLabelsOf] at hls
  | union2 a b m =>
    have hflex : isFlexEnum (.union2 a b m) = true := by
      rw [hshape] at hg
      cases hz : isZodEnum (.union2 a b m) with
      | true => simp [isZodEnum] at hz
      | false =>
        rw [hz] at hg
        simpa using hg
    cases a with
    | enum ls0 em =>
      have hu : unwrapOptionalAndNullable f =
          ⟨.union2 (.enum ls0 em) b m, (unwrapOptionalAndNullable f).isOptional,
           (unwrapOptionalAndNullable f).isNullable⟩ := by
        rw [← hshape]
      rw [hshape] at hls
      simp only [enumLabelsOf, Option.some.injEq] at hls
      subst hls
      refine ⟨jsOr (descrOf b) DEFAULT_DESC, ?_⟩
      rw [processField_flexUnion f b ls0 em m _ _ (.vstr s) hu hflex hne]
    | obj g => rw [hshape] at hls; simp [enumLabelsOf] at hls
    | str d0 => rw [hshape] at hls; simp [enumLabelsOf] at hls
    | union2 x y mm => rw [hshape] at hls; simp [enumLabelsOf] at hls
    | optional i => rw [hshape] at hls; simp [enumLabelsOf] at hls
    | nullable i => rw [hshape] at hls; simp [enumLabelsOf] at hls
    | otherLeaf => rw [hshape] at hls; simp [enumLabelsOf] at hls
  | optional i =>
    rw [hshape] at hg
    simp [isZodEnum, isFlexEnum] at hg
  | nullable i =>
    rw [hshape] at hg
    simp [isZodEnum, isFlexEnum] at hg
  | otherLeaf =>
    rw [hshape] at hg
    simp [isZodEnum, isFlexEnum] at hg

/-- C4: sanitization during `extend` (`flexEnum(schema, data)`).  When
the sample supplies, for an enumerated or flexible-enum field, a string
value that equals the default-description text or contains it as a
substring, the literal text is never added as a label — it is a member of
the new label list only if it already was one — and whenever a widening
takes place (the value was not already a label) the sentinel label
`"unknown"` is a member of the field's new label list instead. -/
theorem sanitize_during_extend
    (fields : Fields) (d : JValue) (c : Bool) (S2 : Schema) (k : String) (f : Schema)
    (ls : List String) (v : String)
    (hwf : wfSchema (.obj fields) = true)
    (hup : flexEnumData (.obj fields) d = .ok (c, S2))
    (hk : lookupField fields k = some f)
    (hg : (isZodEnum (unwrapOptionalAndNullable f).schema ||
           isFlexEnum (unwrapOptionalAndNullable f).schema) = true)
    (hls : enumLabelsOf (unwrapOptionalAndNullable f).schema = some ls)
    (hv : jGet d k = .vstr v)
    (hinc : v = DEFAULT_DESC ∨ strIncludes v DEFAULT_DESC = true) :
    ∃ ls2, labelsAtPath S2 [k] = some ls2 ∧
      (v ∈ ls2 ↔ v ∈ ls) ∧ (v ∉ ls → "unknown" ∈ ls2) := by
  have hup' : updateSchemaFromData (.obj fields) d = .ok (c, S2) := by
    rw [flexEnumData] at hup
    by_cases ht : (isZodObject (.obj fields) && truthy d) = true
    · rwa [if_pos ht] at hup
    · rw [if_neg ht] at hup
      cases hup
  rw [wfSchema] at hwf
  obtain ⟨hdis, hwfF⟩ := (Bool.and_eq_true _ _).mp hwf
  have hwff := wfSchema_unwrap f (wfFields_lookup fields k f hwfF hk)
  obtain ⟨hne, hnodup⟩ := wf_enumish_labels _ ls hls hwff
  rcases hcm : collectMods fields d with e | mods
  · rw [update_obj_err fields d e hcm] at hup'
    cases hup'
  · rw [update_obj_ok fields d mods hcm] at hup'
    have hproc := collectMods_lookup fields d mods hdis hcm k f hk
    rw [hv] at hproc
    obtain ⟨D2, hpe⟩ := processField_enumish f ls v hg hls hne
    rw [hpe] at hproc
    have hlk : List.lookup k mods =
        (if ls.contains v then none
         else some (rewrap (.union2 (.enum (setDedup (ls ++ [sanitizeEnumValue v])) none)
           (.str (some D2)) (some ⟨true, none⟩))
           (unwrapOptionalAndNullable f).isOptional
           (unwrapOptionalAndNullable f).isNullable)) := by
      have := hproc.symm
      simpa using this
    have hfield : pathField S2 [k] = some ((List.lookup k mods).getD f) := by
      by_cases he : mods.isEmpty
      · rw [if_pos he] at hup'
        simp only [Except.ok.injEq, Prod.mk.injEq] at hup'
        obtain ⟨_, hS⟩ := hup'
        subst hS
        have hmods : mods = [] := by
          cases mods with
          | nil => rfl
          | cons a l => simp at he
        subst hmods
        simp [pathField, unwrap_obj, hk]
      · rw [if_neg he] at hup'
        simp only [Except.ok.injEq, Prod.mk.injEq] at hup'
        obtain ⟨_, hS⟩ := hup'
        subst hS
        simp [pathField, unwrap_obj, lookupField_applyMods, hk]
    by_cases hmem : v ∈ ls
    · have hcon : ls.contains v = true := (contains_iff _ _).mpr hmem
      rw [hcon, if_pos rfl] at hlk
      refine ⟨ls, ?_, by simp [hmem], fun hc => absurd hmem hc⟩
      rw [labelsAtPath, hfield, hlk]
      simp only [Option.getD_some, Option.getD_none]
      cases hshape : (unwrapOptionalAndNullable f).schema with
      | enum ls0 m =>
        rw [hshape] at hls
        simp only [enumLabelsOf, Option.some.injEq] at hls
        rw [hls]
      | union2 a b m =>
        cases a with
        | enum ls0 em =>
          rw [hshape] at hls
          simp only [enumLabelsOf, Option.some.injEq] at hls
          rw [hls]
        | obj g => rw [hshape] at hls; simp [enumLabelsOf] at hls
        | str d0 => rw [hshape] at hls; simp [enumLabelsOf] at hls
        | union2 x y mm => rw [hshape] at hls; simp [enumLabelsOf] at hls
        | optional i => rw [hshape] at hls; simp [enumLabelsOf] at hls
        | nullable i => rw [hshape] at hls; simp [enumLabelsOf] at hls
        | otherLeaf => rw [hshape] at hls; simp [enumLabelsOf] at hls
      | obj g => rw [hshape] at hls; simp [enumLabelsOf] at hls
      | str d0 => rw [hshape] at hls; simp [enumLabelsOf] at hls
      | optional i => rw [hshape] at hls; simp [enumLabelsOf] at hls
      | nullable i => rw [hshape] at hls; simp [enumLabelsOf] at hls
      | otherLeaf => rw [hshape] at hls; simp [enumLabelsOf] at hls
    · have hcon : ls.contains v = false := by
        rw [← Bool.not_eq_true]
        intro hc
        exact hmem ((contains_iff _ _).mp hc)
      rw [hcon] at hlk
      simp only [Bool.false_eq_true, if_false] at hlk
      obtain ⟨hnot, hunk⟩ := sanitized_labels ls v hnodup hinc hmem
      refine ⟨setDedup (ls ++ [sanitizeEnumValue v]), ?_, ?_, fun _ => hunk⟩
      · rw [labelsAtPath, hfield, hlk]
        simp only [Option.getD_some]
        rw [unwrap_rewrap_union2]
      · simp [hmem, hnot]

/-- C4 witness: the default-description text itself, fed as the value of
the flexible field `"f"` with labels `["a"]`, is not added; the widened
label list is `["a", "unknown"]`. -/
theorem sanitize_during_extend_witness :
    ∃ ls2, labelsAtPath
        (.obj (.cons "f" (.union2 (.enum ["a", "unknown"] none)
          (.str (some DEFAULT_DESC)) (some ⟨true, none⟩)) .nil)) ["f"] = some ls2 ∧
      (DEFAULT_DESC ∈ ls2 ↔ DEFAULT_DESC ∈ (["a"] : List String)) ∧
      (DEFAULT_DESC ∉ (["a"] : List String) → "unknown" ∈ ls2) := by
  have hup : flexEnumData
      (.obj (.cons "f" (.union2 (.enum ["a"] none) (.str (some DEFAULT_DESC))
        (some ⟨true, some DEFAULT_DESC⟩)) .nil))
      (.vobj (.cons "f" (.vstr DEFAULT_DESC) .nil)) =
      .ok (true, .obj (.cons "f" (.union2 (.enum ["a", "unknown"] none)
        (.str (some DEFAULT_DESC)) (some ⟨true, none⟩)) .nil)) := by
    simp [flexEnumData, isZodObject, truthy, updateSchemaFromData, collectMods,
      dispatchField, unwrapOptionalAndNullable, stepOptional, stepNullable,
      jGet, lookupEntry, isFlexEnum, isZodEnum, isZodString, getEnumValues,
      toTuple, setDedup, sanitizeEnumValue, strIncludes, DEFAULT_DESC,
      jsOr, descrOf, rewrap, applyMods, List.lookup]
  exact sanitize_during_extend
    (.cons "f" (.union2 (.enum ["a"] none) (.str (some DEFAULT_DESC))
      (some ⟨true, some DEFAULT_DESC⟩)) .nil)
    (.vobj (.cons "f" (.vstr DEFAULT_DESC) .nil))
    true
    (.obj (.cons "f" (.union2 (.enum ["a", "unknown"] none)
      (.str (some DEFAULT_DESC)) (some ⟨true, none⟩)) .nil))
    "f"
    (.union2 (.enum ["a"] none) (.str (some DEFAULT_DESC))
      (some ⟨true, some DEFAULT_DESC⟩))
    ["a"] DEFAULT_DESC
    (by simp [wfSchema, wfFields, distinctB, fieldNames])
    hup
    rfl
    (by simp [isZodEnum, isZodString, isFlexEnum, unwrapOptionalAndNullable,
      stepOptional, stepNullable])
    (by simp [enumLabelsOf, unwrapOptionalAndNullable, stepOptional, stepNullable])
    (by simp [jGet, lookupEntry])
    (Or.inl rfl)

/-- C5 counterexample: the claim says the promoted field's enumerated
branch contains the old labels plus *the new value*.  Feeding the
default-description text itself to a plain enum field `["a"]` promotes the
field, but the enumerated branch is `["a", "unknown"]` — the new value is
sanitized away and never appears. -/
theorem plain_enum_promotion_cx :
    flexEnumData (.obj (.cons "f" (.enum ["a"] none) .nil))
        (.vobj (.cons "f" (.vstr DEFAULT_DESC) .nil)) =
      .ok (true, .obj (.cons "f" (.union2 (.enum ["a", "unknown"] none)
        (.str (some DEFAULT_DESC)) (some ⟨true, none⟩)) .nil)) ∧
    DEFAULT_DESC ∉ (["a", "unknown"] : List String) := by
  constructor
  · simp [flexEnumData, isZodObject, truthy, updateSchemaFromData, collectMods,
      dispatchField, unwrapOptionalAndNullable, stepOptional, stepNullable,
      jGet, lookupEntry, isFlexEnum, isZodEnum, isZodString, getEnumValues,
      toTuple, setDedup, sanitizeEnumValue, strIncludes, DEFAULT_DESC,
      jsOr, descrOf, rewrap, applyMods, List.lookup]
  · decide

/-- C5 amended: for a plain (untagged) enumerated field and a sample whose
value is a string not in the field's label list, `extend` rewrites the
field into a full flexible-enum union — enumerated branch carrying the old
labels plus the *sanitized* new value (first-occurrence deduplicated),
string branch carrying the system default description, tagged
`enumForge` — rebuilt inside the field's wrapper flags. -/
theorem plain_enum_promotion_amended
    (fields : Fields) (d : JValue) (c : Bool) (S2 : Schema) (k : String) (f : Schema)
    (ls : List String) (m : Option MetaInfo) (v : String)
    (hwf : wfSchema (.obj fields) = true)
    (hup : flexEnumData (.obj fields) d = .ok (c, S2))
    (hk : lookupField fields k = some f)
    (hsh : (unwrapOptionalAndNullable f).schema = .enum ls m)
    (hflex : isFlexEnum (.enum ls m) = false)
    (hv : jGet d k = .vstr v)
    (hnovel : v ∉ ls) :
    pathField S2 [k] = some (rewrap
        (.union2 (.enum (setDedup (ls ++ [sanitizeEnumValue v])) none)
          (.str (some DEFAULT_DESC)) (some ⟨true, none⟩))
        (unwrapOptionalAndNullable f).isOptional
        (unwrapOptionalAndNullable f).isNullable) ∧
    isFlexEnum (.union2 (.enum (setDedup (ls ++ [sanitizeEnumValue v])) none)
        (.str (some DEFAULT_DESC)) (some ⟨true, none⟩)) = true ∧
    (∀ x ∈ ls, x ∈ setDedup (ls ++ [sanitizeEnumValue v])) ∧
    sanitizeEnumValue v ∈ setDedup (ls ++ [sanitizeEnumValue v]) := by
  have hup' : updateSchemaFromData (.obj fields) d = .ok (c, S2) := by
    rw [flexEnumData] at hup
    by_cases ht : (isZodObject (.obj fields) && truthy d) = true
    · rwa [if_pos ht] at hup
    · rw [if_neg ht] at hup
      cases hup
  rw [wfSchema] at hwf
  obtain ⟨hdis, hwfF⟩ := (Bool.and_eq_true _ _).mp hwf
  have hwff := wfSchema_unwrap f (wfFields_lookup fields k f hwfF hk)
  rw [hsh] at hwff
  rw [wfSchema] at hwff
  obtain ⟨hne1, _⟩ := (Bool.and_eq_true _ _).mp hwff
  rw [Bool.not_eq_true'] at hne1
  have hne : ls ≠ [] := fun hc => by simp [hc] at hne1
  have hu : unwrapOptionalAndNullable f =
      ⟨.enum ls m, (unwrapOptionalAndNullable f).isOptional,
       (unwrapOptionalAndNullable f).isNullable⟩ := by
    rw [← hsh]
  rcases hcm : collectMods fields d with e | mods
  · rw [update_obj_err fields d e hcm] at hup'
    cases hup'
  · rw [update_obj_ok fields d mods hcm] at hup'
    have hproc := collectMods_lookup fields d mods hdis hcm k f hk
    rw [hv, processField_plainEnum f ls m _ _ (.vstr v) hu hflex hne] at hproc
    dsimp only at hproc
    have hcon : ls.contains v = false := by
      rw [← Bool.not_eq_true]
      intro hc
      exact hnovel ((contains_iff _ _).mp hc)
    rw [hcon] at hproc
    simp only [Bool.false_eq_true, if_false] at hproc
    have hlk : List.lookup k mods =
        some (rewrap (.union2 (.enum (setDedup (ls ++ [sanitizeEnumValue v])) none)
          (.str (some DEFAULT_DESC)) (some ⟨true, none⟩))
          (unwrapOptionalAndNullable f).isOptional
          (unwrapOptionalAndNullable f).isNullable) := by
      have := hproc.symm
      simpa using this
    have hmodsne : mods.isEmpty = false := by
      cases hm : mods with
      | nil =>
        rw [hm] at hlk
        cases hlk
      | cons a l => rfl
    rw [hmodsne] at hup'
    simp only [Bool.false_eq_true, if_false, Except.ok.injEq, Prod.mk.injEq] at hup'
    obtain ⟨_, hS⟩ := hup'
    subst hS
    refine ⟨?_, by simp [isFlexEnum, isZodEnum, isZodString], ?_, ?_⟩
    · simp [pathField, unwrap_obj, lookupField_applyMods, hk, hlk]
    · intro x hx
      rw [mem_setDedup]
      exact List.mem_append.mpr (Or.inl hx)
    · rw [mem_setDedup]
      exact List.mem_append.mpr (Or.inr (List.mem_singleton.mpr rfl))

/-- C5 amended, witness: the plain enum field `["a"]` with novel value
`"b"` becomes the tagged union with enumerated branch `["a","b"]` and the
default description on the string branch. -/
theorem plain_enum_promotion_amended_witness :
    pathField (.obj (.cons "f" (.union2 (.enum ["a", "b"] none)
        (.str (some DEFAULT_DESC)) (some ⟨true, none⟩)) .nil)) ["f"] =
      some (rewrap (.union2 (.enum (setDedup (["a"] ++ [sanitizeEnumValue "b"])) none)
        (.str (some DEFAULT_DESC)) (some ⟨true, none⟩)) false false) ∧
    isFlexEnum (.union2 (.enum (setDedup (["a"] ++ [sanitizeEnumValue "b"])) none)
        (.str (some DEFAULT_DESC)) (some ⟨true, none⟩)) = true ∧
    (∀ x ∈ (["a"] : List String), x ∈ setDedup (["a"] ++ [sanitizeEnumValue "b"])) ∧
    sanitizeEnumValue "b" ∈ setDedup (["a"] ++ [sanitizeEnumValue "b"]) := by
  have hsan : sanitizeEnumValue "b" = "b" := by decide
  have hup : flexEnumData (.obj (.cons "f" (.enum ["a"] none) .nil))
      (.vobj (.cons "f" (.vstr "b") .nil)) =
      .ok (true, .obj (.cons "f" (.union2 (.enum ["a", "b"] none)
        (.str (some DEFAULT_DESC)) (some ⟨true, none⟩)) .nil)) := by
    simp [flexEnumData, isZodObject, truthy, updateSchemaFromData, collectMods,
      dispatchField, unwrapOptionalAndNullable, stepOptional, stepNullable,
      jGet, lookupEntry, isFlexEnum, isZodEnum, isZodString, getEnumValues,
      toTuple, setDedup, hsan, jsOr, descrOf, rewrap, applyMods, List.lookup]
  exact plain_enum_promotion_amended
    (.cons "f" (.enum ["a"] none) .nil)
    (.vobj (.cons "f" (.vstr "b") .nil))
    true
    (.obj (.cons "f" (.union2 (.enum ["a", "b"] none)
      (.str (some DEFAULT_DESC)) (some ⟨true, none⟩)) .nil))
    "f" (.enum ["a"] none) ["a"] none "b"
    (by simp [wfSchema, wfFields, distinctB, fieldNames])
    hup
    rfl
    rfl
    (by simp [isFlexEnum])
    (by simp [jGet, lookupEntry])
    (by decide)

/-- C6 counterexample: a field wrapped nullable-outermost
(`enum.optional().nullable()` = `nullable(optional(...))`) is rewritten by
`extend` with the wrappers in the *opposite* relative order: the source
reapplies `.nullable()` first and `.optional()` second, producing
`optional(nullable(...))`. -/
theorem wrapper_order_cx :
    flexEnumData (.obj (.cons "f" (.nullable (.optional (.union2 (.enum ["a"] none)
        (.str (some "d")) (some ⟨true, some "d"⟩)))) .nil))
        (.vobj (.cons "f" (.vstr "b") .nil)) =
      .ok (true, .obj (.cons "f" (.optional (.nullable (.union2 (.enum ["a", "b"] none)
        (.str (some "d")) (some ⟨true, none⟩)))) .nil)) ∧
    wrapperStack (.nullable (.optional (.union2 (.enum ["a"] none)
        (.str (some "d")) (some ⟨true, some "d"⟩)))) = [.wnul, .wopt] ∧
    wrapperStack (.optional (.nullable (.union2 (.enum ["a", "b"] none)
        (.str (some "d")) (some ⟨true, none⟩)))) = [.wopt, .wnul] ∧
    ([Wrap.wnul, Wrap.wopt] : List Wrap) ≠ [Wrap.wopt, Wrap.wnul] := by
  refine ⟨?_, rfl, rfl, by decide⟩
  have hsan : sanitizeEnumValue "b" = "b" := by decide
  simp [flexEnumData, isZodObject, truthy, updateSchemaFromData, collectMods,
    dispatchField, unwrapOptionalAndNullable, stepOptional, stepNullable,
    jGet, lookupEntry, isFlexEnum, isZodEnum, isZodString, getEnumValues,
    toTuple, setDedup, hsan, jsOr, descrOf, rewrap, applyMods, List.lookup]

theorem update_result_obj (g : Fields) (v : JValue) (c : Bool) (s2 : Schema)
    (h : updateSchemaFromData (.obj g) v = .ok (c, s2)) :
    ∃ g2, s2 = .obj g2 := by
  rcases hcm : collectMods g v with e | mods
  · rw [update_obj_err g v e hcm] at h
    cases h
  · rw [update_obj_ok g v mods hcm] at h
    by_cases he : mods.isEmpty
    · rw [if_pos he] at h
      simp only [Except.ok.injEq, Prod.mk.injEq] at h
      exact ⟨g, h.2.symm⟩
    · rw [if_neg he] at h
      simp only [Except.ok.injEq, Prod.mk.injEq] at h
      exact ⟨applyMods g mods, h.2.symm⟩

theorem processField_flags (f : Schema) (v : JValue) (nf : Schema)
    (hwf : wfSchema f = true)
    (h : processField f v = .ok (some nf)) :
    (unwrapOptionalAndNullable nf).isOptional = (unwrapOptionalAndNullable f).isOptional ∧
    (unwrapOptionalAndNullable nf).isNullable = (unwrapOptionalAndNullable f).isNullable := by
  have hwfu := wfSchema_unwrap f hwf
  cases hshape : (unwrapOptionalAndNullable f).schema with
  | obj g =>
    have hu : unwrapOptionalAndNullable f =
        ⟨.obj g, (unwrapOptionalAndNullable f).isOptional,
         (unwrapOptionalAndNullable f).isNullable⟩ := by
      rw [← hshape]
    by_cases ht : truthy v = true
    · rw [processField_obj_truthy f g _ _ v hu ht] at h
      rcases hupd : updateSchemaFromData (.obj g) v with e | p
      · rw [hupd] at h
        cases h
      · rw [hupd] at h
        obtain ⟨c, nf'⟩ := p
        dsimp only at h
        cases c with
        | false => simp at h
        | true =>
          simp only [if_true, Except.ok.injEq, Option.some.injEq] at h
          subst h
          obtain ⟨g2, rfl⟩ := update_result_obj g v true nf' hupd
          rw [unwrap_rewrap_obj]
          exact ⟨rfl, rfl⟩
    · have hf : truthy v = false := by
        rw [← Bool.not_eq_true]
        exact ht
      rw [processField_obj_falsy f g _ _ v hu hf] at h
      cases h
  | enum ls m =>
    have hu : unwrapOptionalAndNullable f =
        ⟨.enum ls m, (unwrapOptionalAndNullable f).isOptional,
         (unwrapOptionalAndNullable f).isNullable⟩ := by
      rw [← hshape]
    rw [hshape, wfSchema] at hwfu
    obtain ⟨hne1, _⟩ := (Bool.and_eq_true _ _).mp hwfu
    rw [Bool.not_eq_true'] at hne1
    have hne : ls ≠ [] := fun hc => by simp [hc] at hne1
    by_cases hflex : isFlexEnum (.enum ls m) = true
    · have hm : ∃ mdesc, m = some ⟨true, mdesc⟩ := by
        cases m with
        | none => simp [isFlexEnum] at hflex
        | some mi =>
          cases mi with
          | mk ef dsc =>
            simp only [isFlexEnum] at hflex
            exact ⟨dsc, by rw [hflex]⟩
      rcases hm with ⟨mdesc, rfl⟩
      rw [processField_taggedEnum f ls mdesc _ _ v hu hne] at h
      cases v <;> dsimp only at h <;> try cases h
      split at h
      · cases h
      · simp only [Except.ok.injEq, Option.some.injEq] at h
        subst h
        rw [unwrap_rewrap_union2]
        exact ⟨rfl, rfl⟩
    · have hflex2 : isFlexEnum (.enum ls m) = false := by
        rw [← Bool.not_eq_true]
        exact hflex
      rw [processField_plainEnum f ls m _ _ v hu hflex2 hne] at h
      cases v <;> dsimp only at h <;> try cases h
      split at h
      · cases h
      · simp only [Except.ok.injEq, Option.some.injEq] at h
        subst h
        rw [unwrap_rewrap_union2]
        exact ⟨rfl, rfl⟩
  | str d0 =>
    rw [processField_other f (.str d0) (unwrapOptionalAndNullable f).isOptional
      (unwrapOptionalAndNullable f).isNullable v (by rw [← hshape])
      (by simp [isZodObject]) (by simp [isFlexEnum]) (by simp [isZodEnum])] at h
    cases h
  | union2 a b m =>
    have hu : unwrapOptionalAndNullable f =
        ⟨.union2 a b m, (unwrapOptionalAndNullable f).isOptional,
         (unwrapOptionalAndNullable f).isNullable⟩ := by
      rw [← hshape]
    by_cases hflex : isFlexEnum (.union2 a b m) = true
    · cases a with
      | enum ls em =>
        rw [hshape, wfSchema] at hwfu
        obtain ⟨hwa, _⟩ := (Bool.and_eq_true _ _).mp hwfu
        rw [wfSchema] at hwa
        obtain ⟨hne1, _⟩ := (Bool.and_eq_true _ _).mp hwa
        rw [Bool.not_eq_true'] at hne1
        have hne : ls ≠ [] := fun hc => by simp [hc] at hne1
        rw [processField_flexUnion f b ls em m _ _ v hu hflex hne] at h
        cases v <;> dsimp only at h <;> try cases h
        split at h
        · cases h
        · simp only [Except.ok.injEq, Option.some.injEq] at h
          subst h
          rw [unwrap_rewrap_union2]
          exact ⟨rfl, rfl⟩
      | obj g => simp [isFlexEnum, isZodEnum] at hflex
      | str d0 => simp [isFlexEnum, isZodEnum] at hflex
      | union2 x y mm => simp [isFlexEnum, isZodEnum] at hflex
      | optional i => simp [isFlexEnum, isZodEnum] at hflex
      | nullable i => simp [isFlexEnum, isZodEnum] at hflex
      | otherLeaf => simp [isFlexEnum, isZodEnum] at hflex
    · have hflex2 : isFlexEnum (.union2 a b m) = false := by
        rw [← Bool.not_eq_true]
        exact hflex
      rw [processField_other f _ _ _ v hu (by simp [isZodObject]) hflex2
        (by simp [isZodEnum])] at h
      cases h
  | optional i =>
    rw [processField_other f (.optional i) (unwrapOptionalAndNullable f).isOptional
      (unwrapOptionalAndNullable f).isNullable v (by rw [← hshape])
      (by simp [isZodObject]) (by simp [isFlexEnum]) (by simp [isZodEnum])] at h
    cases h
  | nullable i =>
    rw [processField_other f (.nullable i) (unwrapOptionalAndNullable f).isOptional
      (unwrapOptionalAndNullable f).isNullable v (by rw [← hshape])
      (by simp [isZodObject]) (by simp [isFlexEnum]) (by simp [isZodEnum])] at h
    cases h
  | otherLeaf =>
    rw [processField_other f .otherLeaf (unwrapOptionalAndNullable f).isOptional
      (unwrapOptionalAndNullable f).isNullable v (by rw [← hshape])
      (by simp [isZodObject]) (by simp [isFlexEnum]) (by simp [isZodEnum])] at h
    cases h

theorem processFlexOrEnum_shape (target : Schema) (remove : List String) (upd : Schema)
    (h : processFlexOrEnum target remove = .ok upd) :
    stepOptional upd = (upd, false) ∧ stepNullable upd = (upd, false) := by
  cases target with
  | enum ls m =>
    rw [processFlexOrEnum] at h
    rw [if_pos (by simp [isZodEnum])] at h
    by_cases he : ls.isEmpty = true
    · rw [getEnumValues, if_pos he] at h
      cases h
    · rw [getEnumValues, if_neg he] at h
      dsimp only at h
      split at h
      · cases h
      · rcases htt : toTuple (filterValues ls remove) with e | t
        · rw [htt] at h
          cases h
        · rw [htt] at h
          dsimp only at h
          cases h
          exact ⟨rfl, rfl⟩
    all_goals intro a b mm hc
    all_goals simp at hc
  | union2 a b m =>
    rw [processFlexOrEnum] at h
    rw [if_neg (by simp [isZodEnum])] at h
    by_cases hflex : isFlexEnum (.union2 a b m) = true
    · rw [if_pos hflex] at h
      rcases hge : getEnumValues a with e | cur
      · rw [hge] at h
        cases h
      · rw [hge] at h
        dsimp only at h
        split at h
        · cases h
        · rcases htt : toTuple (filterValues cur remove) with e | t
          · rw [htt] at h
            cases h
          · rw [htt] at h
            dsimp only at h
            cases h
            exact ⟨rfl, rfl⟩
    · rw [if_neg hflex] at h
      cases h
  | obj g =>
    rw [processFlexOrEnum, if_neg (by simp [isZodEnum]),
      if_neg (by simp [isFlexEnum])] at h
    · cases h
    · intro a b mm hc
      simp at hc
  | str d0 =>
    rw [processFlexOrEnum, if_neg (by simp [isZodEnum]),
      if_neg (by simp [isFlexEnum])] at h
    · cases h
    · intro a b mm hc
      simp at hc
  | optional i =>
    rw [processFlexOrEnum, if_neg (by simp [isZodEnum]),
      if_neg (by simp [isFlexEnum])] at h
    · cases h
    · intro a b mm hc
      simp at hc
  | nullable i =>
    rw [processFlexOrEnum, if_neg (by simp [isZodEnum]),
      if_neg (by simp [isFlexEnum])] at h
    · cases h
    · intro a b mm hc
      simp at hc
  | otherLeaf =>
    rw [processFlexOrEnum, if_neg (by simp [isZodEnum]),
      if_neg (by simp [isFlexEnum])] at h
    · cases h
    · intro a b mm hc
      simp at hc

/-- C6 amended: after `extend`, `forgeEnum` or `limitEnum` rewrites a
field, the rewritten field carries the same *set* of wrappers — optional
present if and only if it was before, likewise nullable — but restored in
the fixed canonical order `.nullable()` first, `.optional()` second
(optional outermost), not necessarily in the original relative order
(see the counterexample for a nullable-outermost stack). -/
theorem wrapper_restore_amended :
    (∀ (fields : Fields) (d : JValue) (c : Bool) (S2 : Schema) (k : String) (f : Schema),
       wfSchema (.obj fields) = true →
       flexEnumData (.obj fields) d = .ok (c, S2) →
       lookupField fields k = some f →
       ∃ f2, pathField S2 [k] = some f2 ∧
         (unwrapOptionalAndNullable f2).isOptional = (unwrapOptionalAndNullable f).isOptional ∧
         (unwrapOptionalAndNullable f2).isNullable = (unwrapOptionalAndNullable f).isNullable) ∧
    (∀ (fields : Fields) (k : String) (f : Schema) (add : List String) (S2 : Schema),
       forgeEnumField (.obj fields) k add = .ok S2 →
       lookupField fields k = some f →
       ∃ f2, pathField S2 [k] = some f2 ∧
         (unwrapOptionalAndNullable f2).isOptional = (unwrapOptionalAndNullable f).isOptional ∧
         (unwrapOptionalAndNullable f2).isNullable = (unwrapOptionalAndNullable f).isNullable) ∧
    (∀ (fields : Fields) (k : String) (f : Schema) (remove : List String) (S2 : Schema),
       limitEnumField (.obj fields) k remove = .ok S2 →
       lookupField fields k = some f →
       ∃ f2, pathField S2 [k] = some f2 ∧
         (unwrapOptionalAndNullable f2).isOptional = (unwrapOptionalAndNullable f).isOptional ∧
         (unwrapOptionalAndNullable f2).isNullable = (unwrapOptionalAndNullable f).isNullable) := by
  refine ⟨?_, ?_, ?_⟩
  · intro fields d c S2 k f hwf hup hk
    have hup' : updateSchemaFromData (.obj fields) d = .ok (c, S2) := by
      rw [flexEnumData] at hup
      by_cases ht : (isZodObject (.obj fields) && truthy d) = true
      · rwa [if_pos ht] at hup
      · rw [if_neg ht] at hup
        cases hup
    rw [wfSchema] at hwf
    obtain ⟨hdis, hwfF⟩ := (Bool.and_eq_true _ _).mp hwf
    rcases hcm : collectMods fields d with e | mods
    · rw [update_obj_err fields d e hcm] at hup'
      cases hup'
    · rw [update_obj_ok fields d mods hcm] at hup'
      have hproc := collectMods_lookup fields d mods hdis hcm k f hk
      have hfield : pathField S2 [k] = some ((List.lookup k mods).getD f) := by
        by_cases he : mods.isEmpty
        · rw [if_pos he] at hup'
          simp only [Except.ok.injEq, Prod.mk.injEq] at hup'
          obtain ⟨_, hS⟩ := hup'
          subst hS
          have hmods : mods = [] := by
            cases mods with
            | nil => rfl
            | cons a l => simp at he
          subst hmods
          simp [pathField, unwrap_obj, hk]
        · rw [if_neg he] at hup'
          simp only [Except.ok.injEq, Prod.mk.injEq] at hup'
          obtain ⟨_, hS⟩ := hup'
          subst hS
          simp [pathField, unwrap_obj, lookupField_applyMods, hk]
      rcases hlk : List.lookup k mods with _ | nf
      · refine ⟨f, ?_, rfl, rfl⟩
        rw [hfield, hlk]
        rfl
      · refine ⟨nf, ?_, ?_⟩
        · rw [hfield, hlk]
          rfl
        · rw [hlk] at hproc
          exact processField_flags f (jGet d k) nf (wfFields_lookup fields k f hwfF hk) hproc
  · intro fields k f add S2 hforge hk
    rw [forgeEnumField] at hforge
    rw [hk] at hforge
    dsimp only at hforge
    split at hforge
    · rcases hge : getEnumValues (unwrapOptionalAndNullable f).schema with e | base
      · rw [hge] at hforge
        cases hforge
      · rw [hge] at hforge
        dsimp only at hforge
        rcases hnv : getNewValues base add with e | nv
        · rw [hnv] at hforge
          cases hforge
        · rw [hnv] at hforge
          dsimp only at hforge
          cases hforge
          refine ⟨rewrap (.enum nv none) (unwrapOptionalAndNullable f).isOptional
            (unwrapOptionalAndNullable f).isNullable, ?_, ?_⟩
          · simp [pathField, unwrap_obj, lookupField_applyMods, hk, List.lookup]
          · rw [unwrap_rewrap_enum]
            exact ⟨rfl, rfl⟩
    · cases hforge
  · intro fields k f remove S2 hlim hk
    rw [limitEnumField] at hlim
    rw [hk] at hlim
    dsimp only at hlim
    split at hlim
    · rcases hp : processFlexOrEnum (unwrapOptionalAndNullable f).schema remove with e | upd
      · rw [hp] at hlim
        cases hlim
      · rw [hp] at hlim
        dsimp only at hlim
        cases hlim
        obtain ⟨hs1, hs2⟩ := processFlexOrEnum_shape _ remove upd hp
        refine ⟨rewrap upd (unwrapOptionalAndNullable f).isOptional
          (unwrapOptionalAndNullable f).isNullable, ?_, ?_⟩
        · simp [pathField, unwrap_obj, lookupField_applyMods, hk, List.lookup]
        · rw [unwrap_rewrap upd _ _ hs1 hs2]
          exact ⟨rfl, rfl⟩
    · cases hlim

/-- C6 amended, witness: the nullable-outermost field of the
counterexample keeps both wrapper flags through `extend` (restored in
canonical order). -/
theorem wrapper_restore_amended_witness :
    ∃ f2, pathField (.obj (.cons "f" (.optional (.nullable (.union2
        (.enum ["a", "b"] none) (.str (some "d")) (some ⟨true, none⟩)))) .nil)) ["f"]
        = some f2 ∧
      (unwrapOptionalAndNullable f2).isOptional =
        (unwrapOptionalAndNullable (.nullable (.optional (.union2 (.enum ["a"] none)
          (.str (some "d")) (some ⟨true, some "d"⟩))))).isOptional ∧
      (unwrapOptionalAndNullable f2).isNullable =
        (unwrapOptionalAndNullable (.nullable (.optional (.union2 (.enum ["a"] none)
          (.str (some "d")) (some ⟨true, some "d"⟩))))).isNullable := by
  have hsan : sanitizeEnumValue "b" = "b" := by decide
  have hup : flexEnumData (.obj (.cons "f" (.nullable (.optional (.union2
      (.enum ["a"] none) (.str (some "d")) (some ⟨true, some "d"⟩)))) .nil))
      (.vobj (.cons "f" (.vstr "b") .nil)) =
      .ok (true, .obj (.cons "f" (.optional (.nullable (.union2 (.enum ["a", "b"] none)
        (.str (some "d")) (some ⟨true, none⟩)))) .nil)) := by
    simp [flexEnumData, isZodObject, truthy, updateSchemaFromData, collectMods,
      dispatchField, unwrapOptionalAndNullable, stepOptional, stepNullable,
      jGet, lookupEntry, isFlexEnum, isZodEnum, isZodString, getEnumValues,
      toTuple, setDedup, hsan, jsOr, descrOf, rewrap, applyMods, List.lookup]
  exact wrapper_restore_amended.1
    (.cons "f" (.nullable (.optional (.union2 (.enum ["a"] none)
      (.str (some "d")) (some ⟨true, some "d"⟩)))) .nil)
    (.vobj (.cons "f" (.vstr "b") .nil))
    true
    (.obj (.cons "f" (.optional (.nullable (.union2 (.enum ["a", "b"] none)
      (.str (some "d")) (some ⟨true, none⟩)))) .nil))
    "f"
    (.nullable (.optional (.union2 (.enum ["a"] none)
      (.str (some "d")) (some ⟨true, some "d"⟩))))
    (by simp [wfSchema, wfFields, distinctB, fieldNames])
    hup
    rfl

theorem setMetaNone_id (a : Schema) (h : metaOf a = none) : setMetaNone a = a := by
  cases a <;> simp_all [metaOf, setMetaNone]

theorem replaceInner_unwrap (x : Schema) :
    replaceInner x (unwrapOptionalAndNullable x).schema = x := by
  cases x with
  | optional s1 =>
    cases s1 with
    | nullable s2 =>
      cases s2 <;>
        simp [replaceInner, replaceAfterOpt, replaceAfterNul,
          unwrapOptionalAndNullable, stepOptional, stepNullable]
    | optional s2 =>
      simp [replaceInner, replaceAfterOpt, replaceAfterNul,
        unwrapOptionalAndNullable, stepOptional, stepNullable]
    | _ =>
      simp [replaceInner, replaceAfterOpt, replaceAfterNul,
        unwrapOptionalAndNullable, stepOptional, stepNullable]
  | nullable s1 =>
    cases s1 <;>
      simp [replaceInner, replaceAfterOpt, replaceAfterNul,
        unwrapOptionalAndNullable, stepOptional, stepNullable]
  | _ =>
    simp [replaceInner, replaceAfterOpt, replaceAfterNul,
      unwrapOptionalAndNullable, stepOptional, stepNullable]

theorem strictOne_standard_union (a b : Schema) (m : Option MetaInfo)
    (hflex : isFlexEnum (.union2 a b m) = true) (hm : metaOf a = none) :
    _strictOne (.union2 a b m) = ⟨a, .union2 a b m, false⟩ := by
  rw [_strictOne]
  have hu : unwrapOptionalAndNullable (.union2 a b m) = ⟨.union2 a b m, false, false⟩ := rfl
  rw [hu]
  dsimp only
  rw [if_pos hflex]
  rw [setMetaNone_id a hm]
  rfl

theorem sepAfter_aux : ∀ n : Nat,
    (∀ (s : Schema) (layer : FlexityLayer) (path : List String)
        (r : Schema × Bool × FlexityLayer × Schema),
       sizeOf s ≤ n → standardFlex s = true →
       _separateTraverse s layer path = .ok r → r.2.2.2 = s) ∧
    (∀ (fs : Fields) (layer : FlexityLayer) (path : List String)
        (r : List (String × Schema) × FlexityLayer × Fields),
       sizeOf fs ≤ n → standardFlexFields fs = true →
       sepFields fs layer path = .ok r → r.2.2 = fs) := by
  intro n
  induction n using Nat.strong_induction_on with
  | _ n ih =>
    constructor
    · intro s layer path r hsz hstd hsep
      cases s with
      | obj fields =>
        rw [_separateTraverse] at hsep
        rcases hsf : sepFields fields layer path with e | rr
        · rw [hsf] at hsep
          cases hsep
        · rw [hsf] at hsep
          dsimp only at hsep
          cases hsep
          have hszf : sizeOf fields < n := by
            have : sizeOf fields < sizeOf (Schema.obj fields) := by
              simp
            omega
          have := (ih (sizeOf fields) hszf).2 fields layer path rr le_rfl
            (by rwa [standardFlex] at hstd) hsf
          simp [this]
      | enum ls m =>
        rw [_separateTraverse] at hsep
        · cases hsep
          rfl
        · intro fields2 hc
          simp at hc
      | str d0 =>
        rw [_separateTraverse] at hsep
        · cases hsep
          rfl
        · intro fields2 hc
          simp at hc
      | union2 a b m =>
        rw [_separateTraverse] at hsep
        · cases hsep
          rfl
        · intro fields2 hc
          simp at hc
      | optional i =>
        rw [_separateTraverse] at hsep
        · cases hsep
          rfl
        · intro fields2 hc
          simp at hc
      | nullable i =>
        rw [_separateTraverse] at hsep
        · cases hsep
          rfl
        · intro fields2 hc
          simp at hc
      | otherLeaf =>
        rw [_separateTraverse] at hsep
        · cases hsep
          rfl
        · intro fields2 hc
          simp at hc
    · intro fs layer path r hsz hstd hsep
      cases fs with
      | nil =>
        rw [sepFields] at hsep
        cases hsep
        rfl
      | cons key field rest =>
        rw [standardFlexFields] at hstd
        obtain ⟨hhead, htail⟩ := (Bool.and_eq_true _ _).mp hstd
        have hsza : sizeOf rest < n := by
          have h2 : sizeOf rest < sizeOf (Fields.cons key field rest) := by
            simp
          omega
        rw [sepFields] at hsep
        by_cases hflex : isFlexEnum (unwrapOptionalAndNullable field).schema = true
        · rw [if_pos hflex] at hsep
          rw [if_pos hflex] at hhead
          cases hshape : (unwrapOptionalAndNullable field).schema with
          | union2 a b m =>
            rw [hshape] at hhead hflex hsep
            dsimp only at hhead
            rw [Option.isNone_iff_eq_none] at hhead
            dsimp only at hsep
            split at hsep
            · cases hsep
            · split at hsep
              · cases hsep
              · next mods layerOut fAfter hsf =>
                  cases hsep
                  have htl := (ih (sizeOf rest) hsza).2 rest _ path
                    (mods, layerOut, fAfter) le_rfl htail hsf
                  dsimp only
                  dsimp only at htl
                  rw [htl]
                  rw [strictOne_standard_union a b m hflex hhead]
                  dsimp only
                  rw [← hshape, replaceInner_unwrap]
          | obj g => rw [hshape] at hflex; simp [isFlexEnum] at hflex
          | enum ls m =>
            rw [hshape] at hhead
            dsimp only at hhead
            cases hhead
          | str d0 => rw [hshape] at hflex; simp [isFlexEnum] at hflex
          | optional i => rw [hshape] at hflex; simp [isFlexEnum] at hflex
          | nullable i => rw [hshape] at hflex; simp [isFlexEnum] at hflex
          | otherLeaf => rw [hshape] at hflex; simp [isFlexEnum] at hflex
        · rw [if_neg hflex] at hsep
          rw [if_neg hflex] at hhead
          by_cases hobj : isZodObject (unwrapOptionalAndNullable field).schema = true
          · rw [if_pos hobj] at hsep
            rw [if_pos hobj] at hhead
            split at hsep
            · cases hsep
            · next nested changed layer1 afterN hst =>
                split at hsep
                · cases hsep
                · next mods layerOut fAfter hsf =>
                    cases hsep
                    have hszf : sizeOf (unwrapOptionalAndNullable field).schema < n := by
                      have h1 := sizeOf_unwrap_le field
                      have h2 : sizeOf field < sizeOf (Fields.cons key field rest) := by
                        simp
                        omega
                      omega
                    have hnest := (ih _ hszf).1 _ layer (path ++ [key])
                      (nested, changed, layer1, afterN) le_rfl hhead hst
                    have htl := (ih (sizeOf rest) hsza).2 rest _ path
                      (mods, layerOut, fAfter) le_rfl htail hsf
                    dsimp only
                    dsimp only at htl hnest
                    rw [htl, hnest, replaceInner_unwrap]
          · rw [if_neg hobj] at hsep
            split at hsep
            · cases hsep
            · next mods layerOut fAfter hsf =>
                cases hsep
                have htl := (ih (sizeOf rest) hsza).2 rest _ path
                  (mods, layerOut, fAfter) le_rfl htail hsf
                dsimp only
                dsimp only at htl
                rw [htl]

/-- C7 counterexample: the spec claims every operation other than the
initial tagging leaves the input tree unchanged, but `strictEnum` (and its
alias `deflexStructure`) clears the metadata of a transitional tagged plain
enum *on the input node* (`setMetadata(..., undefined)`), so the input after
the call — the `after` component — carries no metadata and differs from the
input; `separateFlexibility` performs the same in-place clear on such a
field inside an object schema. -/
theorem no_mutation_cx :
    (strictEnum (.enum ["a"] (some ⟨true, some "d"⟩)) =
       .ok ⟨.enum ["a"] none, .enum ["a"] none, true⟩) ∧
    (deflexStructure (.enum ["a"] (some ⟨true, some "d"⟩)) =
       .ok ⟨.enum ["a"] none, .enum ["a"] none, true⟩) ∧
    ((Schema.enum ["a"] none) ≠ .enum ["a"] (some ⟨true, some "d"⟩)) ∧
    (separateFlexibility (.obj (.cons "f" (.enum ["a"] (some ⟨true, some "d"⟩)) .nil)) =
       .ok (.obj (.cons "f" (.enum ["a"] none) .nil),
            [("f", ⟨["a"], some "d"⟩)],
            .obj (.cons "f" (.enum ["a"] none) .nil))) := by
  refine ⟨rfl, rfl, by decide, ?_⟩
  simp [separateFlexibility, _separateTraverse, sepFields, isZodObject,
    unwrapOptionalAndNullable, stepOptional, stepNullable, isFlexEnum,
    isZodEnum, isZodString, metaOf, getEnumValues, recordSet, pathStr,
    _strictOne, setMetaNone, replaceInner, replaceAfterOpt, replaceAfterNul,
    rewrap, applyMods, jsOrOpt, descrOf]
  decide

/-- C7 (amended): the in-place mutation is exactly the metadata clear of
`_strictOne`.  (a) On a standard flexible union (enumerated branch
untagged, the form `flexEnum` builds) `strictEnum` returns the enumerated
branch and leaves the input unchanged; (b) on the transitional tagged
plain-enum form the input's metadata is observably cleared in place;
(c) `separateFlexibility` on a schema whose flexible leaves are all in
standard form returns the input tree unchanged; (d) `deflexStructure` is
an alias of `strictEnum`. -/
theorem no_mutation_amended :
    (∀ a b m, isFlexEnum (.union2 a b m) = true → metaOf a = none →
       strictEnum (.union2 a b m) = .ok ⟨a, .union2 a b m, false⟩) ∧
    (∀ ls dsc, strictEnum (.enum ls (some ⟨true, dsc⟩)) =
       .ok ⟨.enum ls none, .enum ls none, true⟩) ∧
    (∀ s r, standardFlex s = true → separateFlexibility s = .ok r →
       r.2.2 = s) ∧
    (∀ x, deflexStructure x = strictEnum x) := by
  refine ⟨?_, ?_, ?_, fun _ => rfl⟩
  · intro a b m hflex hm
    rw [strictEnum, hflex]
    simp only [Bool.true_or, if_pos]
    rw [strictOne_standard_union a b m hflex hm]
  · intro ls dsc
    simp [strictEnum, isFlexEnum, isZodEnum, _strictOne,
      unwrapOptionalAndNullable, stepOptional, stepNullable, setMetaNone,
      rewrap, replaceInner, replaceAfterOpt, replaceAfterNul]
  · intro s r hstd hsep
    rw [separateFlexibility] at hsep
    by_cases hobj : isZodObject s = true
    · rw [if_pos hobj] at hsep
      split at hsep
      · cases hsep
      · next cleaned ch layer after hst =>
          cases hsep
          exact (sepAfter_aux (sizeOf s)).1 s [] [] (cleaned, ch, layer, after)
            le_rfl hstd hst
    · rw [if_neg hobj] at hsep
      cases hsep

/-- Witness for C7 (amended): conjunct (a) at a concrete standard flexible
union, and conjunct (c)'s hypotheses hold at a concrete object schema. -/
theorem no_mutation_amended_witness :
    (isFlexEnum (.union2 (.enum ["a"] none) (.str (some "d")) (some ⟨true, none⟩)) = true ∧
     strictEnum (.union2 (.enum ["a"] none) (.str (some "d")) (some ⟨true, none⟩)) =
       .ok ⟨.enum ["a"] none,
            .union2 (.enum ["a"] none) (.str (some "d")) (some ⟨true, none⟩), false⟩) ∧
    (standardFlex (.obj (.cons "g"
        (.union2 (.enum ["b"] none) (.str none) (some ⟨true, none⟩)) .nil)) = true ∧
     separateFlexibility (.obj (.cons "g"
        (.union2 (.enum ["b"] none) (.str none) (some ⟨true, none⟩)) .nil)) =
       .ok (.obj (.cons "g" (.enum ["b"] none) .nil),
            [("g", ⟨["b"], none⟩)],
            .obj (.cons "g"
              (.union2 (.enum ["b"] none) (.str none) (some ⟨true, none⟩)) .nil))) := by
  constructor
  · exact ⟨by decide,
      no_mutation_amended.1 (.enum ["a"] none) (.str (some "d"))
        (some ⟨true, none⟩) (by decide) rfl⟩
  · constructor
    · simp [standardFlex, standardFlexFields, unwrapOptionalAndNullable,
        stepOptional, stepNullable, isFlexEnum, isZodEnum, isZodString, metaOf]
    · simp [separateFlexibility, _separateTraverse, sepFields, isZodObject,
        unwrapOptionalAndNullable, stepOptional, stepNullable, isFlexEnum,
        isZodEnum, isZodString, metaOf, getEnumValues, recordSet, pathStr,
        _strictOne, setMetaNone, replaceInner, replaceAfterOpt, replaceAfterNul,
        rewrap, applyMods, jsOrOpt, descrOf]
      decide

theorem knownField_obj (f : Schema) (g : Fields) (o n : Bool) (v : JValue)
    (hu : unwrapOptionalAndNullable f = ⟨.obj g, o, n⟩)
    (ht : truthy v = true) :
    knownField f v = knownData (.obj g) v := by
  simp [knownField, hu, isZodObject, ht]

theorem knownField_enum (f : Schema) (ls : List String) (m : Option MetaInfo)
    (o n : Bool) (s : String)
    (hu : unwrapOptionalAndNullable f = ⟨.enum ls m, o, n⟩) :
    knownField f (.vstr s) = ls.contains s := by
  simp only [knownField, hu]
  simp [isZodObject, knownFlexLeaf, knownEnumLeaf]

theorem knownField_union_enum (f b : Schema) (ls : List String)
    (em m : Option MetaInfo) (o n : Bool) (s : String)
    (hu : unwrapOptionalAndNullable f = ⟨.union2 (.enum ls em) b m, o, n⟩)
    (hflex : isFlexEnum (.union2 (.enum ls em) b m) = true) :
    knownField f (.vstr s) = ls.contains s := by
  simp only [knownField, hu]
  simp [isZodObject, hflex, knownFlexLeaf]

theorem processField_known (f : Schema) (v : JValue)
    (hwf : wfSchema f = true)
    (hk : knownField f v = true)
    (hrec : ∀ g, (unwrapOptionalAndNullable f).schema = .obj g → truthy v = true →
       updateSchemaFromData (.obj g) v = .ok (false, .obj g)) :
    processField f v = .ok none := by
  have hwfu : wfSchema (unwrapOptionalAndNullable f).schema = true := wfSchema_unwrap f hwf
  cases hshape : (unwrapOptionalAndNullable f).schema with
  | obj g =>
    have hu : unwrapOptionalAndNullable f =
        ⟨.obj g, (unwrapOptionalAndNullable f).isOptional,
         (unwrapOptionalAndNullable f).isNullable⟩ := by rw [← hshape]
    by_cases ht : truthy v = true
    · have hrec2 := hrec g hshape ht
      rw [processField_obj_truthy f g _ _ v hu ht, hrec2]
      rfl
    · rw [processField_obj_falsy f g _ _ v hu (by simpa using ht)]
  | enum ls m =>
    have hu : unwrapOptionalAndNullable f =
        ⟨.enum ls m, (unwrapOptionalAndNullable f).isOptional,
         (unwrapOptionalAndNullable f).isNullable⟩ := by rw [← hshape]
    rw [hshape] at hwfu
    have hne : ls ≠ [] := by
      rw [wfSchema] at hwfu
      rcases (Bool.and_eq_true _ _).mp hwfu with ⟨h1, _⟩
      rw [Bool.not_eq_true'] at h1
      intro hc
      simp [hc] at h1
    by_cases hflex : isFlexEnum (.enum ls m) = true
    · have hm : ∃ mdesc, m = some ⟨true, mdesc⟩ := by
        cases m with
        | none => simp [isFlexEnum] at hflex
        | some mi =>
          cases mi with
          | mk ef dsc =>
            simp only [isFlexEnum] at hflex
            exact ⟨dsc, by rw [hflex]⟩
      rcases hm with ⟨mdesc, rfl⟩
      rw [processField_taggedEnum f ls mdesc _ _ v hu hne]
      cases v with
      | vstr s =>
        have hcont : ls.contains s = true := by
          rw [← knownField_enum f ls _ _ _ s hu]
          exact hk
        simp [hcont, (contains_iff ls s).mp hcont]
      | vnum k => rfl
      | vbool b => rfl
      | vnull => rfl
      | vundef => rfl
      | vobj es => rfl
    · have hflex2 : isFlexEnum (.enum ls m) = false := by
        rw [← Bool.not_eq_true]
        exact hflex
      rw [processField_plainEnum f ls m _ _ v hu hflex2 hne]
      cases v with
      | vstr s =>
        have hcont : ls.contains s = true := by
          rw [← knownField_enum f ls m _ _ s hu]
          exact hk
        simp [hcont, (contains_iff ls s).mp hcont]
      | vnum k => rfl
      | vbool b => rfl
      | vnull => rfl
      | vundef => rfl
      | vobj es => rfl
  | union2 a b m =>
    by_cases hflex : isFlexEnum (.union2 a b m) = true
    · cases a with
      | enum ls em =>
        have hu : unwrapOptionalAndNullable f =
            ⟨.union2 (.enum ls em) b m, (unwrapOptionalAndNullable f).isOptional,
             (unwrapOptionalAndNullable f).isNullable⟩ := by rw [← hshape]
        rw [hshape] at hwfu
        have hne : ls ≠ [] := by
          rw [wfSchema] at hwfu
          rcases (Bool.and_eq_true _ _).mp hwfu with ⟨hwa, _⟩
          rw [wfSchema] at hwa
          rcases (Bool.and_eq_true _ _).mp hwa with ⟨h1, _⟩
          rw [Bool.not_eq_true'] at h1
          intro hc
          simp [hc] at h1
        rw [processField_flexUnion f b ls em m _ _ v hu hflex hne]
        cases v with
        | vstr s =>
          have hcont : ls.contains s = true := by
            rw [← knownField_union_enum f b ls em m _ _ s hu hflex]
            exact hk
          simp [hcont, (contains_iff ls s).mp hcont]
        | vnum k => rfl
        | vbool b2 => rfl
        | vnull => rfl
        | vundef => rfl
        | vobj es => rfl
      | obj g => simp [isFlexEnum, isZodEnum] at hflex
      | str d0 => simp [isFlexEnum, isZodEnum] at hflex
      | union2 x y mm => simp [isFlexEnum, isZodEnum] at hflex
      | optional i => simp [isFlexEnum, isZodEnum] at hflex
      | nullable i => simp [isFlexEnum, isZodEnum] at hflex
      | otherLeaf => simp [isFlexEnum, isZodEnum] at hflex
    · have hu : unwrapOptionalAndNullable f =
          ⟨.union2 a b m, (unwrapOptionalAndNullable f).isOptional,
           (unwrapOptionalAndNullable f).isNullable⟩ := by rw [← hshape]
      have hflex2 : isFlexEnum (.union2 a b m) = false := by
        rw [← Bool.not_eq_true]
        exact hflex
      exact processField_other f _ _ _ v hu rfl hflex2 rfl
  | str d0 =>
    have hu : unwrapOptionalAndNullable f =
        ⟨.str d0, (unwrapOptionalAndNullable f).isOptional,
         (unwrapOptionalAndNullable f).isNullable⟩ := by rw [← hshape]
    exact processField_other f _ _ _ v hu rfl rfl rfl
  | optional i =>
    have hu : unwrapOptionalAndNullable f =
        ⟨.optional i, (unwrapOptionalAndNullable f).isOptional,
         (unwrapOptionalAndNullable f).isNullable⟩ := by rw [← hshape]
    exact processField_other f _ _ _ v hu rfl rfl rfl
  | nullable i =>
    have hu : unwrapOptionalAndNullable f =
        ⟨.nullable i, (unwrapOptionalAndNullable f).isOptional,
         (unwrapOptionalAndNullable f).isNullable⟩ := by rw [← hshape]
    exact processField_other f _ _ _ v hu rfl rfl rfl
  | otherLeaf =>
    have hu : unwrapOptionalAndNullable f =
        ⟨.otherLeaf, (unwrapOptionalAndNullable f).isOptional,
         (unwrapOptionalAndNullable f).isNullable⟩ := by rw [← hshape]
    exact processField_other f _ _ _ v hu rfl rfl rfl

theorem update_known_aux : ∀ n : Nat,
    (∀ (s : Schema) (d : JValue), sizeOf s ≤ n → wfSchema s = true →
       knownData s d = true → updateSchemaFromData s d = .ok (false, s)) ∧
    (∀ (fs : Fields) (d : JValue), sizeOf fs ≤ n → wfFields fs = true →
       knownFields fs d = true → collectMods fs d = .ok []) := by
  intro n
  induction n using Nat.strong_induction_on with
  | _ n ih =>
    constructor
    · intro s d hsz hwf hkd
      cases s with
      | obj fields =>
        rw [update_obj_eq]
        have hszf : sizeOf fields < n := by
          have : sizeOf fields < sizeOf (Schema.obj fields) := by
            simp
          omega
        have hcm : collectMods fields d = .ok [] := by
          refine (ih (sizeOf fields) hszf).2 fields d le_rfl ?_ ?_
          · rw [wfSchema] at hwf
            exact ((Bool.and_eq_true _ _).mp hwf).2
          · rwa [knownData] at hkd
        rw [hcm]
        rfl
      | enum ls m => exact update_not_obj _ _ rfl
      | str d0 => exact update_not_obj _ _ rfl
      | union2 a b m => exact update_not_obj _ _ rfl
      | optional i => exact update_not_obj _ _ rfl
      | nullable i => exact update_not_obj _ _ rfl
      | otherLeaf => exact update_not_obj _ _ rfl
    · intro fs d hsz hwf hkf
      cases fs with
      | nil => rw [collectMods]
      | cons key field rest =>
        rw [wfFields] at hwf
        obtain ⟨hwff, hwfr⟩ := (Bool.and_eq_true _ _).mp hwf
        rw [knownFields_cons] at hkf
        obtain ⟨hkh, hkr⟩ := (Bool.and_eq_true _ _).mp hkf
        have hsza : sizeOf rest < n := by
          have h2 : sizeOf rest < sizeOf (Fields.cons key field rest) := by
            simp
          omega
        have hpf : processField field (jGet d key) = .ok none := by
          refine processField_known field (jGet d key) hwff hkh ?_
          intro g hshape ht
          have hszf : sizeOf (unwrapOptionalAndNullable field).schema < n := by
            have h1 := sizeOf_unwrap_le field
            have h2 : sizeOf field < sizeOf (Fields.cons key field rest) := by
              simp
              omega
            omega
          rw [hshape] at hszf
          have hu : unwrapOptionalAndNullable field =
              ⟨.obj g, (unwrapOptionalAndNullable field).isOptional,
               (unwrapOptionalAndNullable field).isNullable⟩ := by rw [← hshape]
          have hwfg : wfSchema (.obj g) = true := by
            have := wfSchema_unwrap field hwff
            rwa [hshape] at this
          refine (ih _ hszf).1 _ (jGet d key) le_rfl hwfg ?_
          rw [← knownField_obj field g _ _ (jGet d key) hu ht]
          exact hkh
        rw [collectMods_cons, hpf]
        exact (ih (sizeOf rest) hsza).2 rest d le_rfl hwfr hkr

/-- C2: idempotence by identity.  For an object schema (well-formed as the
underlying library maintains it: non-empty duplicate-free enum labels,
distinct shape keys) and truthy sample data whose every leaf value for an
enumerated or flexible-enum field is already a member of that field's
current label list, `extend` (`flexEnum(schema, data)`) reports no change
(`changed = false`, which in the source means the very input reference is
returned, no `extend` call made) and returns the input schema itself; a
second call with the same data again returns the input, so the chained
double call is an identity. -/
theorem extend_idempotent_identity (fields : Fields) (d : JValue)
    (hwf : wfSchema (.obj fields) = true)
    (ht : truthy d = true)
    (hk : knownData (.obj fields) d = true) :
    flexEnumData (.obj fields) d = .ok (false, .obj fields) ∧
    extendSeq (.obj fields) [d, d] = .ok (.obj fields) := by
  have hupd : updateSchemaFromData (.obj fields) d = .ok (false, .obj fields) :=
    (update_known_aux (sizeOf (Schema.obj fields))).1 _ d le_rfl hwf hk
  have hfe : flexEnumData (.obj fields) d = .ok (false, .obj fields) := by
    rw [flexEnumData, if_pos (by rw [ht]; rfl)]
    exact hupd
  refine ⟨hfe, ?_⟩
  simp only [extendSeq, hfe]

/-- Witness for C2 at a concrete schema and sample: one enum field whose
sample value is already a label. -/
theorem extend_idempotent_identity_witness :
    wfSchema (.obj (.cons "f" (.enum ["a"] none) .nil)) = true ∧
    truthy (.vobj (.cons "f" (.vstr "a") .nil)) = true ∧
    knownData (.obj (.cons "f" (.enum ["a"] none) .nil))
      (.vobj (.cons "f" (.vstr "a") .nil)) = true ∧
    flexEnumData (.obj (.cons "f" (.enum ["a"] none) .nil))
      (.vobj (.cons "f" (.vstr "a") .nil)) =
      .ok (false, .obj (.cons "f" (.enum ["a"] none) .nil)) ∧
    extendSeq (.obj (.cons "f" (.enum ["a"] none) .nil))
      [.vobj (.cons "f" (.vstr "a") .nil), .vobj (.cons "f" (.vstr "a") .nil)] =
      .ok (.obj (.cons "f" (.enum ["a"] none) .nil)) := by
  have hwf : wfSchema (.obj (.cons "f" (.enum ["a"] none) .nil)) = true := by decide
  have ht : truthy (.vobj (.cons "f" (.vstr "a") .nil)) = true := rfl
  have hk : knownData (.obj (.cons "f" (.enum ["a"] none) .nil))
      (.vobj (.cons "f" (.vstr "a") .nil)) = true := by
    simp [knownData, knownFields, unwrapOptionalAndNullable, stepOptional,
      stepNullable, isZodObject, isFlexEnum, isZodEnum, jGet, lookupEntry,
      truthy, knownFlexLeaf, knownEnumLeaf]
  have h := extend_idempotent_identity (.cons "f" (.enum ["a"] none) .nil)
    (.vobj (.cons "f" (.vstr "a") .nil)) hwf ht hk
  exact ⟨hwf, ht, hk, h.1, h.2⟩

theorem wfSchema_rewrap (s : Schema) (o n : Bool) :
    wfSchema (rewrap s o n) = wfSchema s := by
  cases o <;> cases n <;> simp [rewrap, wfSchema]

theorem fieldNames_applyMods (fs : Fields) (mods : List (String × Schema)) :
    fieldNames (applyMods fs mods) = fieldNames fs := by
  induction fs using fieldsInduction with
  | hnil => rfl
  | hcons n g r ih => rw [applyMods, fieldNames, fieldNames, ih]

theorem applyMods_cons_notmem (r : Fields) (key : String) (nf : Schema)
    (ms : List (String × Schema)) (h : key ∉ fieldNames r) :
    applyMods r ((key, nf) :: ms) = applyMods r ms := by
  induction r using fieldsInduction with
  | hnil => rfl
  | hcons n g rr ih =>
    rw [fieldNames] at h
    simp only [List.mem_cons] at h
    push_neg at h
    have hne : (n == key) = false := by
      simp only [beq_eq_false_iff_ne, ne_eq]
      exact fun hc => h.1 hc.symm
    rw [applyMods, applyMods, ih h.2]
    simp only [List.lookup, hne]

theorem labelsAtPath_nil (s : Schema) : labelsAtPath s [] = none := by
  rw [labelsAtPath, pathField]

theorem pathField_obj_cons (fields : Fields) (k : String) (ks : List String) :
    pathField (.obj fields) (k :: ks) =
      (match lookupField fields k with
       | some f => if ks.isEmpty then some f else pathField f ks
       | none => none) := by
  rw [pathField]
  rfl

theorem labelsAtPath_obj_none (fields : Fields) (k : String) (ks : List String)
    (h : lookupField fields k = none) :
    labelsAtPath (.obj fields) (k :: ks) = none := by
  rw [labelsAtPath, pathField_obj_cons, h]

theorem labelsAtPath_obj_single (fields : Fields) (k : String) (f : Schema)
    (h : lookupField fields k = some f) :
    labelsAtPath (.obj fields) [k] = enumLabelsOf (unwrapOptionalAndNullable f).schema := by
  rw [labelsAtPath, pathField_obj_cons, h]
  simp only [List.isEmpty_nil, if_true]
  cases hu : (unwrapOptionalAndNullable f).schema with
  | obj g => rfl
  | enum ls m => rfl
  | str d0 => rfl
  | union2 a b m => cases a <;> rfl
  | optional i => rfl
  | nullable i => rfl
  | otherLeaf => rfl

theorem labelsAtPath_obj_cons (fields : Fields) (k k1 : String) (ks1 : List String)
    (f : Schema) (h : lookupField fields k = some f) :
    labelsAtPath (.obj fields) (k :: k1 :: ks1) = labelsAtPath f (k1 :: ks1) := by
  rw [labelsAtPath, labelsAtPath, pathField_obj_cons, h]
  simp only [List.isEmpty_cons, Bool.false_eq_true, if_false]

theorem labelsAtPath_unwrap_obj (f : Schema) (g : Fields)
    (h : (unwrapOptionalAndNullable f).schema = .obj g) :
    ∀ p, labelsAtPath f p = labelsAtPath (.obj g) p := by
  intro p
  cases p with
  | nil => rw [labelsAtPath_nil, labelsAtPath_nil]
  | cons k ks =>
    have hp : pathField f (k :: ks) = pathField (.obj g) (k :: ks) := by
      rw [pathField, pathField, h]
      rfl
    rw [labelsAtPath, labelsAtPath, hp]

theorem labelsAtPath_not_obj (f : Schema)
    (h : isZodObject (unwrapOptionalAndNullable f).schema = false) :
    ∀ p, labelsAtPath f p = none := by
  intro p
  cases p with
  | nil => exact labelsAtPath_nil f
  | cons k ks =>
    have hp : pathField f (k :: ks) = none := by
      rw [pathField]
      cases hs : (unwrapOptionalAndNullable f).schema with
      | obj g =>
        rw [hs] at h
        simp [isZodObject] at h
      | enum ls m => rfl
      | str d0 => rfl
      | union2 a b m => rfl
      | optional i => rfl
      | nullable i => rfl
      | otherLeaf => rfl
    rw [labelsAtPath, hp]

theorem isZodObject_of_enumLabels (u : Schema) (ls : List String)
    (h : enumLabelsOf u = some ls) : isZodObject u = false := by
  cases u <;> simp_all [enumLabelsOf, isZodObject]

theorem labelExtends_refl (f : Schema) : labelExtends f f :=
  ⟨fun ls h => ⟨[], by simpa using h⟩, fun p ls h => ⟨[], by simpa using h⟩⟩

theorem processField_some_cases (f : Schema) (v : JValue) (nf : Schema)
    (hwf : wfSchema f = true)
    (h : processField f v = .ok (some nf)) :
    (∃ g c g2, (unwrapOptionalAndNullable f).schema = .obj g ∧
       updateSchemaFromData (.obj g) v = .ok (c, .obj g2) ∧
       nf = rewrap (.obj g2) (unwrapOptionalAndNullable f).isOptional
         (unwrapOptionalAndNullable f).isNullable) ∨
    (∃ ls s D, enumLabelsOf (unwrapOptionalAndNullable f).schema = some ls ∧
       v = .vstr s ∧ ls.contains s = false ∧
       nf = rewrap (.union2 (.enum (setDedup (ls ++ [sanitizeEnumValue s])) none)
         (.str (some D)) (some ⟨true, none⟩))
         (unwrapOptionalAndNullable f).isOptional
         (unwrapOptionalAndNullable f).isNullable) := by
  have hwfu := wfSchema_unwrap f hwf
  cases hshape : (unwrapOptionalAndNullable f).schema with
  | obj g =>
    have hu : unwrapOptionalAndNullable f =
        ⟨.obj g, (unwrapOptionalAndNullable f).isOptional,
         (unwrapOptionalAndNullable f).isNullable⟩ := by
      rw [← hshape]
    by_cases ht : truthy v = true
    · rw [processField_obj_truthy f g _ _ v hu ht] at h
      rcases hupd : updateSchemaFromData (.obj g) v with e | p
      · rw [hupd] at h
        cases h
      · rw [hupd] at h
        obtain ⟨c, nf'⟩ := p
        dsimp only at h
        cases c with
        | false => simp at h
        | true =>
          simp only [if_true, Except.ok.injEq, Option.some.injEq] at h
          subst h
          obtain ⟨g2, rfl⟩ := update_result_obj g v true nf' hupd
          exact .inl ⟨g, true, g2, rfl, hupd, rfl⟩
    · have hf : truthy v = false := by
        rw [← Bool.not_eq_true]
        exact ht
      rw [processField_obj_falsy f g _ _ v hu hf] at h
      cases h
  | enum ls m =>
    have hu : unwrapOptionalAndNullable f =
        ⟨.enum ls m, (unwrapOptionalAndNullable f).isOptional,
         (unwrapOptionalAndNullable f).isNullable⟩ := by
      rw [← hshape]
    rw [hshape, wfSchema] at hwfu
    obtain ⟨hne1, _⟩ := (Bool.and_eq_true _ _).mp hwfu
    rw [Bool.not_eq_true'] at hne1
    have hne : ls ≠ [] := fun hc => by simp [hc] at hne1
    by_cases hflex : isFlexEnum (.enum ls m) = true
    · have hm : ∃ mdesc, m = some ⟨true, mdesc⟩ := by
        cases m with
        | none => simp [isFlexEnum] at hflex
        | some mi =>
          cases mi with
          | mk ef dsc =>
            simp only [isFlexEnum] at hflex
            exact ⟨dsc, by rw [hflex]⟩
      rcases hm with ⟨mdesc, rfl⟩
      rw [processField_taggedEnum f ls mdesc _ _ v hu hne] at h
      cases v <;> dsimp only at h <;> try cases h
      next s =>
        by_cases hcont : ls.contains s = true
        · rw [if_pos hcont] at h
          simp at h
        · rw [Bool.not_eq_true] at hcont
          simp only [hcont, Bool.false_eq_true, if_false, Except.ok.injEq,
            Option.some.injEq] at h
          exact .inr ⟨ls, s, _, rfl, rfl, hcont, h.symm⟩
    · have hflex2 : isFlexEnum (.enum ls m) = false := by
        rw [← Bool.not_eq_true]
        exact hflex
      rw [processField_plainEnum f ls m _ _ v hu hflex2 hne] at h
      cases v <;> dsimp only at h <;> try cases h
      next s =>
        by_cases hcont : ls.contains s = true
        · rw [if_pos hcont] at h
          simp at h
        · rw [Bool.not_eq_true] at hcont
          simp only [hcont, Bool.false_eq_true, if_false, Except.ok.injEq,
            Option.some.injEq] at h
          exact .inr ⟨ls, s, _, rfl, rfl, hcont, h.symm⟩
  | str d0 =>
    rw [processField_other f (.str d0) (unwrapOptionalAndNullable f).isOptional
      (unwrapOptionalAndNullable f).isNullable v (by rw [← hshape])
      (by simp [isZodObject]) (by simp [isFlexEnum]) (by simp [isZodEnum])] at h
    cases h
  | union2 a b m =>
    have hu : unwrapOptionalAndNullable f =
        ⟨.union2 a b m, (unwrapOptionalAndNullable f).isOptional,
         (unwrapOptionalAndNullable f).isNullable⟩ := by
      rw [← hshape]
    by_cases hflex : isFlexEnum (.union2 a b m) = true
    · cases a with
      | enum ls em =>
        rw [hshape, wfSchema] at hwfu
        obtain ⟨hwa, _⟩ := (Bool.and_eq_true _ _).mp hwfu
        rw [wfSchema] at hwa
        obtain ⟨hne1, _⟩ := (Bool.and_eq_true _ _).mp hwa
        rw [Bool.not_eq_true'] at hne1
        have hne : ls ≠ [] := fun hc => by simp [hc] at hne1
        rw [processField_flexUnion f b ls em m _ _ v hu hflex hne] at h
        cases v <;> dsimp only at h <;> try cases h
        next s =>
          by_cases hcont : ls.contains s = true
          · rw [if_pos hcont] at h
            simp at h
          · rw [Bool.not_eq_true] at hcont
            simp only [hcont, Bool.false_eq_true, if_false, Except.ok.injEq,
              Option.some.injEq] at h
            exact .inr ⟨ls, s, _, rfl, rfl, hcont, h.symm⟩
      | obj g => simp [isFlexEnum, isZodEnum] at hflex
      | str d0 => simp [isFlexEnum, isZodEnum] at hflex
      | union2 x y mm => simp [isFlexEnum, isZodEnum] at hflex
      | optional i => simp [isFlexEnum, isZodEnum] at hflex
      | nullable i => simp [isFlexEnum, isZodEnum] at hflex
      | otherLeaf => simp [isFlexEnum, isZodEnum] at hflex
    · have hflex2 : isFlexEnum (.union2 a b m) = false := by
        rw [← Bool.not_eq_true]
        exact hflex
      rw [processField_other f _ _ _ v hu (by simp [isZodObject]) hflex2
        (by simp [isZodEnum])] at h
      cases h
  | optional i =>
    rw [processField_other f (.optional i) (unwrapOptionalAndNullable f).isOptional
      (unwrapOptionalAndNullable f).isNullable v (by rw [← hshape])
      (by simp [isZodObject]) (by simp [isFlexEnum]) (by simp [isZodEnum])] at h
    cases h
  | nullable i =>
    rw [processField_other f (.nullable i) (unwrapOptionalAndNullable f).isOptional
      (unwrapOptionalAndNullable f).isNullable v (by rw [← hshape])
      (by simp [isZodObject]) (by simp [isFlexEnum]) (by simp [isZodEnum])] at h
    cases h
  | otherLeaf =>
    rw [processField_other f .otherLeaf (unwrapOptionalAndNullable f).isOptional
      (unwrapOptionalAndNullable f).isNullable v (by rw [← hshape])
      (by simp [isZodObject]) (by simp [isFlexEnum]) (by simp [isZodEnum])] at h
    cases h

theorem newField_wf_labelExtends (field nf : Schema) (v : JValue) (n : Nat)
    (hwff : wfSchema field = true)
    (hpf : processField field v = .ok (some nf))
    (hsz : sizeOf (unwrapOptionalAndNullable field).schema < n)
    (ihobj : ∀ (s : Schema) (d : JValue) (c : Bool) (s2 : Schema),
       sizeOf s < n → wfSchema s = true → updateSchemaFromData s d = .ok (c, s2) →
       wfSchema s2 = true ∧ labelExtends s s2) :
    wfSchema nf = true ∧ labelExtends field nf := by
  rcases processField_some_cases field v nf hwff hpf with
    ⟨g, c, g2, hshape, hupd, rfl⟩ | ⟨ls, s, D, hls, rfl, hcont, rfl⟩
  · rw [hshape] at hsz
    have hwfg : wfSchema (.obj g) = true := by
      have := wfSchema_unwrap field hwff
      rwa [hshape] at this
    have hrec := ihobj (.obj g) v c (.obj g2) hsz hwfg hupd
    constructor
    · rw [wfSchema_rewrap]
      exact hrec.1
    · constructor
      · intro ls hels
        rw [hshape] at hels
        simp [enumLabelsOf] at hels
      · intro p ls hp
        rw [labelsAtPath_unwrap_obj field g hshape p] at hp
        obtain ⟨t, hp2⟩ := hrec.2.2 p ls hp
        refine ⟨t, ?_⟩
        rw [labelsAtPath_unwrap_obj _ g2 (by rw [unwrap_rewrap_obj]) p]
        exact hp2
  · obtain ⟨hne, hnodup⟩ :=
      wf_enumish_labels (unwrapOptionalAndNullable field).schema ls hls
        (wfSchema_unwrap field hwff)
    have hnewne : setDedup (ls ++ [sanitizeEnumValue s]) ≠ [] := by
      rw [Ne, setDedup_eq_nil_iff]
      simp
    constructor
    · rw [wfSchema_rewrap, wfSchema]
      refine (Bool.and_eq_true _ _).mpr ⟨?_, rfl⟩
      rw [wfSchema]
      refine (Bool.and_eq_true _ _).mpr ⟨?_, (distinctB_iff _).mpr (setDedup_nodup _)⟩
      rw [isEmpty_false_of_ne_nil _ hnewne]
      rfl
    · constructor
      · intro ls0 hels0
        rw [hls] at hels0
        cases hels0
        rw [unwrap_rewrap_union2]
        rw [setDedup_append_single ls (sanitizeEnumValue s) hnodup]
        by_cases hmem : sanitizeEnumValue s ∈ ls
        · exact ⟨[], by simp [hmem, enumLabelsOf]⟩
        · exact ⟨[sanitizeEnumValue s], by simp [hmem, enumLabelsOf]⟩
      · intro p ls0 hp
        rw [labelsAtPath_not_obj field
          (isZodObject_of_enumLabels _ ls hls) p] at hp
        cases hp

theorem update_mono_aux : ∀ n : Nat,
    (∀ (s : Schema) (d : JValue) (c : Bool) (s2 : Schema), sizeOf s ≤ n →
       wfSchema s = true → updateSchemaFromData s d = .ok (c, s2) →
       wfSchema s2 = true ∧ labelExtends s s2) ∧
    (∀ (fs : Fields) (d : JValue) (mods : List (String × Schema)), sizeOf fs ≤ n →
       distinctB (fieldNames fs) = true → wfFields fs = true →
       collectMods fs d = .ok mods →
       wfFields (applyMods fs mods) = true ∧
       ∀ k f, lookupField fs k = some f →
         ∃ f2, lookupField (applyMods fs mods) k = some f2 ∧ labelExtends f f2) := by
  intro n
  induction n using Nat.strong_induction_on with
  | _ n ih =>
    constructor
    · intro s d c s2 hsz hwf hupd
      cases s with
      | obj fields =>
        rw [update_obj_eq] at hupd
        rcases hcm : collectMods fields d with e | mods
        · rw [hcm] at hupd
          cases hupd
        · rw [hcm] at hupd
          dsimp only at hupd
          have hszf : sizeOf fields < n := by
            have : sizeOf fields < sizeOf (Schema.obj fields) := by
              simp
            omega
          rw [wfSchema] at hwf
          obtain ⟨hdis, hwff⟩ := (Bool.and_eq_true _ _).mp hwf
          by_cases he : mods.isEmpty
          · rw [if_pos he] at hupd
            simp only [Except.ok.injEq, Prod.mk.injEq] at hupd
            obtain ⟨_, hs2⟩ := hupd
            subst hs2
            exact ⟨(Bool.and_eq_true _ _).mpr ⟨hdis, hwff⟩, labelExtends_refl _⟩
          · rw [if_neg he] at hupd
            simp only [Except.ok.injEq, Prod.mk.injEq] at hupd
            obtain ⟨_, hs2⟩ := hupd
            subst hs2
            obtain ⟨hwfa, hlk⟩ :=
              (ih (sizeOf fields) hszf).2 fields d mods le_rfl hdis hwff hcm
            constructor
            · rw [wfSchema, fieldNames_applyMods]
              exact (Bool.and_eq_true _ _).mpr ⟨hdis, hwfa⟩
            · constructor
              · intro ls hels
                simp [unwrapOptionalAndNullable, stepOptional, stepNullable,
                  enumLabelsOf] at hels
              · intro p ls hp
                cases p with
                | nil =>
                  rw [labelsAtPath_nil] at hp
                  cases hp
                | cons k ks =>
                  rcases hlf : lookupField fields k with _ | f
                  · rw [labelsAtPath_obj_none fields k ks hlf] at hp
                    cases hp
                  · obtain ⟨f2, hlf2, hext⟩ := hlk k f hlf
                    cases ks with
                    | nil =>
                      rw [labelsAtPath_obj_single fields k f hlf] at hp
                      obtain ⟨t, ht⟩ := hext.1 ls hp
                      refine ⟨t, ?_⟩
                      rw [labelsAtPath_obj_single _ k f2 hlf2]
                      exact ht
                    | cons k1 ks1 =>
                      rw [labelsAtPath_obj_cons fields k k1 ks1 f hlf] at hp
                      obtain ⟨t, ht⟩ := hext.2 (k1 :: ks1) ls hp
                      refine ⟨t, ?_⟩
                      rw [labelsAtPath_obj_cons _ k k1 ks1 f2 hlf2]
                      exact ht
      | enum ls m =>
        rw [update_not_obj (.enum ls m) d rfl] at hupd
        simp only [Except.ok.injEq, Prod.mk.injEq] at hupd
        obtain ⟨_, hs2⟩ := hupd
        subst hs2
        exact ⟨hwf, labelExtends_refl _⟩
      | str d0 =>
        rw [update_not_obj (.str d0) d rfl] at hupd
        simp only [Except.ok.injEq, Prod.mk.injEq] at hupd
        obtain ⟨_, hs2⟩ := hupd
        subst hs2
        exact ⟨hwf, labelExtends_refl _⟩
      | union2 a b m =>
        rw [update_not_obj (.union2 a b m) d rfl] at hupd
        simp only [Except.ok.injEq, Prod.mk.injEq] at hupd
        obtain ⟨_, hs2⟩ := hupd
        subst hs2
        exact ⟨hwf, labelExtends_refl _⟩
      | optional i =>
        rw [update_not_obj (.optional i) d rfl] at hupd
        simp only [Except.ok.injEq, Prod.mk.injEq] at hupd
        obtain ⟨_, hs2⟩ := hupd
        subst hs2
        exact ⟨hwf, labelExtends_refl _⟩
      | nullable i =>
        rw [update_not_obj (.nullable i) d rfl] at hupd
        simp only [Except.ok.injEq, Prod.mk.injEq] at hupd
        obtain ⟨_, hs2⟩ := hupd
        subst hs2
        exact ⟨hwf, labelExtends_refl _⟩
      | otherLeaf =>
        rw [update_not_obj .otherLeaf d rfl] at hupd
        simp only [Except.ok.injEq, Prod.mk.injEq] at hupd
        obtain ⟨_, hs2⟩ := hupd
        subst hs2
        exact ⟨hwf, labelExtends_refl _⟩
    · intro fs d mods hsz hdis hwf hcm
      cases fs with
      | nil =>
        rw [collectMods] at hcm
        cases hcm
        refine ⟨rfl, ?_⟩
        intro k f hk
        simp [lookupField] at hk
      | cons key field rest =>
        rw [fieldNames, distinctB] at hdis
        obtain ⟨hnotin, hdis2⟩ := (Bool.and_eq_true _ _).mp hdis
        rw [Bool.not_eq_true'] at hnotin
        have hnmem : key ∉ fieldNames rest := by
          intro hm
          rw [(contains_iff _ _).mpr hm] at hnotin
          cases hnotin
        rw [wfFields] at hwf
        obtain ⟨hwff, hwfr⟩ := (Bool.and_eq_true _ _).mp hwf
        have hsza : sizeOf rest < n := by
          have h2 : sizeOf rest < sizeOf (Fields.cons key field rest) := by
            simp
          omega
        have hszf : sizeOf (unwrapOptionalAndNullable field).schema < n := by
          have h1 := sizeOf_unwrap_le field
          have h2 : sizeOf field < sizeOf (Fields.cons key field rest) := by
            simp
            omega
          omega
        rw [collectMods_cons] at hcm
        rcases hpf : processField field (jGet d key) with e | ro
        · rw [hpf] at hcm
          cases hcm
        · rw [hpf] at hcm
          cases ro with
          | none =>
            obtain ⟨hwfa, hlk⟩ :=
              (ih (sizeOf rest) hsza).2 rest d mods le_rfl hdis2 hwfr hcm
            have hnone : List.lookup key mods = none :=
              collectMods_keys rest d mods hcm key
                (lookupField_eq_none_of_not_mem rest key hnmem)
            constructor
            · rw [applyMods, wfFields, hnone]
              exact (Bool.and_eq_true _ _).mpr ⟨hwff, hwfa⟩
            · intro k f hk
              rw [lookupField] at hk
              by_cases hkey : key = k
              · rw [if_pos hkey] at hk
                cases hk
                refine ⟨field, ?_, labelExtends_refl _⟩
                rw [applyMods, lookupField, if_pos hkey, hnone]
                rfl
              · rw [if_neg hkey] at hk
                obtain ⟨f2, hl2, hext⟩ := hlk k f hk
                refine ⟨f2, ?_, hext⟩
                rw [applyMods, lookupField, if_neg hkey]
                exact hl2
          | some nf =>
            rcases hr : collectMods rest d with e | ms
            · rw [hr] at hcm
              cases hcm
            · rw [hr] at hcm
              cases hcm
              obtain ⟨hwfa, hlk⟩ :=
                (ih (sizeOf rest) hsza).2 rest d ms le_rfl hdis2 hwfr hr
              obtain ⟨hwfnf, hext⟩ :=
                newField_wf_labelExtends field nf (jGet d key) n hwff hpf hszf
                  (fun s0 d0 c0 s0' hs0 hw0 hu0 =>
                    (ih (sizeOf s0) hs0).1 s0 d0 c0 s0' le_rfl hw0 hu0)
              have happ : applyMods rest ((key, nf) :: ms) = applyMods rest ms :=
                applyMods_cons_notmem rest key nf ms hnmem
              constructor
              · rw [applyMods, wfFields, happ]
                refine (Bool.and_eq_true _ _).mpr ⟨?_, hwfa⟩
                simp only [List.lookup, beq_self_eq_true, Option.getD_some]
                exact hwfnf
              · intro k f hk
                rw [lookupField] at hk
                by_cases hkey : key = k
                · rw [if_pos hkey] at hk
                  cases hk
                  refine ⟨nf, ?_, hext⟩
                  rw [applyMods, lookupField, if_pos hkey]
                  simp only [List.lookup, beq_self_eq_true, Option.getD_some]
                · rw [if_neg hkey] at hk
                  obtain ⟨f2, hl2, hext2⟩ := hlk k f hk
                  refine ⟨f2, ?_, hext2⟩
                  rw [applyMods, lookupField, if_neg hkey, happ]
                  exact hl2

/-- C1: monotonic widening across `extend` calls.  For a well-formed schema
(non-empty duplicate-free enum labels, distinct shape keys, as the
underlying library maintains), a single `extend` (`flexEnum(schema, data)`)
and any finite chain of `extend` calls keep the result well-formed and, at
every dotted path that holds an enumerated or flexible-enum field, the new
label sequence is the old one with a (possibly empty) suffix appended:
previously-present labels are never removed or reordered, and widening
appends at the end.  Applied to the intermediate schemas of a longer
chain, this makes the label sequence after any call extend the one after
every earlier call. -/
theorem extend_monotonic_widening :
    (∀ (fields : Fields) (d : JValue) (c : Bool) (S2 : Schema),
       wfSchema (.obj fields) = true →
       flexEnumData (.obj fields) d = .ok (c, S2) →
       wfSchema S2 = true ∧
       ∀ p ls, labelsAtPath (.obj fields) p = some ls →
         ∃ t, labelsAtPath S2 p = some (ls ++ t)) ∧
    (∀ (ds : List JValue) (S S2 : Schema),
       wfSchema S = true → extendSeq S ds = .ok S2 →
       wfSchema S2 = true ∧
       ∀ p ls, labelsAtPath S p = some ls →
         ∃ t, labelsAtPath S2 p = some (ls ++ t)) := by
  have hstep : ∀ (S : Schema) (d : JValue) (c : Bool) (S2 : Schema),
      wfSchema S = true → flexEnumData S d = .ok (c, S2) →
      wfSchema S2 = true ∧ labelExtends S S2 := by
    intro S d c S2 hwf hfe
    rw [flexEnumData] at hfe
    by_cases hc : (isZodObject S && truthy d) = true
    · rw [if_pos hc] at hfe
      exact (update_mono_aux (sizeOf S)).1 S d c S2 le_rfl hwf hfe
    · rw [if_neg hc] at hfe
      cases hfe
  constructor
  · intro fields d c S2 hwf hfe
    have h := hstep _ d c S2 hwf hfe
    exact ⟨h.1, h.2.2⟩
  · intro ds
    induction ds with
    | nil =>
      intro S S2 hwf hs
      rw [extendSeq] at hs
      cases hs
      exact ⟨hwf, fun p ls h => ⟨[], by simpa using h⟩⟩
    | cons d ds ih =>
      intro S S2 hwf hs
      simp only [extendSeq] at hs
      rcases hfe : flexEnumData S d with e | p1
      · rw [hfe] at hs
        cases hs
      · rw [hfe] at hs
        obtain ⟨c1, S1⟩ := p1
        dsimp only at hs
        have h1 := hstep S d c1 S1 hwf hfe
        have h2 := ih S1 S2 h1.1 hs
        refine ⟨h2.1, ?_⟩
        intro p ls hp
        obtain ⟨t1, hp1⟩ := h1.2.2 p ls hp
        obtain ⟨t2, hp2⟩ := h2.2 p (ls ++ t1) hp1
        exact ⟨t1 ++ t2, by rw [hp2, List.append_assoc]⟩

theorem extendSeq_cons_ok (S : Schema) (d : JValue) (ds : List JValue)
    (c : Bool) (S1 : Schema) (h : flexEnumData S d = .ok (c, S1)) :
    extendSeq S (d :: ds) = extendSeq S1 ds := by
  simp only [extendSeq, h]

/-- Witness for C1: two successive `extend` calls on a one-field enum
schema widen the labels `["a"]` to `["a", "b", "c"]` — the old sequence is
a prefix of the new one at the field's path. -/
theorem extend_monotonic_widening_witness :
    wfSchema (.obj (.cons "f" (.enum ["a"] none) .nil)) = true ∧
    labelsAtPath (.obj (.cons "f" (.enum ["a"] none) .nil)) ["f"] = some ["a"] ∧
    extendSeq (.obj (.cons "f" (.enum ["a"] none) .nil))
      [.vobj (.cons "f" (.vstr "b") .nil), .vobj (.cons "f" (.vstr "c") .nil)] =
      .ok (.obj (.cons "f" (.union2 (.enum ["a", "b", "c"] none)
        (.str (some DEFAULT_DESC)) (some ⟨true, none⟩)) .nil)) ∧
    ∃ t, labelsAtPath (.obj (.cons "f" (.union2 (.enum ["a", "b", "c"] none)
        (.str (some DEFAULT_DESC)) (some ⟨true, none⟩)) .nil)) ["f"] =
      some (["a"] ++ t) := by
  have hwf : wfSchema (.obj (.cons "f" (.enum ["a"] none) .nil)) = true := by decide
  have hsanb : sanitizeEnumValue "b" = "b" := by decide
  have hsanc : sanitizeEnumValue "c" = "c" := by decide
  have hdd : DEFAULT_DESC ≠ "" := by decide
  have hseq : extendSeq (.obj (.cons "f" (.enum ["a"] none) .nil))
      [.vobj (.cons "f" (.vstr "b") .nil), .vobj (.cons "f" (.vstr "c") .nil)] =
      .ok (.obj (.cons "f" (.union2 (.enum ["a", "b", "c"] none)
        (.str (some DEFAULT_DESC)) (some ⟨true, none⟩)) .nil)) := by
    have hup1 : flexEnumData (.obj (.cons "f" (.enum ["a"] none) .nil))
        (.vobj (.cons "f" (.vstr "b") .nil)) =
        .ok (true, .obj (.cons "f" (.union2 (.enum ["a", "b"] none)
          (.str (some DEFAULT_DESC)) (some ⟨true, none⟩)) .nil)) := by
      simp [flexEnumData, isZodObject, truthy, updateSchemaFromData, collectMods,
        dispatchField, unwrapOptionalAndNullable, stepOptional, stepNullable,
        jGet, lookupEntry, isFlexEnum, isZodEnum, isZodString, getEnumValues,
        toTuple, setDedup, hsanb, jsOr, descrOf, rewrap, applyMods, List.lookup]
    have hup2 : flexEnumData (.obj (.cons "f" (.union2 (.enum ["a", "b"] none)
          (.str (some DEFAULT_DESC)) (some ⟨true, none⟩)) .nil))
        (.vobj (.cons "f" (.vstr "c") .nil)) =
        .ok (true, .obj (.cons "f" (.union2 (.enum ["a", "b", "c"] none)
          (.str (some DEFAULT_DESC)) (some ⟨true, none⟩)) .nil)) := by
      simp [flexEnumData, isZodObject, truthy, updateSchemaFromData, collectMods,
        dispatchField, unwrapOptionalAndNullable, stepOptional, stepNullable,
        jGet, lookupEntry, isFlexEnum, isZodEnum, isZodString, getEnumValues,
        toTuple, setDedup, hsanc, jsOr, descrOf, rewrap, applyMods, List.lookup,
        hdd]
    exact (extendSeq_cons_ok _ _ _ _ _ hup1).trans
      ((extendSeq_cons_ok _ _ _ _ _ hup2).trans rfl)
  refine ⟨hwf, by decide, hseq, ?_⟩
  exact (extend_monotonic_widening.2
    [.vobj (.cons "f" (.vstr "b") .nil), .vobj (.cons "f" (.vstr "c") .nil)]
    (.obj (.cons "f" (.enum ["a"] none) .nil))
    (.obj (.cons "f" (.union2 (.enum ["a", "b", "c"] none)
      (.str (some DEFAULT_DESC)) (some ⟨true, none⟩)) .nil))
    hwf hseq).2 ["f"] ["a"] (by decide)

theorem applyMods_nil (fs : Fields) : applyMods fs [] = fs := by
  induction fs using fieldsInduction with
  | hnil => rfl
  | hcons n g r ih => rw [applyMods, ih]; rfl

theorem fieldNames_stripFlexF (fs : Fields) :
    fieldNames (stripFlexF fs) = fieldNames fs := by
  induction fs using fieldsInduction with
  | hnil => rw [stripFlexF]
  | hcons n g r ih => rw [stripFlexF, fieldNames, fieldNames, ih]

theorem setDedup_snoc (l : List String) (v : String) :
    setDedup (l ++ [v]) = setDedup l ++ if v ∈ l then [] else [v] := by
  induction l with
  | nil => simp [setDedup]
  | cons x xs ih =>
    rw [List.cons_append, setDedup, ih, setDedup]
    rw [List.filter_append]
    by_cases hvx : v = x
    · subst hvx
      simp [List.mem_cons]
    · by_cases hvxs : v ∈ xs
      · simp [hvxs, List.mem_cons]
      · have : v ∈ x :: xs ↔ False := by simp [hvx, hvxs]
        simp [hvxs, this, hvx]

theorem setDedup_append_mem (l1 : List String) :
    ∀ l2, (∀ x ∈ l2, x ∈ l1) → setDedup (l1 ++ l2) = setDedup l1 := by
  intro l2
  induction l2 using List.reverseRecOn with
  | nil => intro _; rw [List.append_nil]
  | append_singleton l2' v ih =>
    intro h
    rw [← List.append_assoc, setDedup_snoc]
    have hv : v ∈ l1 ++ l2' := List.mem_append_left _ (h v (by simp))
    rw [if_pos hv, List.append_nil]
    exact ih (fun x hx => h x (by simp [hx]))

theorem setDedup_self_append (l : List String) (h : l.Nodup) :
    setDedup (l ++ l) = l := by
  rw [setDedup_append_mem l l (fun x hx => hx), setDedup_of_nodup l h]

theorem intFields_keys (L : FlexityLayer) (path : List String) :
    ∀ fs mods, intFields fs L path = .ok mods →
      ∀ k, lookupField fs k = none → List.lookup k mods = none := by
  intro fs
  induction fs using fieldsInduction with
  | hnil =>
    intro mods h k _
    rw [intFields] at h
    cases h
    rfl
  | hcons n g r ih =>
    intro mods h k hk
    rw [lookupField] at hk
    by_cases hn : n = k
    · rw [if_pos hn] at hk
      cases hk
    · rw [if_neg hn] at hk
      rw [intFields] at h
      dsimp only at h
      rcases hlk : List.lookup (pathStr (path ++ [n])) L with _ | info
      · rw [hlk] at h
        dsimp only at h
        split at h
        · split at h
          · cases h
          · next nested changed hst =>
              split at h
              · cases h
              · next ms hms =>
                  cases h
                  have := ih ms hms k hk
                  cases changed with
                  | false => simpa using this
                  | true =>
                    simp only [if_true, List.singleton_append, List.lookup]
                    have hkn : (k == n) = false := by simp [Ne.symm hn]
                    rw [hkn]
                    exact this
        · exact ih mods h k hk
      · rw [hlk] at h
        dsimp only at h
        split at h
        · split at h
          · cases h
          · next vals hv =>
              split at h
              · cases h
              · next t htt =>
                  split at h
                  · cases h
                  · next ms hms =>
                      cases h
                      have := ih ms hms k hk
                      simp only [List.lookup]
                      have hkn : (k == n) = false := by simp [Ne.symm hn]
                      rw [hkn]
                      exact this
        · exact ih mods h k hk

theorem sepFields_keys :
    ∀ fs (layer : FlexityLayer) (path : List String) mods
      (layerOut : FlexityLayer) (fAfter : Fields),
      sepFields fs layer path = .ok (mods, layerOut, fAfter) →
      ∀ k, lookupField fs k = none → List.lookup k mods = none := by
  intro fs
  induction fs using fieldsInduction with
  | hnil =>
    intro layer path mods layerOut fAfter h k _
    rw [sepFields] at h
    cases h
    rfl
  | hcons n g r ih =>
    intro layer path mods layerOut fAfter h k hk
    rw [lookupField] at hk
    by_cases hn : n = k
    · rw [if_pos hn] at hk
      cases hk
    · rw [if_neg hn] at hk
      rw [sepFields] at h
      have hkn : (k == n) = false := by simp [Ne.symm hn]
      by_cases hflex : isFlexEnum (unwrapOptionalAndNullable g).schema = true
      · rw [if_pos hflex] at h
        dsimp only at h
        split at h
        · cases h
        · split at h
          · cases h
          · next ms lOut fAf hms =>
              cases h
              have := ih _ _ ms layerOut fAf hms k hk
              simp only [List.lookup, hkn]
              exact this
      · rw [if_neg hflex] at h
        by_cases hobj : isZodObject (unwrapOptionalAndNullable g).schema = true
        · rw [if_pos hobj] at h
          split at h
          · cases h
          · next nested changed layer1 afterN hst =>
              split at h
              · cases h
              · next ms lOut fAf hms =>
                  cases h
                  have := ih _ _ ms layerOut fAf hms k hk
                  cases changed with
                  | false => simpa using this
                  | true =>
                    simp only [if_true, List.singleton_append, List.lookup, hkn]
                    exact this
        · rw [if_neg hobj] at h
          split at h
          · cases h
          · next ms lOut fAf hms =>
              cases h
              exact ih _ _ mods layerOut fAf hms k hk

theorem canonicalFlexLeaf_shape (u : Schema) (h : canonicalFlexLeaf u = true) :
    ∃ ls d, u = .union2 (.enum ls none) (.str (some d)) (some ⟨true, some d⟩) ∧
      ls ≠ [] ∧ ls.Nodup ∧ d ≠ "" := by
  cases u with
  | union2 a b m =>
    cases a with
    | enum ls em =>
      cases em with
      | none =>
        cases b with
        | str db =>
          cases db with
          | some d =>
            cases m with
            | some mi =>
              cases mi with
              | mk ef dsc =>
                cases ef with
                | true =>
                  cases dsc with
                  | some d2 =>
                    simp only [canonicalFlexLeaf, Bool.and_eq_true,
                      decide_eq_true_eq, Bool.not_eq_true'] at h
                    obtain ⟨⟨⟨hd2, hne⟩, hdis⟩, hdne⟩ := h
                    refine ⟨ls, d, by rw [hd2], ?_, (distinctB_iff _).mp hdis, hdne⟩
                    intro hc
                    simp [hc] at hne
                  | none => simp [canonicalFlexLeaf] at h
                | false => simp [canonicalFlexLeaf] at h
            | none => simp [canonicalFlexLeaf] at h
          | none => simp [canonicalFlexLeaf] at h
        | obj g => simp [canonicalFlexLeaf] at h
        | enum ls2 m2 => simp [canonicalFlexLeaf] at h
        | union2 x y mm => simp [canonicalFlexLeaf] at h
        | optional i => simp [canonicalFlexLeaf] at h
        | nullable i => simp [canonicalFlexLeaf] at h
        | otherLeaf => simp [canonicalFlexLeaf] at h
      | some mi2 => simp [canonicalFlexLeaf] at h
    | obj g => simp [canonicalFlexLeaf] at h
    | str d0 => simp [canonicalFlexLeaf] at h
    | union2 x y mm => simp [canonicalFlexLeaf] at h
    | optional i => simp [canonicalFlexLeaf] at h
    | nullable i => simp [canonicalFlexLeaf] at h
    | otherLeaf => simp [canonicalFlexLeaf] at h
  | obj g => simp [canonicalFlexLeaf] at h
  | enum ls m => simp [canonicalFlexLeaf] at h
  | str d0 => simp [canonicalFlexLeaf] at h
  | optional i => simp [canonicalFlexLeaf] at h
  | nullable i => simp [canonicalFlexLeaf] at h
  | otherLeaf => simp [canonicalFlexLeaf] at h

theorem sep_strip_aux : ∀ n : Nat, ∀ (fs : Fields) (layer0 : FlexityLayer)
    (path : List String) (mods : List (String × Schema)) (layerOut : FlexityLayer)
    (fAfter : Fields),
    sizeOf fs ≤ n →
    distinctB (fieldNames fs) = true → rtReadyF fs = true →
    sepFields fs layer0 path = .ok (mods, layerOut, fAfter) →
    fAfter = fs ∧ applyMods fs mods = stripFlexF fs ∧
      (mods.isEmpty = true → stripFlexF fs = fs) := by
  intro n
  induction n using Nat.strong_induction_on with
  | _ n ih =>
    intro fs layer0 path mods layerOut fAfter hsz hdis hrt hsep
    cases fs with
    | nil =>
      rw [sepFields] at hsep
      cases hsep
      refine ⟨rfl, ?_, fun _ => ?_⟩
      all_goals rw [stripFlexF]
      all_goals rfl
    | cons key field rest =>
      rw [fieldNames, distinctB] at hdis
      obtain ⟨hnotin, hdis2⟩ := (Bool.and_eq_true _ _).mp hdis
      rw [Bool.not_eq_true'] at hnotin
      have hnmem : key ∉ fieldNames rest := by
        intro hm
        rw [(contains_iff _ _).mpr hm] at hnotin
        cases hnotin
      rw [rtReadyF] at hrt
      obtain ⟨hhead, hrtr⟩ := (Bool.and_eq_true _ _).mp hrt
      obtain ⟨hwr0, hbr⟩ := (Bool.and_eq_true _ _).mp hhead
      have hwr : field = rewrap (unwrapOptionalAndNullable field).schema
          (unwrapOptionalAndNullable field).isOptional
          (unwrapOptionalAndNullable field).isNullable := of_decide_eq_true hwr0
      have hsza : sizeOf rest < n := by
        have h2 : sizeOf rest < sizeOf (Fields.cons key field rest) := by
          simp
        omega
      rw [sepFields] at hsep
      by_cases hflex : isFlexEnum (unwrapOptionalAndNullable field).schema = true
      · rw [if_pos hflex] at hsep
        rw [if_pos hflex] at hbr
        obtain ⟨ls, D, hu2, hne, hnodup, hDne⟩ := canonicalFlexLeaf_shape _ hbr
        have hflex2 : isFlexEnum (.union2 (.enum ls none) (.str (some D))
            (some ⟨true, some D⟩)) = true := by
          rw [← hu2]
          exact hflex
        have hso := strictOne_standard_union (.enum ls none) (.str (some D))
          (some ⟨true, some D⟩) hflex2 rfl
        dsimp only at hsep
        split at hsep
        · cases hsep
        · split at hsep
          · cases hsep
          · next ms lOut fAf hms =>
              cases hsep
              obtain ⟨hfA, happ, hstrip⟩ :=
                ih (sizeOf rest) hsza rest _ path ms _ fAf le_rfl hdis2 hrtr hms
              refine ⟨?_, ?_, ?_⟩
              · rw [hfA, hu2, hso]
                dsimp only
                rw [← hu2, replaceInner_unwrap]
              · rw [applyMods, stripFlexF, if_pos hflex]
                simp only [List.lookup, beq_self_eq_true, Option.getD_some]
                rw [applyMods_cons_notmem rest key _ ms hnmem, happ]
              · intro hemp
                simp at hemp
      · rw [if_neg hflex] at hsep
        rw [if_neg hflex] at hbr
        by_cases hobj : isZodObject (unwrapOptionalAndNullable field).schema = true
        · rw [if_pos hobj] at hsep
          rw [if_pos hobj] at hbr
          cases hshape : (unwrapOptionalAndNullable field).schema with
          | obj g =>
            rw [hshape] at hsep hbr
            rw [rtReady] at hbr
            obtain ⟨hdisg, hrtg⟩ := (Bool.and_eq_true _ _).mp hbr
            have hszg : sizeOf g < n := by
              have h1 := sizeOf_unwrap_le field
              rw [hshape] at h1
              have h2 : sizeOf field < sizeOf (Fields.cons key field rest) := by
                simp
                omega
              have h3 : sizeOf g < sizeOf (Schema.obj g) := by
                simp
              omega
            rcases hst : _separateTraverse (.obj g) layer0 (path ++ [key])
              with e | ⟨nested, changed, layer1, afterN⟩
            · rw [hst] at hsep
              cases hsep
            · rw [hst] at hsep
              dsimp only at hsep
              rw [_separateTraverse] at hst
              rcases hsg : sepFields g layer0 (path ++ [key]) with e2 | ⟨mg, lg, fg⟩
              · rw [hsg] at hst
                cases hst
              · rw [hsg] at hst
                dsimp only at hst
                simp only [Except.ok.injEq, Prod.mk.injEq] at hst
                obtain ⟨hnested, hchanged, hlayer1, hafterN⟩ := hst
                obtain ⟨hfg, happg, hstripg⟩ :=
                  ih (sizeOf g) hszg g _ (path ++ [key]) mg _ fg le_rfl hdisg hrtg hsg
                split at hsep
                · cases hsep
                · next ms lOut fAf hms =>
                    cases hsep
                    obtain ⟨hfA, happ, hstrip⟩ :=
                      ih (sizeOf rest) hsza rest _ path ms _ fAf le_rfl hdis2 hrtr hms
                    have hafter2 : afterN = .obj g := by
                      rw [← hafterN, hfg]
                    refine ⟨?_, ?_, ?_⟩
                    · rw [hfA, hafter2, ← hshape, replaceInner_unwrap]
                    · rw [applyMods, stripFlexF, if_neg hflex, if_pos hobj, hshape]
                      by_cases hmg : mg.isEmpty = true
                      · have hch : changed = false := by
                          rw [← hchanged, hmg]
                          rfl
                        have hnone : List.lookup key ms = none :=
                          sepFields_keys rest _ path ms _ fAf hms key
                            (lookupField_eq_none_of_not_mem rest key hnmem)
                        have hhead2 : rewrap (stripFlex (.obj g))
                            (unwrapOptionalAndNullable field).isOptional
                            (unwrapOptionalAndNullable field).isNullable = field := by
                          rw [stripFlex, hstripg hmg, ← hshape, ← hwr]
                        simp only [hch, Bool.false_eq_true, if_false, List.nil_append]
                        rw [hnone, happ, hhead2]
                        rfl
                      · have hmgf : mg.isEmpty = false := by
                          simpa using hmg
                        have hch : changed = true := by
                          rw [← hchanged, hmgf]
                          rfl
                        have hnested2 : nested = stripFlex (.obj g) := by
                          rw [← hnested, hmgf]
                          simp only [Bool.false_eq_true, if_false]
                          rw [hfg, happg, stripFlex]
                        simp only [hch, if_true, List.singleton_append]
                        simp only [List.lookup, beq_self_eq_true, Option.getD_some]
                        rw [applyMods_cons_notmem rest key _ ms hnmem, happ, hnested2]
                    · intro hemp
                      cases hchv : changed with
                      | true =>
                        rw [hchv] at hemp
                        simp at hemp
                      | false =>
                        rw [hchv] at hemp
                        simp only [Bool.false_eq_true, if_false, List.nil_append] at hemp
                        have hmg : mg.isEmpty = true := by
                          rw [hchv] at hchanged
                          simpa using hchanged
                        rw [stripFlexF, if_neg hflex, if_pos hobj, hshape]
                        have hhead2 : rewrap (stripFlex (.obj g))
                            (unwrapOptionalAndNullable field).isOptional
                            (unwrapOptionalAndNullable field).isNullable = field := by
                          rw [stripFlex, hstripg hmg, ← hshape, ← hwr]
                        rw [hhead2, hstrip hemp]
          | enum ls m =>
            rw [hshape] at hobj
            simp [isZodObject] at hobj
          | str d0 =>
            rw [hshape] at hobj
            simp [isZodObject] at hobj
          | union2 a b m =>
            rw [hshape] at hobj
            simp [isZodObject] at hobj
          | optional i =>
            rw [hshape] at hobj
            simp [isZodObject] at hobj
          | nullable i =>
            rw [hshape] at hobj
            simp [isZodObject] at hobj
          | otherLeaf =>
            rw [hshape] at hobj
            simp [isZodObject] at hobj
        · rw [if_neg hobj] at hsep
          rw [if_neg hobj] at hbr
          split at hsep
          · cases hsep
          · next ms lOut fAf hms =>
              cases hsep
              obtain ⟨hfA, happ, hstrip⟩ :=
                ih (sizeOf rest) hsza rest _ path mods _ fAf le_rfl hdis2 hrtr hms
              refine ⟨by rw [hfA], ?_, ?_⟩
              · rw [applyMods, stripFlexF, if_neg hflex, if_neg hobj]
                have hnone : List.lookup key mods = none :=
                  sepFields_keys rest _ path mods _ fAf hms key
                    (lookupField_eq_none_of_not_mem rest key hnmem)
                rw [hnone, happ]
                rfl
              · intro hemp
                rw [stripFlexF, if_neg hflex, if_neg hobj, hstrip hemp]

theorem int_strip_aux : ∀ n : Nat, ∀ (fs : Fields) (L : FlexityLayer)
    (path : List String),
    sizeOf fs ≤ n →
    distinctB (fieldNames fs) = true → rtReadyF fs = true →
    layerFaithfulF fs L path = true →
    ∃ mods, intFields (stripFlexF fs) L path = .ok mods ∧
      applyMods (stripFlexF fs) mods = fs ∧
      (mods.isEmpty = true → stripFlexF fs = fs) := by
  intro n
  induction n using Nat.strong_induction_on with
  | _ n ih =>
    intro fs L path hsz hdis hrt hlf
    cases fs with
    | nil =>
      refine ⟨[], ?_, ?_, fun _ => ?_⟩
      · rw [stripFlexF, intFields]
      · rw [stripFlexF]
        rfl
      · rw [stripFlexF]
    | cons key field rest =>
      rw [fieldNames, distinctB] at hdis
      obtain ⟨hnotin, hdis2⟩ := (Bool.and_eq_true _ _).mp hdis
      rw [Bool.not_eq_true'] at hnotin
      have hnmem : key ∉ fieldNames rest := by
        intro hm
        rw [(contains_iff _ _).mpr hm] at hnotin
        cases hnotin
      have hnmem2 : key ∉ fieldNames (stripFlexF rest) := by
        rw [fieldNames_stripFlexF]
        exact hnmem
      rw [rtReadyF] at hrt
      obtain ⟨hhead, hrtr⟩ := (Bool.and_eq_true _ _).mp hrt
      obtain ⟨hwr0, hbr⟩ := (Bool.and_eq_true _ _).mp hhead
      have hwr : field = rewrap (unwrapOptionalAndNullable field).schema
          (unwrapOptionalAndNullable field).isOptional
          (unwrapOptionalAndNullable field).isNullable := of_decide_eq_true hwr0
      rw [layerFaithfulF] at hlf
      obtain ⟨hlfh, hlfr⟩ := (Bool.and_eq_true _ _).mp hlf
      have hsza : sizeOf rest < n := by
        have h2 : sizeOf rest < sizeOf (Fields.cons key field rest) := by
          simp
        omega
      obtain ⟨msR, hintR, happR, hstripR⟩ :=
        ih (sizeOf rest) hsza rest L path le_rfl hdis2 hrtr hlfr
      by_cases hflex : isFlexEnum (unwrapOptionalAndNullable field).schema = true
      · rw [if_pos hflex] at hbr hlfh
        obtain ⟨ls, D, hu2, hne, hnodup, hDne⟩ := canonicalFlexLeaf_shape _ hbr
        have hflex2 : isFlexEnum (.union2 (.enum ls none) (.str (some D))
            (some ⟨true, some D⟩)) = true := by
          rw [← hu2]
          exact hflex
        have hso := strictOne_standard_union (.enum ls none) (.str (some D))
          (some ⟨true, some D⟩) hflex2 rfl
        have hres : (_strictOne (unwrapOptionalAndNullable field).schema).result =
            .enum ls none := by
          rw [hu2, hso]
        have hdesc : jsOrOpt (some D) (some D) = some D := by
          simp only [jsOrOpt]
          split
          · rfl
          · rfl
        have hlook : List.lookup (pathStr (path ++ [key])) L = some ⟨ls, some D⟩ := by
          have h0 := of_decide_eq_true hlfh
          rw [hu2] at h0
          simp only [descrOf, metaOf, Option.some_bind] at h0
          rw [hdesc] at h0
          exact h0
        have hge : getEnumValues (.enum ls none) = .ok ls := by
          rw [getEnumValues, isEmpty_false_of_ne_nil ls hne]
          rfl
        have htt : toTuple (setDedup (ls ++ ls)) = .ok ls := by
          rw [setDedup_self_append ls hnodup, toTuple_of_ne_nil ls hne,
            setDedup_of_nodup ls hnodup]
        have hjd : jsOr (some D) DEFAULT_DESC = D := by
          simp only [jsOr]
          rw [if_neg hDne]
        refine ⟨(key, field) :: msR, ?_, ?_, ?_⟩
        · rw [stripFlexF, if_pos hflex, intFields, hres, unwrap_rewrap_enum]
          dsimp only
          rw [hlook]
          dsimp only
          rw [if_pos (by rfl)]
          rw [hge]
          dsimp only
          rw [htt]
          dsimp only
          rw [hintR]
          dsimp only
          rw [hjd, ← hu2, ← hwr]
        · rw [stripFlexF, if_pos hflex, applyMods]
          simp only [List.lookup, beq_self_eq_true, Option.getD_some]
          rw [applyMods_cons_notmem _ key _ msR hnmem2, happR]
        · intro hemp
          simp at hemp
      · rw [if_neg hflex] at hbr hlfh
        by_cases hobj : isZodObject (unwrapOptionalAndNullable field).schema = true
        · rw [if_pos hobj] at hbr hlfh
          cases hshape : (unwrapOptionalAndNullable field).schema with
          | obj g =>
            rw [hshape] at hbr hlfh
            rw [rtReady] at hbr
            obtain ⟨hdisg, hrtg⟩ := (Bool.and_eq_true _ _).mp hbr
            obtain ⟨hlookn0, hlfg0⟩ := (Bool.and_eq_true _ _).mp hlfh
            have hlookn : List.lookup (pathStr (path ++ [key])) L = none :=
              of_decide_eq_true hlookn0
            have hlfg : layerFaithfulF g L (path ++ [key]) = true := by
              rw [layerFaithful] at hlfg0
              exact hlfg0
            have hszg : sizeOf g < n := by
              have h1 := sizeOf_unwrap_le field
              rw [hshape] at h1
              have h2 : sizeOf field < sizeOf (Fields.cons key field rest) := by
                simp
                omega
              have h3 : sizeOf g < sizeOf (Schema.obj g) := by
                simp
              omega
            obtain ⟨mg, hintg, happg, hstripg⟩ :=
              ih (sizeOf g) hszg g L (path ++ [key]) le_rfl hdisg hrtg hlfg
            have hfield2 : field = rewrap (.obj g)
                (unwrapOptionalAndNullable field).isOptional
                (unwrapOptionalAndNullable field).isNullable := by
              conv_lhs => rw [hwr]
              rw [hshape]
            by_cases hmg : mg.isEmpty = true
            · have hsfg : stripFlexF g = g := hstripg hmg
              refine ⟨msR, ?_, ?_, ?_⟩
              · rw [stripFlexF, if_neg hflex, if_pos hobj, hshape, intFields]
                rw [stripFlex, unwrap_rewrap_obj]
                dsimp only
                rw [hlookn]
                dsimp only
                rw [if_pos (by rfl)]
                rw [_integrateTraverse, hintg]
                dsimp only
                rw [if_pos hmg, hmg]
                rw [hintR]
                dsimp only
                simp only [Bool.not_true, Bool.false_eq_true, if_false,
                  List.nil_append]
              · rw [stripFlexF, if_neg hflex, if_pos hobj, hshape, applyMods]
                have hnone : List.lookup key msR = none :=
                  intFields_keys L path (stripFlexF rest) msR hintR key
                    (lookupField_eq_none_of_not_mem _ key hnmem2)
                rw [hnone, happR]
                rw [stripFlex, hsfg, ← hfield2]
                rfl
              · intro hemp
                rw [stripFlexF, if_neg hflex, if_pos hobj, hshape, stripFlex,
                  hsfg, ← hfield2, hstripR hemp]
            · have hmgf : mg.isEmpty = false := by
                simpa using hmg
              refine ⟨(key, field) :: msR, ?_, ?_, ?_⟩
              · rw [stripFlexF, if_neg hflex, if_pos hobj, hshape, intFields]
                rw [stripFlex, unwrap_rewrap_obj]
                dsimp only
                rw [hlookn]
                dsimp only
                rw [if_pos (by rfl)]
                rw [_integrateTraverse, hintg]
                dsimp only
                have hcond : ¬(mg.isEmpty = true) := by
                  rw [hmgf]
                  exact Bool.false_ne_true
                rw [if_neg hcond, hmgf]
                rw [hintR]
                dsimp only
                simp only [Bool.not_false, eq_self_iff_true, if_true,
                  List.singleton_append]
                rw [happg, ← hfield2]
              · rw [stripFlexF, if_neg hflex, if_pos hobj, hshape, applyMods]
                simp only [List.lookup, beq_self_eq_true, Option.getD_some]
                rw [applyMods_cons_notmem _ key _ msR hnmem2, happR]
              · intro hemp
                simp at hemp
          | enum ls m =>
            rw [hshape] at hobj
            simp [isZodObject] at hobj
          | str d0 =>
            rw [hshape] at hobj
            simp [isZodObject] at hobj
          | union2 a b m =>
            rw [hshape] at hobj
            simp [isZodObject] at hobj
          | optional i =>
            rw [hshape] at hobj
            simp [isZodObject] at hobj
          | nullable i =>
            rw [hshape] at hobj
            simp [isZodObject] at hobj
          | otherLeaf =>
            rw [hshape] at hobj
            simp [isZodObject] at hobj
        · rw [if_neg hobj] at hbr hlfh
          have hlookn : List.lookup (pathStr (path ++ [key])) L = none :=
            of_decide_eq_true hlfh
          have hobjf : isZodObject (unwrapOptionalAndNullable field).schema = false := by
            rw [← Bool.not_eq_true]
            exact hobj
          refine ⟨msR, ?_, ?_, ?_⟩
          · rw [stripFlexF, if_neg hflex, if_neg hobj, intFields]
            dsimp only
            rw [hlookn]
            dsimp only
            rw [if_neg (by rw [hobjf]; exact Bool.false_ne_true)]
            exact hintR
          · rw [stripFlexF, if_neg hflex, if_neg hobj, applyMods]
            have hnone : List.lookup key msR = none :=
              intFields_keys L path (stripFlexF rest) msR hintR key
                (lookupField_eq_none_of_not_mem _ key hnmem2)
            rw [hnone, happR]
            rfl
          · intro hemp
            rw [stripFlexF, if_neg hflex, if_neg hobj, hstripR hemp]

/-- C3 counterexample: the separate/integrate round trip does not restore
the optional/nullable wrapper stacking.  A flexible leaf wrapped
nullable-outermost (`flex.optional().nullable()`) is rebuilt by both
`separateFlexibility` and `integrateFlexibility` through the fixed
`.nullable()`-then-`.optional()` sequence, so the round trip returns the
field optional-outermost: labels and description survive, the wrapper
stack does not. -/
theorem roundtrip_wrapper_cx :
    separateFlexibility (.obj (.cons "f" (.nullable (.optional
        (.union2 (.enum ["a"] none) (.str (some "d")) (some ⟨true, some "d"⟩)))) .nil)) =
      .ok (.obj (.cons "f" (.optional (.nullable (.enum ["a"] none))) .nil),
           [("f", ⟨["a"], some "d"⟩)],
           .obj (.cons "f" (.nullable (.optional
             (.union2 (.enum ["a"] none) (.str (some "d")) (some ⟨true, some "d"⟩)))) .nil)) ∧
    integrateFlexibility (.obj (.cons "f" (.optional (.nullable (.enum ["a"] none))) .nil))
      [("f", ⟨["a"], some "d"⟩)] =
      .ok (.obj (.cons "f" (.optional (.nullable
        (.union2 (.enum ["a"] none) (.str (some "d")) (some ⟨true, some "d"⟩)))) .nil)) ∧
    ((Schema.optional (.nullable
        (.union2 (.enum ["a"] none) (.str (some "d")) (some ⟨true, some "d"⟩)))) ≠
      .nullable (.optional
        (.union2 (.enum ["a"] none) (.str (some "d")) (some ⟨true, some "d"⟩)))) ∧
    wrapperStack (.nullable (.optional
      (.union2 (.enum ["a"] none) (.str (some "d")) (some ⟨true, some "d"⟩)))) =
      [.wnul, .wopt] ∧
    wrapperStack (.optional (.nullable
      (.union2 (.enum ["a"] none) (.str (some "d")) (some ⟨true, some "d"⟩)))) =
      [.wopt, .wnul] := by
  refine ⟨?_, ?_, by decide, by decide, by decide⟩
  · simp [separateFlexibility, _separateTraverse, sepFields, isZodObject,
      unwrapOptionalAndNullable, stepOptional, stepNullable, isFlexEnum,
      isZodEnum, isZodString, metaOf, getEnumValues, recordSet, pathStr,
      _strictOne, setMetaNone, replaceInner, replaceAfterOpt, replaceAfterNul,
      rewrap, applyMods, jsOrOpt, descrOf]
    decide
  · have hp1 : pathStr ["f"] = "f" := by decide
    simp [integrateFlexibility, _integrateTraverse, intFields, isZodObject,
      unwrapOptionalAndNullable, stepOptional, stepNullable, isZodEnum,
      getEnumValues, toTuple, setDedup, hp1, jsOr, rewrap, applyMods,
      List.lookup]

/-- C3 (amended): the round trip is the literal identity on
canonically-built schemas, and only restores wrappers in canonical order in
general.  For a schema whose object shapes have distinct keys, whose every
field carries its wrappers in the canonical `.nullable()`-inside-
`.optional()` order, whose flexible leaves are exactly the unions
`flexEnum` builds (untagged non-empty duplicate-free enum branch, string
branch with non-empty description, metadata repeating that description),
and whose separation layer answers each dotted path exactly as recorded
(no path-string collisions), `separateFlexibility` returns the stripped
schema with the input untouched, and `integrateFlexibility` on its output
returns the original schema itself — same labels, same description, same
wrapper stacking at every flexible path. -/
theorem separate_integrate_roundtrip_amended :
    ∀ (S cleaned after : Schema) (layer : FlexityLayer),
      rtReady S = true →
      separateFlexibility S = .ok (cleaned, layer, after) →
      layerFaithful S layer [] = true →
      cleaned = stripFlex S ∧ after = S ∧
      integrateFlexibility cleaned layer = .ok S := by
  intro S cleaned after layer hrt hsep hlf
  rw [separateFlexibility] at hsep
  by_cases hobj : isZodObject S = true
  · rw [if_pos hobj] at hsep
    cases S with
    | obj fields =>
      rw [rtReady] at hrt
      obtain ⟨hdis, hrtf⟩ := (Bool.and_eq_true _ _).mp hrt
      rw [layerFaithful] at hlf
      rcases hst : _separateTraverse (.obj fields) [] [] with e | ⟨c0, ch0, l0, a0⟩
      · rw [hst] at hsep
        cases hsep
      · rw [hst] at hsep
        dsimp only at hsep
        simp only [Except.ok.injEq, Prod.mk.injEq] at hsep
        obtain ⟨hceq, hleq, haeq⟩ := hsep
        rw [_separateTraverse] at hst
        rcases hsf : sepFields fields [] [] with e2 | ⟨mods, lOut, fAfter⟩
        · rw [hsf] at hst
          cases hst
        · rw [hsf] at hst
          dsimp only at hst
          simp only [Except.ok.injEq, Prod.mk.injEq] at hst
          obtain ⟨hc0, hch0, hl0, ha0⟩ := hst
          obtain ⟨hfA, happ, hstrip⟩ :=
            sep_strip_aux (sizeOf fields) fields [] [] mods lOut fAfter
              le_rfl hdis hrtf hsf
          have hcleaned : cleaned = stripFlex (.obj fields) := by
            rw [← hceq, ← hc0, hfA]
            by_cases hm : mods.isEmpty = true
            · rw [if_pos hm, stripFlex, hstrip hm]
            · rw [if_neg hm, stripFlex, happ]
          refine ⟨hcleaned, by rw [← haeq, ← ha0, hfA], ?_⟩
          rw [hcleaned, integrateFlexibility, stripFlex]
          rw [if_pos (by rfl)]
          obtain ⟨mods2, hint2, happ2, hstrip2⟩ :=
            int_strip_aux (sizeOf fields) fields layer [] le_rfl hdis hrtf hlf
          rw [_integrateTraverse, hint2]
          dsimp only
          by_cases hm2 : mods2.isEmpty = true
          · rw [if_pos hm2, hstrip2 hm2]
          · rw [if_neg hm2, happ2]
    | enum ls m => simp [isZodObject] at hobj
    | str d0 => simp [isZodObject] at hobj
    | union2 a b m => simp [isZodObject] at hobj
    | optional i => simp [isZodObject] at hobj
    | nullable i => simp [isZodObject] at hobj
    | otherLeaf => simp [isZodObject] at hobj
  · rw [if_neg hobj] at hsep
    cases hsep

/-- Witness for C3 (amended): a depth-two canonical schema — one flexible
field at the top level and one, optional-wrapped, inside a nested object —
separates into plain enums plus the layer and integrates back to the very
same schema. -/
theorem separate_integrate_roundtrip_amended_witness :
    rtReady (.obj (.cons "f"
        (.union2 (.enum ["a"] none) (.str (some "d")) (some ⟨true, some "d"⟩))
        (.cons "o" (.obj (.cons "h" (.optional
          (.union2 (.enum ["b"] none) (.str (some "e")) (some ⟨true, some "e"⟩))) .nil))
        .nil))) = true ∧
    separateFlexibility (.obj (.cons "f"
        (.union2 (.enum ["a"] none) (.str (some "d")) (some ⟨true, some "d"⟩))
        (.cons "o" (.obj (.cons "h" (.optional
          (.union2 (.enum ["b"] none) (.str (some "e")) (some ⟨true, some "e"⟩))) .nil))
        .nil))) =
      .ok (.obj (.cons "f" (.enum ["a"] none)
             (.cons "o" (.obj (.cons "h" (.optional (.enum ["b"] none)) .nil)) .nil)),
           [("f", ⟨["a"], some "d"⟩), ("o.h", ⟨["b"], some "e"⟩)],
           .obj (.cons "f"
             (.union2 (.enum ["a"] none) (.str (some "d")) (some ⟨true, some "d"⟩))
             (.cons "o" (.obj (.cons "h" (.optional
               (.union2 (.enum ["b"] none) (.str (some "e")) (some ⟨true, some "e"⟩))) .nil))
             .nil))) ∧
    layerFaithful (.obj (.cons "f"
        (.union2 (.enum ["a"] none) (.str (some "d")) (some ⟨true, some "d"⟩))
        (.cons "o" (.obj (.cons "h" (.optional
          (.union2 (.enum ["b"] none) (.str (some "e")) (some ⟨true, some "e"⟩))) .nil))
        .nil)))
      [("f", ⟨["a"], some "d"⟩), ("o.h", ⟨["b"], some "e"⟩)] [] = true ∧
    integrateFlexibility (.obj (.cons "f" (.enum ["a"] none)
        (.cons "o" (.obj (.cons "h" (.optional (.enum ["b"] none)) .nil)) .nil)))
      [("f", ⟨["a"], some "d"⟩), ("o.h", ⟨["b"], some "e"⟩)] =
      .ok (.obj (.cons "f"
        (.union2 (.enum ["a"] none) (.str (some "d")) (some ⟨true, some "d"⟩))
        (.cons "o" (.obj (.cons "h" (.optional
          (.union2 (.enum ["b"] none) (.str (some "e")) (some ⟨true, some "e"⟩))) .nil))
        .nil))) := by
  have hrt : rtReady (.obj (.cons "f"
      (.union2 (.enum ["a"] none) (.str (some "d")) (some ⟨true, some "d"⟩))
      (.cons "o" (.obj (.cons "h" (.optional
        (.union2 (.enum ["b"] none) (.str (some "e")) (some ⟨true, some "e"⟩))) .nil))
      .nil))) = true := by
    simp [rtReady, rtReadyF, canonicalFlexLeaf, unwrapOptionalAndNullable,
      stepOptional, stepNullable, isFlexEnum, isZodEnum, isZodString,
      isZodObject, rewrap, distinctB, fieldNames, List.contains]
  have hsep : separateFlexibility (.obj (.cons "f"
      (.union2 (.enum ["a"] none) (.str (some "d")) (some ⟨true, some "d"⟩))
      (.cons "o" (.obj (.cons "h" (.optional
        (.union2 (.enum ["b"] none) (.str (some "e")) (some ⟨true, some "e"⟩))) .nil))
      .nil))) =
      .ok (.obj (.cons "f" (.enum ["a"] none)
             (.cons "o" (.obj (.cons "h" (.optional (.enum ["b"] none)) .nil)) .nil)),
           [("f", ⟨["a"], some "d"⟩), ("o.h", ⟨["b"], some "e"⟩)],
           .obj (.cons "f"
             (.union2 (.enum ["a"] none) (.str (some "d")) (some ⟨true, some "d"⟩))
             (.cons "o" (.obj (.cons "h" (.optional
               (.union2 (.enum ["b"] none) (.str (some "e")) (some ⟨true, some "e"⟩))) .nil))
             .nil))) := by
    simp [separateFlexibility, _separateTraverse, sepFields, isZodObject,
      unwrapOptionalAndNullable, stepOptional, stepNullable, isFlexEnum,
      isZodEnum, isZodString, metaOf, getEnumValues, recordSet, pathStr,
      _strictOne, setMetaNone, replaceInner, replaceAfterOpt, replaceAfterNul,
      rewrap, applyMods, jsOrOpt, descrOf, List.lookup]
    decide
  have hlf : layerFaithful (.obj (.cons "f"
        (.union2 (.enum ["a"] none) (.str (some "d")) (some ⟨true, some "d"⟩))
        (.cons "o" (.obj (.cons "h" (.optional
          (.union2 (.enum ["b"] none) (.str (some "e")) (some ⟨true, some "e"⟩))) .nil))
        .nil)))
      [("f", ⟨["a"], some "d"⟩), ("o.h", ⟨["b"], some "e"⟩)] [] = true := by
    simp [layerFaithful, layerFaithfulF, unwrapOptionalAndNullable,
      stepOptional, stepNullable, isFlexEnum, isZodEnum, isZodString,
      isZodObject, metaOf, descrOf, jsOrOpt, pathStr, List.lookup]
    decide
  have h := separate_integrate_roundtrip_amended _ _ _ _ hrt hsep hlf
  exact ⟨hrt, hsep, hlf, h.2.2⟩

end ZodEnumForge
